import Mathlib

/-!
Verification development for the mail template formatter
(`packages/ffsmio-mailer/src/formatter.ts`).

Strings are modelled as `List Char` (`Str`).  The JavaScript regexes the
formatter builds are modelled by direct scanners that implement the exact
patterns the code constructs (note `Formatter.escape` is the identity, so
the characters `.` `[` `]` of interpolated text keep their regex meaning).
The `while` loops of `format` are modelled with fuel; a JavaScript
`SyntaxError` thrown by `new RegExp` is modelled by `Err.invalidRegex`.
-/

namespace Mailer

/-- Strings, as lists of characters. -/
abbrev Str := List Char

/-- The left brace character. -/
def lb : Char := '\x7b'

/-- The right brace character. -/
def rb : Char := '\x7d'

/-- Primitive leaf values of a data bag (`string | number | boolean | null`). -/
inductive Prim where
  | str (s : Str)
  | int (n : Int)
  | bool (b : Bool)
  | null
deriving DecidableEq, Repr

/-- JavaScript `String(v)` / `v.toString()` on primitive values. -/
def Prim.toStr : Prim → Str
  | .str s => s
  | .int n => (toString n).data
  | .bool b => if b then "true".data else "false".data
  | .null => "null".data

mutual

/-- A nested JSON-like value: a primitive, an array, or an object.
(Arrays and objects are their own inductives rather than `List`s so that
the recursions over them are structural and kernel-reducible.) -/
inductive JVal where
  | prim (p : Prim)
  | arr (xs : JArr)
  | obj (fs : JObj)

/-- An array of nested values. -/
inductive JArr where
  | nil
  | cons (head : JVal) (tail : JArr)

/-- A JS object: ordered fields with (unique, in any object JS can build)
string keys. -/
inductive JObj where
  | nil
  | cons (key : Str) (val : JVal) (tail : JObj)

end

/-- Build an object from a field list. -/
def JObj.ofList : List (Str × JVal) → JObj
  | [] => .nil
  | (k, v) :: rest => .cons k v (JObj.ofList rest)

/-- Build an array from a value list. -/
def JArr.ofList : List JVal → JArr
  | [] => .nil
  | v :: rest => .cons v (JArr.ofList rest)

/-- A nested data bag (`ObjectOf<T>`). -/
abbrev Data := JObj

/-- JS object property write `m[k] = v` on a data bag: overwrite in place
when the key exists, else append. -/
def jobInsert : JObj → Str → JVal → JObj
  | .nil, k, v => .cons k v .nil
  | .cons k₀ v₀ t, k, v =>
    if k₀ = k then .cons k₀ v t else .cons k₀ v₀ (jobInsert t k v)

/-- JS object property read `m[k]` on a data bag. -/
def jobGet : JObj → Str → Option JVal
  | .nil, _ => none
  | .cons k₀ v₀ t, k => if k₀ = k then some v₀ else jobGet t k

/-- `Object.assign(a, b)` on data bags: assign every field of `b` into
`a` in order (`b` wins on conflicts, positions of existing keys kept). -/
def jobAssign : JObj → JObj → JObj
  | a, .nil => a
  | a, .cons k v t => jobAssign (jobInsert a k v) t

/-- The keys of a data bag, in order. -/
def jobKeys : JObj → List Str
  | .nil => []
  | .cons k _ t => k :: jobKeys t

/-- The flattened lookup table (`Flatterned`): path string to primitive. -/
abbrev Flatterned := List (Str × Prim)

/-- JS object property write `m[k] = v`: overwrites in place when the key
exists (keeping its position, as JS objects do), else appends. -/
def jsInsert {β : Type} : List (Str × β) → Str → β → List (Str × β)
  | [], k, v => [(k, v)]
  | (k₀, v₀) :: rest, k, v =>
    if k₀ = k then (k₀, v) :: rest else (k₀, v₀) :: jsInsert rest k v

/-- JS object property read `m[k]`. -/
def jsGet {β : Type} (m : List (Str × β)) (k : Str) : Option β :=
  (m.find? (fun kv => decide (kv.1 = k))).map (fun kv => kv.2)

/-- `Object.assign(a, b)` / spread `\x7b...a, ...b\x7d`: assign every field of `b`
into `a` in order (`b` wins on conflicts, positions of existing keys kept). -/
def objAssign {β : Type} (a b : List (Str × β)) : List (Str × β) :=
  b.foldl (fun m kv => jsInsert m kv.1 kv.2) a

/-- The character of a decimal digit. -/
def digitChar (d : Nat) : Char := Char.ofNat (48 + d)

/-- Decimal digits of a `Nat`, with enough fuel (`n < fuel` suffices). -/
def natStrGo : Nat → Nat → Str
  | 0, _ => []
  | fuel + 1, n => if n < 10 then [digitChar n] else natStrGo fuel (n / 10) ++ [digitChar (n % 10)]

/-- Decimal representation of a `Nat`, as JS `index.toString()`. -/
def natStr (n : Nat) : Str := natStrGo (n + 1) n

/-- Leftmost occurrence index of `pat` in `s` (`String.prototype.indexOf`). -/
def findSubstr (pat : Str) : Str → Option Nat
  | [] => if List.isPrefixOf pat [] then some 0 else none
  | c :: rest =>
    if List.isPrefixOf pat (c :: rest) then some 0
    else (findSubstr pat rest).map (fun i => i + 1)

/-- JS replacement-string interpretation: `$$` is a literal `$` and `$&`
is the matched text; other characters stand for themselves.  (The
formatter never builds a regex with capture groups used in replacements,
so `$n` sequences — left literal here, as JS leaves them for a group-free
pattern — do not arise.) -/
def applyDollar (matched : Str) : Str → Str
  | [] => []
  | c :: rest =>
    if c = '$' then
      match rest with
      | [] => [c]
      | '$' :: r => '$' :: applyDollar matched r
      | '&' :: r => matched ++ applyDollar matched r
      | d :: r => c :: applyDollar matched (d :: r)
    else c :: applyDollar matched rest

/-- `s.replace(pat, repl)` with a string pattern: replace the first
occurrence of `pat`, interpreting `$` sequences in `repl`. -/
def strReplaceFirst (pat repl s : Str) : Str :=
  match findSubstr pat s with
  | none => s
  | some i => s.take i ++ applyDollar pat repl ++ s.drop (i + pat.length)

/-- `s.split(sep)` for a non-empty string separator: split at each
leftmost, non-overlapping occurrence.  Fuel = string length suffices. -/
def splitGo (sep : Str) : Nat → Str → Str → List Str
  | 0, s, acc => [acc.reverse ++ s]
  | _ + 1, [], acc => [acc.reverse]
  | fuel + 1, c :: rest, acc =>
    if sep ≠ [] ∧ List.isPrefixOf sep (c :: rest) then
      acc.reverse :: splitGo sep fuel ((c :: rest).drop sep.length) []
    else
      splitGo sep fuel rest (c :: acc)

/-- `s.split(sep)` (non-empty separator). -/
def splitOnStr (sep s : Str) : List Str := splitGo sep s.length s []

/-- `parts.join(sep)`. -/
def joinSep (sep : Str) : List Str → Str
  | [] => []
  | [x] => x
  | x :: xs => x ++ sep ++ joinSep sep xs

/-- The characters captured by `Formatter.escape`'s pattern
`([\.\[\]\x7b\x7d])`: `.` `[` `]` and the two braces. -/
def escapeSpecials : List Char := ['.', '[', ']', lb, rb]

/-- `Formatter.escape`: `path.replace(/([\.\[\]\x7b\x7d])/, '$1')`.  The
replace is non-global and its replacement is `$1` — the captured special
character itself, with no backslash inserted — so the first special
character is replaced by itself and the rest of the string is kept. -/
def escape : Str → Str
  | [] => []
  | c :: cs => if c ∈ escapeSpecials then c :: cs else c :: escape cs

/-- One regex atom consuming exactly one character: a literal character,
the `.` wildcard, or a character class. -/
inductive CharPat where
  | lit (c : Char)
  | any
  | cls (neg : Bool) (cs : List Char)
deriving DecidableEq, Repr

/-- JS line terminators, which the `.` wildcard (no `s` flag) excludes. -/
def lineTerminators : List Char := ['\n', '\r', '\u2028', '\u2029']

/-- Case-insensitive character comparison for the `i` flag. -/
def eqCI (a b : Char) : Bool := a.toLower = b.toLower

/-- Whether one atom matches one character (`ci` = case-insensitive). -/
def charMatches (ci : Bool) (p : CharPat) (c : Char) : Bool :=
  match p with
  | .lit c₀ => if ci then eqCI c₀ c else c₀ = c
  | .any => decide (c ∉ lineTerminators)
  | .cls neg cs =>
    let mem := cs.any (fun c₀ => if ci then eqCI c₀ c else decide (c₀ = c))
    if neg then !mem else mem

mutual

/-- Compilation of a regex pattern string into a sequence of
single-character atoms, modelling `new RegExp(pattern)` for the pattern
strings the formatter builds (marker texts spliced in by the
identity `escape`, and the hand-written `\[x\]` escapes): a plain
character — including the braces, which these patterns never place in a
quantifier position — matches itself, `.` is the wildcard, `\c` is the
literal `c`, and `[...]`/`[^...]` is a character class (members collected
by `compileClass`, a backslash escaping the next member).  `none` models
a thrown `SyntaxError` (e.g. an unterminated character class); characters
that would introduce regex syntax this model does not cover (groups,
quantifiers, alternation, anchors) also yield `none` and are excluded by
hypothesis wherever a theorem quantifies over marker text. -/
def compileChunk : Str → Option (List CharPat)
  | [] => some []
  | '\\' :: [] => none
  | '\\' :: c :: rest => (compileChunk rest).map (fun ps => .lit c :: ps)
  | '[' :: '^' :: rest => compileClass true [] rest
  | '[' :: rest => compileClass false [] rest
  | '.' :: rest => (compileChunk rest).map (fun ps => .any :: ps)
  | c :: rest =>
    if c ∈ ['(', ')', '*', '+', '?', '|', '^', '$'] then none
    else (compileChunk rest).map (fun ps => .lit c :: ps)

/-- Members of a character class up to the closing `]`, then the rest of
the pattern; `none` when the class is never terminated. -/
def compileClass (neg : Bool) (acc : List Char) : Str → Option (List CharPat)
  | [] => none
  | ']' :: rest => (compileChunk rest).map (fun ps => .cls neg acc.reverse :: ps)
  | '\\' :: [] => none
  | '\\' :: c :: rest => compileClass neg (c :: acc) rest
  | c :: rest => compileClass neg (c :: acc) rest

end

/-- Match a compiled atom sequence against the front of `s`, returning the
consumed text and the remainder. -/
def chunkConsume (ci : Bool) : List CharPat → Str → Option (Str × Str)
  | [], s => some ([], s)
  | _ :: _, [] => none
  | p :: ps, c :: s =>
    if charMatches ci p c then
      (chunkConsume ci ps s).map (fun pr => (c :: pr.1, pr.2))
    else none

/-- Atoms for a literal pattern fragment (each character matching itself),
used for the fixed parts of the formatter's patterns. -/
def litPats : Str → List CharPat
  | [] => []
  | c :: t => .lit c :: litPats t

mutual

/-- `Formatter.flattern(data, prefix)`: reduce over the object's entries;
a nested array or object is flattened recursively under the extended key
and spread into the accumulator, a primitive is written at its dotted
key.  The accumulator threading mirrors `\x7b...acc, ...\x7d`. -/
def flatternGo : JObj → Str → Flatterned → Flatterned
  | .nil, _, acc => acc
  | .cons key value rest, pfx, acc =>
    let lastKey := if pfx ≠ [] then pfx ++ '.' :: key else key
    match value with
    | .arr xs => flatternGo rest pfx (objAssign acc (flatternArrayGo xs lastKey 0 []))
    | .obj fs => flatternGo rest pfx (objAssign acc (flatternGo fs lastKey []))
    | .prim p => flatternGo rest pfx (jsInsert acc lastKey p)

/-- `Formatter.flatternArray(data, prefix)`: forEach with index; the key
of element `i` is `prefix ++ ".[i]"` (or `"[i]"` at the top). -/
def flatternArrayGo : JArr → Str → Nat → Flatterned → Flatterned
  | .nil, _, _, result => result
  | .cons item rest, pfx, index, result =>
    let key :=
      if pfx ≠ [] then pfx ++ '.' :: '[' :: natStr index ++ [']']
      else '[' :: natStr index ++ [']']
    match item with
    | .arr xs => flatternArrayGo rest pfx (index + 1) (objAssign result (flatternArrayGo xs key 0 []))
    | .obj fs => flatternArrayGo rest pfx (index + 1) (objAssign result (flatternGo fs key []))
    | .prim p => flatternArrayGo rest pfx (index + 1) (jsInsert result key p)

end

/-- `Formatter.flattern(data, prefix)` with an empty accumulator. -/
def flattern (data : JObj) (pfx : Str) : Flatterned :=
  flatternGo data pfx []

/-- `Formatter.flatternArray(data, prefix)` with an empty result. -/
def flatternArray (data : JArr) (pfx : Str) : Flatterned :=
  flatternArrayGo data pfx 0 []

/-- Whether a flattened key is a canonical array-index string, for the JS
own-property ordering (`Object.values` lists integer-like keys first, in
ascending numeric order). -/
def isIndexKey (s : Str) : Bool :=
  decide (s ≠ []) && s.all Char.isDigit && !(decide (s.head? = some '0') && decide (s.length ≠ 1))

/-- Numeric value of a digit string. -/
def strToNat (s : Str) : Nat := s.foldl (fun n c => n * 10 + (c.toNat - 48)) 0

/-- Stable insertion into a list sorted by `strToNat` of the key. -/
def insertByNat {β : Type} (kv : Str × β) : List (Str × β) → List (Str × β)
  | [] => [kv]
  | kv₀ :: rest =>
    if strToNat kv.1 < strToNat kv₀.1 then kv :: kv₀ :: rest
    else kv₀ :: insertByNat kv rest

/-- Stable sort by numeric key value. -/
def sortByNat {β : Type} : List (Str × β) → List (Str × β)
  | [] => []
  | kv :: rest => insertByNat kv (sortByNat rest)

/-- `Object.values(m)` under the JS own-property order: canonical
integer-like keys first in ascending numeric order, then the remaining
keys in insertion order. -/
def jsObjectValues {β : Type} (m : List (Str × β)) : List β :=
  (sortByNat (m.filter (fun kv => isIndexKey kv.1)) ++
      m.filter (fun kv => !isIndexKey kv.1)).map (fun kv => kv.2)

/-- `Formatter.arrayLike(data, path)`: the entries of `data` whose keys
start with `path ++ "."`; `isArray` is the bracket test of the last such
key (the filter callback assigns it for every matching key).  A
non-array slice becomes one `\x7bkey, value\x7d` record per entry; an array
slice is regrouped by bracket index and listed by `Object.values`. -/
def arrayLike (data : Flatterned) (path : Str) : List Flatterned :=
  let dataOfPath := data.filter (fun kv => List.isPrefixOf (path ++ ['.']) kv.1)
  let isArray :=
    match dataOfPath.getLast? with
    | some kv => List.isPrefixOf (path ++ ['.', '[']) kv.1
    | none => false
  if dataOfPath.length = 0 then []
  else if !isArray then
    dataOfPath.map (fun kv =>
      [("key".data, Prim.str (strReplaceFirst (path ++ ['.']) [] kv.1)),
       ("value".data, kv.2)])
  else
    jsObjectValues
      (dataOfPath.foldl
        (fun acc kv =>
          let parts := splitOnStr [']', '.'] (strReplaceFirst (path ++ ['.', '[']) [] kv.1)
          let index := parts.headD []
          let remainKey := joinSep [']', '.'] parts.tail
          jsInsert acc index (jsInsert (match jsGet acc index with
            | some inner => inner
            | none => []) remainKey kv.2))
        [])

/-- Thrown JavaScript errors (`invalidRegex` = a `SyntaxError` from
`new RegExp`) and exhaustion of the fuel bounding the `while` loops. -/
inductive Err where
  | invalidRegex
  | noFuel
deriving DecidableEq, Repr

/-- The tail `([^:\x7d]+)\x7d` shared by the variable pattern
`\x7b(prefix:)?([^:\x7d]+)\x7d` and the component pattern
`\x7b@component:([^\x7d:]+)\x7d`: a maximal non-empty run of characters that
are neither `:` nor `\x7d`, followed by the literal `\x7d`.  (Because `\x7d` is
excluded from the class, the greedy run admits no shorter backtracking
candidate, so the match is deterministic.)  Returns the run and the text
after the closing brace. -/
def varBody (s : Str) : Option (Str × Str) :=
  let run := s.takeWhile (fun c => decide (c ≠ ':') && decide (c ≠ rb))
  match run, s.drop run.length with
  | [], _ => none
  | b :: bs, c :: rest => if c = rb then some (b :: bs, rest) else none
  | _ :: _, [] => none

/-- One attempted match of `Formatter.variable(prefix)` —
`\x7bPFX:([^:\x7d]+)\x7d` with `PFX` the compiled (identity-escaped) prefix, or
`\x7b([^:\x7d]+)\x7d` with no prefix — at the start of `s`.  Returns the matched
marker text and the remainder of `s`. -/
def varMatchHere (pfx : Option (List CharPat)) : Str → Option (Str × Str)
  | [] => none
  | c :: s₁ =>
    if c = lb then
      match pfx with
      | none => (varBody s₁).map (fun pr => (lb :: pr.1 ++ [rb], pr.2))
      | some ps =>
        match chunkConsume false ps s₁ with
        | none => none
        | some (ptext, s₂) =>
          match s₂ with
          | ':' :: s₃ => (varBody s₃).map (fun pr => (lb :: ptext ++ ':' :: pr.1 ++ [rb], pr.2))
          | _ => none
    else none

/-- `content.match(variablePattern)` with the `g` flag: scan left to
right, and continue after each match (`lastIndex` advances past it).  The
fuel starts at the content length, which suffices because every match
consumes at least one character. -/
def varScanGo (pfx : Option (List CharPat)) : Nat → Str → List Str
  | 0, _ => []
  | _ + 1, [] => []
  | b + 1, c :: rest =>
    match varMatchHere pfx (c :: rest) with
    | some (m, after) => m :: varScanGo pfx b after
    | none => varScanGo pfx b rest

/-- All matches of the variable pattern, left to right, non-overlapping. -/
def varScan (pfx : Option (List CharPat)) (s : Str) : List Str :=
  varScanGo pfx s.length s

/-- Whether the variable pattern matches anywhere (`pattern.exec !== null`). -/
def hasVarMatch (pfx : Option (List CharPat)) : Str → Bool
  | [] => false
  | c :: rest => (varMatchHere pfx (c :: rest)).isSome || hasVarMatch pfx rest

/-- One attempted match of `Formatter.component()` —
`\x7b@component:([^\x7d:]+)\x7d`, flag `i` — at the start of `s`: the fixed head
case-insensitively, then the same greedy class-plus-brace tail as the
variable pattern.  Returns the matched text and the captured name. -/
def componentMatchHere (s : Str) : Option (Str × Str) :=
  match chunkConsume true (litPats ("\x7b@component:".data)) s with
  | none => none
  | some (pre, s₁) => (varBody s₁).map (fun pr => (pre ++ pr.1 ++ [rb], pr.1))

/-- `componentPattern.exec(content)`: leftmost match. -/
def componentExec : Str → Option (Str × Str)
  | [] => none
  | c :: rest =>
    match componentMatchHere (c :: rest) with
    | some r => some r
    | none => componentExec rest

/-- A match of `Formatter.loop(prefix)`:
`\x7b@loop:(START([^:]+))\x7d([\s\S]*?)\x7b@endloop:\1\x7d` — the full match, group 1
(the loop path, including the prefix when present), group 2, and group 3
(the loop body). -/
structure LoopMatch where
  original : Str
  loopPath : Str
  g2 : Str
  child : Str
deriving DecidableEq, Repr

/-- Backtracking over the greedy group `([^:]+)`: `run` is the maximal
run of non-`:` characters; a candidate length `k` (tried longest first)
must leave a literal `\x7d` as the next character.  For each candidate the
lazy body `([\s\S]*?)` takes the shortest text up to the first occurrence
of the backreferencing tail `\x7b@endloop:` ++ group1 ++ `\x7d`. -/
def loopCandidates (run : Str) : List Nat :=
  ((List.range run.length).filter (fun k => decide (1 ≤ k) && decide (run.get? k = some rb))).reverse

/-- Try the group-2 candidates in order; `s₃` is the text after the
(optional) prefix-plus-colon, `pfxText` the text matched by the prefix. -/
def loopTryCands (pfxText : Option Str) (s₃ : Str) (run : Str) : List Nat → Option LoopMatch
  | [] => none
  | k :: ks =>
    let g2 := run.take k
    let g1 := match pfxText with
      | none => g2
      | some pt => pt ++ ':' :: g2
    let needle := lb :: "@endloop:".data ++ g1 ++ [rb]
    let after := s₃.drop (k + 1)
    match findSubstr needle after with
    | some j =>
      some { original := lb :: "@loop:".data ++ g1 ++ [rb] ++ after.take j ++ needle,
             loopPath := g1, g2 := g2, child := after.take j }
    | none => loopTryCands pfxText s₃ run ks

/-- One attempted match of the loop pattern at the start of `s`. -/
def loopMatchHere (pfx : Option (List CharPat)) (s : Str) : Option LoopMatch :=
  if List.isPrefixOf ("\x7b@loop:".data) s then
    let s₁ := s.drop 7
    match pfx with
    | none =>
      loopTryCands none s₁ (s₁.takeWhile (fun c => decide (c ≠ ':'))) (loopCandidates (s₁.takeWhile (fun c => decide (c ≠ ':'))))
    | some ps =>
      match chunkConsume false ps s₁ with
      | none => none
      | some (ptext, s₂) =>
        match s₂ with
        | ':' :: s₃ =>
          loopTryCands (some ptext) s₃ (s₃.takeWhile (fun c => decide (c ≠ ':'))) (loopCandidates (s₃.takeWhile (fun c => decide (c ≠ ':'))))
        | _ => none
  else none

/-- `loopPattern.exec(content)`: leftmost match wins. -/
def loopExec (pfx : Option (List CharPat)) : Str → Option LoopMatch
  | [] => none
  | c :: rest =>
    match loopMatchHere pfx (c :: rest) with
    | some m => some m
    | none => loopExec pfx rest

/-- `content.replace(regex, repl)` for a global single-chunk regex: scan
left to right, replacing each match and continuing after it (replacement
text is not rescanned).  Fuel = content length suffices for the non-empty
patterns the formatter builds. -/
def raGo (ps : List CharPat) (repl : Str) : Nat → Str → Str
  | 0, s => s
  | _ + 1, [] => []
  | b + 1, c :: rest =>
    match chunkConsume false ps (c :: rest) with
    | some (m, after) => applyDollar m repl ++ raGo ps repl b after
    | none => c :: raGo ps repl b rest

/-- Global regex replace. -/
def regexReplaceAll (ps : List CharPat) (repl : Str) (s : Str) : Str :=
  raGo ps repl s.length s

/-- `content.replace(regex, repl)` for a non-global single-chunk regex:
replace the first match only (`ci` = the `i` flag). -/
def regexReplaceFirst (ci : Bool) (ps : List CharPat) (repl : Str) : Str → Str
  | [] => []
  | c :: rest =>
    match chunkConsume ci ps (c :: rest) with
    | some (m, after) => applyDollar m repl ++ after
    | none => c :: regexReplaceFirst ci ps repl rest

/-- `data[key] ?? ''`: a missing key or a `null` value yields the empty
string. -/
def lookupVal (data : Flatterned) (key : Str) : Prim :=
  match jsGet data key with
  | none => .str []
  | some .null => .str []
  | some p => p

/-- `varPath.replace(/[\apostrophe]/g, '')` with the class `[\x7b\x7d]`: remove all
braces. -/
def stripBraces (s : Str) : Str := s.filter (fun c => decide (c ≠ lb) && decide (c ≠ rb))

/-- The lookup key of a found marker: with a prefix, everything after the
last `:` (`varPath.split(':').pop()`), else the whole marker; braces
removed. -/
def markerKey (pfxStr : Str) (varPath : Str) : Str :=
  stripBraces (if pfxStr ≠ [] then (splitOnStr [':'] varPath).getLastD [] else varPath)

/-- The deduplication `filter((v, i, s) => s.indexOf(v) === i)`: keep the
first occurrence of each element, in order.  Fuel = list length suffices
(each step strictly shrinks the list). -/
def firstOccursGo : Nat → List Str → List Str
  | 0, l => l
  | _ + 1, [] => []
  | fuel + 1, x :: xs => x :: firstOccursGo fuel (xs.filter (fun y => decide (y ≠ x)))

/-- Keep first occurrences, in order. -/
def firstOccurs (l : List Str) : List Str := firstOccursGo l.length l

/-- `Formatter.solveVariables(content, data, prefix)`: empty content is
returned as is; otherwise find all matches of `Formatter.variable(prefix)`
(whose construction compiles the identity-escaped prefix — an invalid
prefix is a thrown `SyntaxError`), deduplicate them, and for each marker
in order replace — globally, by the regex built from the identity-escaped
marker text — every match with the stringified looked-up value. -/
def solveVariables (content : Str) (data : Flatterned) (pfxStr : Str) : Except Err Str :=
  if content = [] then .ok content
  else
    match (if pfxStr = [] then some none else (compileChunk (escape pfxStr)).map some) with
    | none => .error .invalidRegex
    | some pfx =>
      (firstOccurs (varScan pfx content)).foldlM
        (fun cur varPath =>
          match compileChunk (escape varPath) with
          | none => Except.error .invalidRegex
          | some rpats =>
            Except.ok (regexReplaceAll rpats (Prim.toStr (lookupVal data (markerKey pfxStr varPath))) cur))
        content

mutual

/-- `Formatter.solveLoop(content, prefix, index)`: construct
`Formatter.loop(prefix)` (compiling the prefix; invalid prefix throws),
then run the `while (exec)` loop. -/
def solveLoop (fl : Flatterned) (content : Str) (pfxStr : Str) (idx : Option Nat) (fuel : Nat) : Except Err Str :=
  match fuel with
  | 0 => .error .noFuel
  | fuel + 1 =>
    match (if pfxStr = [] then some none else (compileChunk pfxStr).map some) with
    | none => .error .invalidRegex
    | some pfx => solveLoopGo fl pfx idx content fuel

/-- The `while ((match = pattern.exec(content)))` loop of `solveLoop`. -/
def solveLoopGo (fl : Flatterned) (pfx : Option (List CharPat)) (idx : Option Nat) (content : Str) (fuel : Nat) : Except Err Str :=
  match fuel with
  | 0 => .error .noFuel
  | fuel + 1 =>
    match loopExec pfx content with
    | none => .ok content
    | some m =>
      match solveLoopMatch fl content m idx fuel with
      | .error e => .error e
      | .ok c₂ => solveLoopGo fl pfx idx c₂ fuel

/-- `Formatter.solveLoopMatch(content, match, index)`: resolve the real
path (an ambient index rewrites the first `:` to `.[index].`), collect the
array-like slice, remove the block if the slice is empty, expand each
element, and replace the first occurrence of the matched block text with
the concatenated expansions (string `replace`, no regex). -/
def solveLoopMatch (fl : Flatterned) (content : Str) (m : LoopMatch) (idx : Option Nat) (fuel : Nat) : Except Err Str :=
  match fuel with
  | 0 => .error .noFuel
  | fuel + 1 =>
    let realPath := match idx with
      | some n => strReplaceFirst [':'] ('.' :: '[' :: natStr n ++ [']', '.']) m.loopPath
      | none => m.loopPath
    let loopArray := arrayLike fl realPath
    let content₁ := if loopArray.length = 0 then strReplaceFirst m.original [] content else content
    match compileChunk (lb :: escape m.loopPath ++ ':' :: "\\[x\\]".data ++ [rb]) with
    | none => .error .invalidRegex
    | some ipats =>
      match solveLoopItems fl m ipats loopArray 0 fuel with
      | .error e => .error e
      | .ok formattedChild => .ok (strReplaceFirst m.original formattedChild content₁)

/-- The `loopArray.forEach` of `solveLoopMatch`: for element `i`, replace
the first index placeholder with `i`, substitute the element's scoped
variables, resolve nested loops (unprefixed, then prefixed by the loop
path with ambient index `i`), and concatenate. -/
def solveLoopItems (fl : Flatterned) (m : LoopMatch) (ipats : List CharPat) (items : List Flatterned) (i : Nat) (fuel : Nat) : Except Err Str :=
  match items, fuel with
  | [], _ => .ok []
  | _ :: _, 0 => .error .noFuel
  | values :: rest, fuel + 1 =>
    let contentChild := regexReplaceFirst false ipats (natStr i) m.child
    match solveVariables contentChild values m.loopPath with
    | .error e => .error e
    | .ok c₁ =>
      match solveLoop fl c₁ [] none fuel with
      | .error e => .error e
      | .ok c₂ =>
        match solveLoop fl c₂ m.loopPath (some i) fuel with
        | .error e => .error e
        | .ok c₃ =>
          match solveLoopItems fl m ipats rest (i + 1) fuel with
          | .error e => .error e
          | .ok r => .ok (c₃ ++ r)

end

/-- A registered component: a sub-template and its own data bag. -/
structure CompRec where
  content : Str
  data : Data

/-- The component registry. -/
abbrev Components := List (Str × CompRec)

/-- The `while` loop of `Formatter.solveComponent`: find the leftmost
component marker; an unregistered name is replaced (first match, `i`
flag) by the empty string, a registered one by the component's content,
with `this.data = Object.assign(\x7b\x7d, this.data, component.data)`. -/
def solveComponentGo (comps : Components) : Str → Data → Nat → Except Err (Str × Data)
  | _, _, 0 => .error .noFuel
  | content, data, fuel + 1 =>
    match componentExec content with
    | none => .ok (content, data)
    | some (found, name) =>
      match compileChunk (escape found) with
      | none => .error .invalidRegex
      | some rpats =>
        match jsGet comps name with
        | none => solveComponentGo comps (regexReplaceFirst true rpats [] content) data fuel
        | some comp =>
          solveComponentGo comps (regexReplaceFirst true rpats comp.content content)
            (jobAssign (jobAssign .nil data) comp.data) fuel

/-- `Formatter.solveComponent(content)`: run the marker loop, then
`this.flatterned = Formatter.flattern(this.data)`. -/
def solveComponent (content : Str) (comps : Components) (data : Data) (fuel : Nat) :
    Except Err (Str × Data × Flatterned) :=
  match solveComponentGo comps content data fuel with
  | .error e => .error e
  | .ok (c, d) => .ok (c, d, flattern d [])

/-- `Formatter.isNeedFormat`: either the variable pattern or the loop
pattern (both with empty prefix) matches the working text. -/
def isNeedFormat (s : Str) : Bool :=
  hasVarMatch none s || (loopExec none s).isSome

/-- `Formatter.isHasComponent`. -/
def isHasComponent (s : Str) : Bool :=
  (componentExec s).isSome

/-- The state of a `Formatter` instance. -/
structure FormatterState where
  content : Str
  data : Data
  flatterned : Flatterned
  formatted : Option Str
  components : Components

/-- `new Formatter(content, data)`: flattens the data bag; no formatted
output yet; empty component registry. -/
def mkFormatter (content : Str) (data : Data) : FormatterState :=
  { content := content, data := data, flatterned := flattern data [],
    formatted := none, components := [] }

/-- `setData(data)`: replace the bag and reflatten. -/
def setData (st : FormatterState) (data : Data) : FormatterState :=
  { st with data := data, flatterned := flattern data [] }

/-- `setComponents(components)`: `Object.assign(\x7b\x7d, components)`. -/
def setComponents (st : FormatterState) (comps : Components) : FormatterState :=
  { st with components := objAssign [] comps }

/-- `setContent(content)`: replace the working template only. -/
def setContent (st : FormatterState) (content : Str) : FormatterState :=
  { st with content := content }

/-- The `while (this.isHasComponent())` loop of `format`, threading the
working text, the data bag, and the flattened table (updated at the end
of every `solveComponent` call). -/
def formatCompGo (comps : Components) : Nat → Str → Data → Flatterned → Except Err (Str × Data × Flatterned)
  | 0, c, d, fl => if isHasComponent c then .error .noFuel else .ok (c, d, fl)
  | fuel + 1, c, d, fl =>
    if isHasComponent c then
      match solveComponent c comps d (fuel + 1) with
      | .error e => .error e
      | .ok (c₂, d₂, fl₂) => formatCompGo comps fuel c₂ d₂ fl₂
    else .ok (c, d, fl)

/-- The `while (this.isNeedFormat())` loop of `format`: one pass of
variable substitution, then one pass of loop expansion, until neither
pattern matches. -/
def formatVarLoopGo (fl : Flatterned) : Nat → Str → Except Err Str
  | 0, s => if isNeedFormat s then .error .noFuel else .ok s
  | fuel + 1, s =>
    if isNeedFormat s then
      match solveVariables s fl [] with
      | .error e => .error e
      | .ok s₁ =>
        match solveLoop fl s₁ [] none (fuel + 1) with
        | .error e => .error e
        | .ok s₂ => formatVarLoopGo fl fuel s₂
    else .ok s

/-- `Formatter.format(data?)`: merge the extra data (extra keys win) and
reflatten; initialise the working buffer from the template when it is
unset (or the empty string, which is falsy); expand components; then
alternate variable and loop passes until stable.  Returns the resolved
text and the mutated instance state. -/
def format (st : FormatterState) (extra : Option Data) (fuel : Nat) : Except Err (Str × FormatterState) :=
  let dfl := match extra with
    | some d => let d₂ := jobAssign (jobAssign .nil st.data) d; (d₂, flattern d₂ [])
    | none => (st.data, st.flatterned)
  let formatted₀ := match st.formatted with
    | none => st.content
    | some f => if f = [] then st.content else f
  match formatCompGo st.components fuel formatted₀ dfl.1 dfl.2 with
  | .error e => .error e
  | .ok (c₁, d₁, fl₁) =>
    match formatVarLoopGo fl₁ fuel c₁ with
    | .error e => .error e
    | .ok res => .ok (res, { st with data := d₁, flatterned := fl₁, formatted := some res })

/-! Auxiliary definitions used only by the statements and proofs below:
spec-side (claim-side) functions are marked as such in their comments.  -/

/-- The suffix of `s` after each occurrence of the character `ch`, left
to right; `s = u ++ ch :: w` for some `u` exactly when `w ∈ afterChar ch s`.
Used to reason about where a marker pattern can possibly start. -/
def afterChar (ch : Char) : Str → List Str
  | [] => []
  | c :: rest =>
    if c = ch then rest :: afterChar ch rest else afterChar ch rest

/-- Spec-side plain-text replacement, fuelled (fuel = string length
suffices): replace every literal occurrence of `pat` (left to right,
non-overlapping) by `repl`, with no regex and no `$`-interpretation. -/
def lraGo (pat repl : Str) : Nat → Str → Str
  | 0, s => s
  | _ + 1, [] => []
  | fuel + 1, c :: rest =>
    if pat ≠ [] ∧ List.isPrefixOf pat (c :: rest) then
      repl ++ lraGo pat repl fuel ((c :: rest).drop pat.length)
    else c :: lraGo pat repl fuel rest

/-- Spec-side plain-text replacement of every literal occurrence. -/
def literalReplaceAll (pat repl s : Str) : Str := lraGo pat repl s.length s

/-- Spec-side substitution pass (claim C3, following the spec's words):
find all variable markers matching the prefix, deduplicate them, and for
each unique marker replace every literal occurrence of that exact marker
text by the stringified value at its path (or the empty string when the
path is absent).  The prefix is matched literally. -/
def specSolveVariables (content : Str) (data : Flatterned) (pfxStr : Str) : Str :=
  (firstOccurs (varScan (if pfxStr = [] then none else some (litPats pfxStr)) content)).foldl
    (fun cur m => literalReplaceAll m (Prim.toStr (lookupVal data (markerKey pfxStr m))) cur)
    content

mutual

/-- Spec-side (claim C7) leaf enumeration of a nested data bag: one entry
per leaf primitive, keyed by its dotted/bracketed path, in traversal
order. -/
def leavesObj : JObj → Str → List (Str × Prim)
  | .nil, _ => []
  | .cons key value rest, pfx =>
    let lastKey := if pfx ≠ [] then pfx ++ '.' :: key else key
    leavesVal value lastKey ++ leavesObj rest pfx

/-- Leaves of an array, with the bracketed index keys. -/
def leavesArr : JArr → Str → Nat → List (Str × Prim)
  | .nil, _, _ => []
  | .cons item rest, pfx, i =>
    let key :=
      if pfx ≠ [] then pfx ++ '.' :: '[' :: natStr i ++ [']']
      else '[' :: natStr i ++ [']']
    leavesVal item key ++ leavesArr rest pfx (i + 1)

/-- Leaves of one nested value at a given key. -/
def leavesVal : JVal → Str → List (Str × Prim)
  | .prim p, key => [(key, p)]
  | .arr xs, key => leavesArr xs key 0
  | .obj fs, key => leavesObj fs key

end

/-- A marker `\x7bp:k\x7d`. -/
def markerStr (p k : Str) : Str := lb :: p ++ ':' :: k ++ [rb]

/-- The index placeholder `\x7bp:[x]\x7d`. -/
def idxMarkerStr (p : Str) : Str := lb :: p ++ ':' :: '[' :: 'x' :: ']' :: [rb]

/-- A loop block `\x7b@loop:p\x7d body \x7b@endloop:p\x7d`. -/
def loopBlock (p body : Str) : Str :=
  lb :: "@loop:".data ++ p ++ rb :: body ++ lb :: "@endloop:".data ++ p ++ [rb]

/-- A segment of a loop body: literal text, a scoped variable marker
`\x7bpath:key\x7d`, or the index placeholder `\x7bpath:[x]\x7d`. -/
inductive Seg where
  | lit (s : Str)
  | var (k : Str)
  | idx
deriving DecidableEq, Repr

/-- The loop-body text denoted by a list of segments for loop path `p`. -/
def renderBody (p : Str) : List Seg → Str
  | [] => []
  | .lit s :: rest => s ++ renderBody p rest
  | .var k :: rest => markerStr p k ++ renderBody p rest
  | .idx :: rest => idxMarkerStr p ++ renderBody p rest

/-- Spec-side (claim C4) expansion of one segment for the `i`-th record
`r`: a literal stays, a scoped variable becomes the stringified value of
its key in `r` (empty when absent), the placeholder becomes the index. -/
def expandSeg (r : Flatterned) (i : Nat) : Seg → Str
  | .lit s => s
  | .var k => Prim.toStr (lookupVal r k)
  | .idx => natStr i

/-- Spec-side expansion of the whole body for the `i`-th record. -/
def expandItem (segs : List Seg) (i : Nat) (r : Flatterned) : Str :=
  (segs.map (expandSeg r i)).flatten

/-- Spec-side (claim C4) loop output: the concatenated expansions of the
body, one per record, in order, with the `i`-th expansion indexed by `i`. -/
def specExpand (segs : List Seg) (records : List Flatterned) : Str :=
  (records.enum.map (fun pr => expandItem segs pr.1 pr.2)).flatten

/-- Characters with no special meaning in the patterns `compileChunk`
models (note `.` `[` `]` are special — `Formatter.escape` does not escape
them — while the braces are plain). -/
def plainPatChar (c : Char) : Bool :=
  decide (c ∉ ['\\', '[', ']', '.', '(', ')', '*', '+', '?', '|', '^', '$'])

/-- Characters allowed in a loop path or scoped-variable key by the
theorems below: plain for the regexes, not a marker delimiter (`:`,
braces), and not `@` — not even up to the case-insensitive comparison the
component pattern uses (no character other than `@` itself is
case-insensitively equal to `@`, but stating it through `eqCI` keeps the
proofs independent of a case-folding model). -/
def goodPathChar (c : Char) : Bool :=
  plainPatChar c && decide (c ∉ [':', '@', lb, rb]) && !eqCI '@' c && !eqCI lb c

/-- Characters allowed in the literal segments of a rendered loop body:
no braces, no `:`, no `@`, no `$` — the opening brace again excluded up
to `eqCI`, for the case-insensitive component scan. -/
def goodLitChar (c : Char) : Bool :=
  decide (c ∉ [lb, rb, ':', '@', '$']) && !eqCI lb c

/-- A substituted value must not introduce a brace or a `$`. -/
def valOk (p : Prim) : Bool :=
  p.toStr.all (fun c => decide (c ≠ lb) && decide (c ≠ '$'))

/-- Well-formedness of one body segment for the loop theorems. -/
def segOk : Seg → Bool
  | .lit s => s.all goodLitChar
  | .var k => decide (k ≠ []) && k.all goodPathChar
  | .idx => true

/-- Well-formedness of one record: distinct keys, `goodPathChar` keys,
`valOk` values. -/
def recordOk (r : Flatterned) : Bool :=
  decide ((r.map Prod.fst).Nodup) &&
    r.all (fun kv => decide (kv.1 ≠ []) && kv.1.all goodPathChar && valOk kv.2)

/-- Surrounding text admissible around a loop block for the loop
theorems: no character case-insensitively equal to the opening brace (in
particular no opening brace itself, since `eqCI` is reflexive), so that
neither the component pattern nor the variable or loop patterns can
start inside it. -/
def sideOk (s : Str) : Bool := s.all (fun c => !eqCI lb c)

/-- The number of index-placeholder segments in a loop body. -/
def idxCount (segs : List Seg) : Nat := segs.countP (fun sg => decide (sg = .idx))

/-- Replace the first index-placeholder segment by the literal decimal
index (the effect of the non-global `indexPattern` replace). -/
def substIdx (i : Nat) : List Seg → List Seg
  | [] => []
  | .idx :: rest => .lit (natStr i) :: rest
  | sg :: rest => sg :: substIdx i rest

/-- Replace every scoped-variable segment with key `k` by the literal
replacement text (the effect of one global marker replace). -/
def substVar (k v : Str) : List Seg → List Seg
  | [] => []
  | .var k₀ :: rest => (if k₀ = k then .lit v else .var k₀) :: substVar k v rest
  | sg :: rest => sg :: substVar k v rest

/-- The keys of the scoped-variable segments, in order. -/
def segKeys : List Seg → List Str
  | [] => []
  | .var k :: rest => k :: segKeys rest
  | _ :: rest => segKeys rest

/-- The marker texts of the scoped-variable segments, in order (what the
scoped variable scan finds in the rendered body). -/
def segMarkers (p : Str) : List Seg → List Str
  | [] => []
  | .var k :: rest => markerStr p k :: segMarkers p rest
  | _ :: rest => segMarkers p rest

/-- Replace every scoped-variable segment by the literal stringified
value of its key in the record (the effect of a full substitution pass). -/
def substVars (r : Flatterned) : List Seg → List Seg
  | [] => []
  | .var k :: rest => .lit (Prim.toStr (lookupVal r k)) :: substVars r rest
  | sg :: rest => sg :: substVars r rest

/-- `specExpand` with an explicit starting index, for the induction over
the records. -/
def specExpandFrom (segs : List Seg) : Nat → List Flatterned → Str
  | _, [] => []
  | i, r :: rest => expandItem segs i r ++ specExpandFrom segs (i + 1) rest

/-- Two successive `format()` calls with no intervening mutation: the
pair of returned strings. -/
def formatTwice (st : FormatterState) (fuel : Nat) : Except Err (Str × Str) :=
  match format st none fuel with
  | .error e => .error e
  | .ok (s₁, st₁) =>
    match format st₁ none fuel with
    | .error e => .error e
    | .ok (s₂, _) => .ok (s₁, s₂)

/-! ## Theorems -/

/-- C8: `Formatter.escape` is the identity function — its non-global
`replace` substitutes the first matched special character by `$1`, the
captured character itself, inserting no backslash.  Consequently every
regex the formatter builds from marker or path text receives `.` `[` `]`
(and the braces) unescaped, so those characters keep their regex meaning
(as `compileChunk` models). -/
theorem escape_is_identity (s : Str) : escape s = s := by
  induction s with
  | nil => rfl
  | cons c cs ih =>
    unfold escape
    by_cases h : c ∈ escapeSpecials <;> simp [h, ih]

/-- C10: `setContent(template)` replaces only the stored template string;
the data bag, the flattened table, the component registry and the cached
formatted output are unchanged.  (Chaining: the TS method returns `this`;
here the returned state differs from the input only in `content`.) -/
theorem setContent_replaces_only_content (st : FormatterState) (c : Str) :
    (setContent st c).content = c ∧
    (setContent st c).data = st.data ∧
    (setContent st c).flatterned = st.flatterned ∧
    (setContent st c).formatted = st.formatted ∧
    (setContent st c).components = st.components :=
  ⟨rfl, rfl, rfl, rfl, rfl⟩

/-- C1: the formatter is not exception-free.  On the template `\x7ba[\x7d`
(empty data bag, no components) the variable pass finds the marker
`\x7ba[\x7d` and builds `new RegExp(Formatter.escape('\x7ba[\x7d'), 'g')`; since
`escape` is the identity, the pattern contains an unterminated character
class and `new RegExp` throws a `SyntaxError` (modelled by
`Err.invalidRegex`).  This contradicts the spec's "the formatter never
throws"; the intent of `escape` is clearly to neutralise such characters,
so the code, not the claim, is wrong. -/
theorem format_throws_on_unterminated_class :
    (format (mkFormatter "\x7ba[\x7d".data .nil) none 10).map Prod.fst
      = .error .invalidRegex := rfl

/-- C2 counterexample: caller data `\x7bk: "caller"\x7d`, component `c` with
content `""` and data `\x7bk: "comp"\x7d`, template `\x7b@component:c\x7d\x7bk\x7d`.
After expanding the component, `Object.assign(\x7b\x7d, this.data,
component.data)` lets the component's value win, so `\x7bk\x7d` resolves to
`"comp"`, not the caller's `"caller"` as the claim asserts. -/
theorem component_data_wins_cex :
    (format (setComponents
        (mkFormatter "\x7b@component:c\x7d\x7bk\x7d".data
          (.cons "k".data (.prim (.str "caller".data)) .nil))
        [("c".data, ⟨[], .cons "k".data (.prim (.str "comp".data)) .nil⟩)])
      none 10).map Prod.fst = .ok "comp".data ∧
    "comp".data ≠ "caller".data :=
  ⟨rfl, by decide⟩

/-- C3 counterexample: because `escape` is the identity, the replacement
regex built from the marker `\x7ba.b\x7d` treats `.` as a wildcard, so one pass
on `"\x7ba.b\x7d \x7baXb\x7d"` replaces the other marker text `\x7baXb\x7d` as well: the
code yields `"V V"`, while the spec-side substitution (replace only the
exact marker text literally) yields `"V W"`. -/
theorem solveVariables_wildcard_cex :
    solveVariables "\x7ba.b\x7d \x7baXb\x7d".data
        [("a.b".data, .str "V".data), ("aXb".data, .str "W".data)] []
      = .ok "V V".data ∧
    specSolveVariables "\x7ba.b\x7d \x7baXb\x7d".data
        [("a.b".data, .str "V".data), ("aXb".data, .str "W".data)] []
      = "V W".data ∧
    "V V".data ≠ "V W".data :=
  ⟨rfl, rfl, by decide⟩

/-- C4 counterexample: a loop whose single record has keys `a.b` and
`aXb`.  The scoped replacement regex for `\x7bitems:a.b\x7d` (identity
`escape`, `.` wildcard) also consumes the occurrence of `\x7bitems:aXb\x7d`, so
the expansion is `"V,V"` where the claim (each scoped variable resolved
from the record) demands `"V,W"`. -/
theorem loop_expansion_wildcard_cex :
    (format (mkFormatter
        "\x7b@loop:items\x7d\x7bitems:a.b\x7d,\x7bitems:aXb\x7d\x7b@endloop:items\x7d".data
        (JObj.ofList [("items".data, .arr (.ofList
          [.obj (JObj.ofList [("a.b".data, .prim (.str "V".data)),
                              ("aXb".data, .prim (.str "W".data))])]))]))
      none 10).map Prod.fst = .ok "V,V".data ∧
    specExpand [.var "a.b".data, .lit ",".data, .var "aXb".data]
        [[("a.b".data, .str "V".data), ("aXb".data, .str "W".data)]]
      = "V,W".data ∧
    "V,V".data ≠ "V,W".data :=
  ⟨rfl, rfl, by decide⟩

/-- C5 counterexample: template `\x7bv\x7d` with data `v = "\x7b@component:c\x7d"`.
The first `format()` substitutes the value and returns
`"\x7b@component:c\x7d"` — a component marker, which the exit condition does
not test for.  The second `format()` expands (here: deletes, as `c` is
unregistered) that marker and returns `""`: two successive calls with no
intervening mutation return different strings. -/
theorem format_twice_differs_cex :
    formatTwice (mkFormatter "\x7bv\x7d".data
        (.cons "v".data (.prim (.str "\x7b@component:c\x7d".data)) .nil)) 10
      = .ok ("\x7b@component:c\x7d".data, []) ∧
    "\x7b@component:c\x7d".data ≠ ([] : Str) :=
  ⟨rfl, by decide⟩

/-- C7 counterexample: the bag `\x7ba: \x7bb: 1\x7d, "a.b": 2\x7d` has two leaf
primitives, but both flatten to the key `a.b`, and the later spread
overwrites the earlier entry: the flattened mapping has a single entry,
so not every leaf obtains its own key. -/
theorem flattern_collision_cex :
    flattern (JObj.ofList
        [("a".data, .obj (.cons "b".data (.prim (.int 1)) .nil)),
         ("a.b".data, .prim (.int 2))]) []
      = [("a.b".data, .int 2)] ∧
    leavesObj (JObj.ofList
        [("a".data, .obj (.cons "b".data (.prim (.int 1)) .nil)),
         ("a.b".data, .prim (.int 2))]) []
      = [("a.b".data, .int 1), ("a.b".data, .int 2)] ∧
    ([("a.b".data, Prim.int 2)] : Flatterned).length ≠
      ([("a.b".data, Prim.int 1), ("a.b".data, Prim.int 2)] : List (Str × Prim)).length :=
  ⟨rfl, rfl, by decide⟩

/-- C9: on a freshly constructed formatter whose template contains no
variable marker, no loop marker and no component marker (the three
patterns find no match), `format()` returns the template unchanged, for
any data bag and any fuel. -/
theorem format_no_markers_id (content : Str) (data : Data) (fuel : Nat)
    (hvar : hasVarMatch none content = false)
    (hloop : loopExec none content = none)
    (hcomp : componentExec content = none) :
    (format (mkFormatter content data) none fuel).map Prod.fst = .ok content := by
  have hneed : isNeedFormat content = false := by simp [isNeedFormat, hvar, hloop]
  have hhc : isHasComponent content = false := by simp [isHasComponent, hcomp]
  cases fuel with
  | zero => simp [format, mkFormatter, formatCompGo, formatVarLoopGo, hhc, hneed, Except.map]
  | succ n => simp [format, mkFormatter, formatCompGo, formatVarLoopGo, hhc, hneed, Except.map]

/-- Witness for C9 at a concrete marker-free template (which even
contains braces and a colon, but no marker shape). -/
theorem format_no_markers_id_witness :
    hasVarMatch none "hello \x7ba:b\x7d world".data = false ∧
    loopExec none "hello \x7ba:b\x7d world".data = none ∧
    componentExec "hello \x7ba:b\x7d world".data = none ∧
    (format (mkFormatter "hello \x7ba:b\x7d world".data
        (.cons "a".data (.prim (.int 5)) .nil)) none 3).map Prod.fst
      = .ok "hello \x7ba:b\x7d world".data :=
  ⟨rfl, rfl, rfl, format_no_markers_id _ _ 3 rfl rfl rfl⟩

/-- A working text without component markers passes the component loop
unchanged, whatever the fuel. -/
theorem formatCompGo_no_comp (comps : Components) (fuel : Nat) (c : Str) (d : Data)
    (fl : Flatterned) (h : isHasComponent c = false) :
    formatCompGo comps fuel c d fl = .ok (c, d, fl) := by
  cases fuel <;> simp [formatCompGo, h]

/-- A working text that needs no formatting passes the variable/loop loop
unchanged, whatever the fuel. -/
theorem formatVarLoopGo_no_need (fl : Flatterned) (fuel : Nat) (s : Str)
    (h : isNeedFormat s = false) :
    formatVarLoopGo fl fuel s = .ok s := by
  cases fuel <;> simp [formatVarLoopGo, h]

/-- The variable/loop `while` only returns a text on which
`isNeedFormat` is false. -/
theorem formatVarLoopGo_ok_stable (fl : Flatterned) (fuel : Nat) (s r : Str)
    (h : formatVarLoopGo fl fuel s = .ok r) : isNeedFormat r = false := by
  induction fuel generalizing s with
  | zero =>
    by_cases hn : isNeedFormat s
    · simp [formatVarLoopGo, hn] at h
    · simp [formatVarLoopGo, hn] at h
      simpa [h] using hn
  | succ n ih =>
    by_cases hn : isNeedFormat s
    · rw [formatVarLoopGo] at h
      simp only [hn, if_true] at h
      cases h₁ : solveVariables s fl [] with
      | error e => rw [h₁] at h; cases h
      | ok s₁ =>
        rw [h₁] at h
        dsimp only at h
        cases h₂ : solveLoop fl s₁ [] none (n + 1) with
        | error e => rw [h₂] at h; cases h
        | ok s₂ => rw [h₂] at h; exact ih s₂ h
    · simp [formatVarLoopGo, hn] at h
      simpa [h] using hn

/-- C5 (amended): when a `format()` call returns a nonempty string that
contains no component marker, an immediately following `format()` with no
intervening mutation returns the same string (and leaves the state
unchanged), for any fuel of the second call. -/
theorem format_second_call_stable (st : FormatterState) (fuel fuel₂ : Nat) (s : Str)
    (st₁ : FormatterState)
    (h : format st none fuel = .ok (s, st₁))
    (hne : s ≠ [])
    (hc : componentExec s = none) :
    format st₁ none fuel₂ = .ok (s, st₁) := by
  rw [format] at h
  simp only at h
  cases h₁ : formatCompGo st.components fuel
      (match st.formatted with
        | none => st.content
        | some f => if f = [] then st.content else f) st.data st.flatterned with
  | error e => rw [h₁] at h; cases h
  | ok t =>
    rw [h₁] at h
    obtain ⟨c₁, d₁, fl₁⟩ := t
    dsimp only at h
    cases h₂ : formatVarLoopGo fl₁ fuel c₁ with
    | error e => rw [h₂] at h; cases h
    | ok res =>
      rw [h₂] at h
      simp only [Except.ok.injEq, Prod.mk.injEq] at h
      obtain ⟨rfl, rfl⟩ := h
      have hstable : isNeedFormat res = false := formatVarLoopGo_ok_stable fl₁ fuel c₁ res h₂
      have hhc : isHasComponent res = false := by simp [isHasComponent, hc]
      rw [format]
      simp only [hne, if_false]
      rw [formatCompGo_no_comp _ _ _ _ _ hhc]
      dsimp only
      rw [formatVarLoopGo_no_need _ _ _ hstable]

/-- Witness for the amended C5 at a concrete stable first result. -/
theorem format_second_call_stable_witness :
    format (mkFormatter "Hi \x7bname\x7d!".data
        (.cons "name".data (.prim (.str "Ann".data)) .nil)) none 3
      = .ok ("Hi Ann!".data,
          { content := "Hi \x7bname\x7d!".data,
            data := .cons "name".data (.prim (.str "Ann".data)) .nil,
            flatterned := [("name".data, .str "Ann".data)],
            formatted := some "Hi Ann!".data,
            components := [] }) ∧
    "Hi Ann!".data ≠ ([] : Str) ∧
    componentExec "Hi Ann!".data = none ∧
    format
        { content := "Hi \x7bname\x7d!".data,
          data := .cons "name".data (.prim (.str "Ann".data)) .nil,
          flatterned := [("name".data, .str "Ann".data)],
          formatted := some "Hi Ann!".data,
          components := [] } none 0
      = .ok ("Hi Ann!".data,
          { content := "Hi \x7bname\x7d!".data,
            data := .cons "name".data (.prim (.str "Ann".data)) .nil,
            flatterned := [("name".data, .str "Ann".data)],
            formatted := some "Hi Ann!".data,
            components := [] }) :=
  ⟨rfl, by decide, rfl,
    format_second_call_stable
      (mkFormatter "Hi \x7bname\x7d!".data
        (.cons "name".data (.prim (.str "Ann".data)) .nil)) 3 0 "Hi Ann!".data
      { content := "Hi \x7bname\x7d!".data,
        data := .cons "name".data (.prim (.str "Ann".data)) .nil,
        flatterned := [("name".data, .str "Ann".data)],
        formatted := some "Hi Ann!".data,
        components := [] } rfl (by decide) rfl⟩

/-- Induction over a data bag (the fields of nested values are not
recursed into, so a single motive suffices). -/
theorem jobj_induction (motive : JObj → Prop) (hnil : motive .nil)
    (hcons : ∀ k v t, motive t → motive (.cons k v t)) : ∀ m, motive m
  | .nil => hnil
  | .cons k v t => hcons k v t (jobj_induction motive hnil hcons t)

/-- Reading an inserted key. -/
theorem jobGet_jobInsert (m : JObj) (k k₀ : Str) (v : JVal) :
    jobGet (jobInsert m k v) k₀ = if k = k₀ then some v else jobGet m k₀ := by
  induction m using jobj_induction with
  | hnil =>
    by_cases h : k = k₀ <;> simp [jobInsert, jobGet, h]
  | hcons k₁ v₁ t ih =>
    by_cases h₁ : k₁ = k
    · subst h₁
      by_cases h₀ : k₁ = k₀ <;> simp [jobInsert, jobGet, h₀]
    · by_cases h₀ : k₁ = k₀
      · subst h₀
        have : k ≠ k₁ := fun h => h₁ h.symm
        simp [jobInsert, jobGet, h₁, this]
      · simp [jobInsert, jobGet, h₁, h₀, ih]

/-- A key read never found. -/
theorem jobGet_none_of_not_mem (m : JObj) (k : Str) (h : k ∉ jobKeys m) :
    jobGet m k = none := by
  induction m using jobj_induction with
  | hnil => rfl
  | hcons k₀ v₀ t ih =>
    simp [jobKeys] at h
    have hne : ¬k₀ = k := fun he => h.1 he.symm
    simp [jobGet, hne, ih h.2]

/-- A found key is present. -/
theorem jobGet_mem_of_some (m : JObj) (k : Str) (v : JVal) (h : jobGet m k = some v) :
    k ∈ jobKeys m := by
  induction m using jobj_induction with
  | hnil => cases h
  | hcons k₀ v₀ t ih =>
    by_cases h₀ : k₀ = k
    · simp [jobKeys, h₀]
    · rw [jobGet, if_neg h₀] at h
      simp [jobKeys, ih h]

/-- Keys absent from `b` keep their value from `a` under `Object.assign`. -/
theorem jobGet_assign_of_none (a b : JObj) (k : Str) (h : jobGet b k = none) :
    jobGet (jobAssign a b) k = jobGet a k := by
  induction b using jobj_induction generalizing a with
  | hnil => rfl
  | hcons k₀ v₀ t ih =>
    by_cases h₀ : k₀ = k
    · rw [jobGet, if_pos h₀] at h; cases h
    · rw [jobGet, if_neg h₀] at h
      rw [jobAssign, ih _ h, jobGet_jobInsert]
      have hne : ¬k₀ = k := h₀
      simp [fun he : k₀ = k => h₀ he]

/-- Keys present in `b` (unique there) take `b`'s value under
`Object.assign`: the assigned bag wins on conflicts. -/
theorem jobGet_assign_of_some (a b : JObj) (k : Str) (v : JVal)
    (hnd : (jobKeys b).Nodup) (h : jobGet b k = some v) :
    jobGet (jobAssign a b) k = some v := by
  induction b using jobj_induction generalizing a with
  | hnil => cases h
  | hcons k₀ v₀ t ih =>
    rw [jobKeys, List.nodup_cons] at hnd
    by_cases h₀ : k₀ = k
    · rw [jobGet, if_pos h₀] at h
      have hv : v₀ = v := by simpa using h
      subst hv
      subst h₀
      have ht : jobGet t k₀ = none :=
        jobGet_none_of_not_mem t k₀ hnd.1
      rw [jobAssign, jobGet_assign_of_none _ _ _ ht, jobGet_jobInsert]
      simp
    · rw [jobGet, if_neg h₀] at h
      rw [jobAssign]
      exact ih _ hnd.2 h

/-- A replacement string without `$` is inserted verbatim. -/
theorem applyDollar_id (m r : Str) (h : ∀ c ∈ r, c ≠ '$') : applyDollar m r = r := by
  induction r with
  | nil => rfl
  | cons c rest ih =>
    have hc : c ≠ '$' := h c (List.mem_cons_self c rest)
    have ih₀ : applyDollar m rest = rest :=
      ih (fun d hd => h d (List.mem_cons_of_mem c hd))
    rw [applyDollar.eq_def]
    simp [hc, ih₀]

/-- Unpacking the plain-character predicate. -/
theorem plainPatChar_spec (c : Char) (h : plainPatChar c = true) :
    c ≠ '\\' ∧ c ≠ '[' ∧ c ≠ ']' ∧ c ≠ '.' ∧ c ≠ '(' ∧ c ≠ ')' ∧ c ≠ '*' ∧
    c ≠ '+' ∧ c ≠ '?' ∧ c ≠ '|' ∧ c ≠ '^' ∧ c ≠ '$' := by
  simp [plainPatChar] at h
  tauto

/-- A case-sensitive literal chunk consumes exactly itself. -/
theorem chunkConsume_lit_self (pat rest : Str) :
    chunkConsume false (litPats pat) (pat ++ rest) = some (pat, rest) := by
  induction pat with
  | nil => rfl
  | cons c t ih => simp [litPats, chunkConsume, charMatches, ih]

/-- A case-insensitive literal chunk consumes itself. -/
theorem chunkConsume_ci_self (pat rest : Str) :
    chunkConsume true (litPats pat) (pat ++ rest) = some (pat, rest) := by
  induction pat with
  | nil => rfl
  | cons c t ih => simp [litPats, chunkConsume, charMatches, eqCI, ih]

/-- What a case-sensitive literal chunk consumes is the pattern itself,
and the subject splits accordingly. -/
theorem chunkConsume_lit_eq (pat : Str) : ∀ (s : Str) (pr : Str × Str),
    chunkConsume false (litPats pat) s = some pr →
    pr.1 = pat ∧ s = pat ++ pr.2 := by
  induction pat with
  | nil =>
    intro s pr h
    simp [litPats, chunkConsume] at h
    simp [← h]
  | cons c t ih =>
    intro s pr h
    cases s with
    | nil => simp [litPats, chunkConsume] at h
    | cons c₀ s₀ =>
      simp only [litPats, chunkConsume] at h
      by_cases hc : charMatches false (.lit c) c₀
      · rw [if_pos hc] at h
        have hcc : c = c₀ := by simpa [charMatches] using hc
        subst hcc
        cases h₀ : chunkConsume false (litPats t) s₀ with
        | none => rw [h₀] at h; cases h
        | some pr₀ =>
          rw [h₀] at h
          simp only [Option.map_some', Option.some.injEq] at h
          obtain ⟨h1, h2⟩ := ih s₀ pr₀ h₀
          rw [← h]
          simp [h1, h2]
      · rw [if_neg hc] at h; cases h

/-- A literal chunk fails on any subject not starting with the pattern. -/
theorem chunkConsume_lit_none (pat s : Str) (h : ¬List.isPrefixOf pat s = true) :
    chunkConsume false (litPats pat) s = none := by
  cases h₀ : chunkConsume false (litPats pat) s with
  | none => rfl
  | some pr =>
    obtain ⟨h1, h2⟩ := chunkConsume_lit_eq pat s pr h₀
    exfalso
    apply h
    rw [h2]
    exact List.isPrefixOf_iff_prefix.mpr (List.prefix_append pat pr.2)

/-- Patterns of plain characters compile to their literal atoms. -/
theorem compileChunk_plain (s : Str) (h : ∀ c ∈ s, plainPatChar c) :
    compileChunk s = some (litPats s) := by
  induction s with
  | nil => rfl
  | cons c rest ih =>
    have hc := plainPatChar_spec c (h c (List.mem_cons_self c rest))
    have ih₀ := ih (fun d hd => h d (List.mem_cons_of_mem c hd))
    rw [compileChunk.eq_def]
    split
    · rename_i heq; exact absurd heq (List.cons_ne_nil c rest)
    · rename_i heq
      rw [List.cons.injEq] at heq
      exact absurd heq.1 hc.1
    · rename_i c₀ rest₀ heq
      rw [List.cons.injEq] at heq
      exact absurd heq.1 hc.1
    · rename_i rest₀ heq
      rw [List.cons.injEq] at heq
      exact absurd heq.1 hc.2.1
    · rename_i rest₀ heq
      rw [List.cons.injEq] at heq
      exact absurd heq.1 hc.2.1
    · rename_i rest₀ heq
      rw [List.cons.injEq] at heq
      exact absurd heq.1 hc.2.2.2.1
    · rename_i c₀ rest₀ hn1 hn2 hn3 hn4 hn5 heq
      rw [List.cons.injEq] at heq
      obtain ⟨rfl, rfl⟩ := heq
      rw [if_neg (by
        simp only [List.mem_cons, List.not_mem_nil, or_false]
        push_neg
        exact ⟨hc.2.2.2.2.1, hc.2.2.2.2.2.1, hc.2.2.2.2.2.2.1, hc.2.2.2.2.2.2.2.1,
          hc.2.2.2.2.2.2.2.2.1, hc.2.2.2.2.2.2.2.2.2.1, hc.2.2.2.2.2.2.2.2.2.2.1,
          hc.2.2.2.2.2.2.2.2.2.2.2⟩), ih₀]
      rfl

/-- `takeWhile` over text whose characters all satisfy the predicate,
stopped by a failing character. -/
theorem takeWhile_append_stop (p : Char → Bool) (a : Str) (b : Char) (t : Str)
    (ha : ∀ c ∈ a, p c = true) (hb : p b = false) :
    (a ++ b :: t).takeWhile p = a := by
  induction a with
  | nil => simp [List.takeWhile_cons, hb]
  | cons c q ih =>
    have hc := ha c (List.mem_cons_self c q)
    simp [List.takeWhile_cons, hc, ih (fun d hd => ha d (List.mem_cons_of_mem c hd))]

/-- The greedy class-plus-brace tail on a well-formed body: the body (no
`:`, no closing brace, non-empty) then the closing brace. -/
theorem varBody_exact (k rest : Str) (hne : k ≠ [])
    (hk : ∀ c ∈ k, c ≠ ':' ∧ c ≠ rb) :
    varBody (k ++ rb :: rest) = some (k, rest) := by
  have hrun : (k ++ rb :: rest).takeWhile (fun c => decide (c ≠ ':') && decide (c ≠ rb)) = k :=
    takeWhile_append_stop _ k rb rest
      (fun c hc => by simp [(hk c hc).1, (hk c hc).2]) (by simp)
  rw [varBody]
  simp only [hrun]
  cases k with
  | nil => exact absurd rfl hne
  | cons c t =>
    have hdrop : ((c :: t) ++ rb :: rest).drop (c :: t).length = rb :: rest := by
      simp [List.drop_append_of_le_length]
    simp [hdrop]

/-- The greedy class-plus-brace tail fails when a `:` arrives before any
closing brace. -/
theorem varBody_colon_stop (p t : Str) (hp : ∀ c ∈ p, c ≠ ':' ∧ c ≠ rb) :
    varBody (p ++ ':' :: t) = none := by
  have hrun : (p ++ ':' :: t).takeWhile (fun c => decide (c ≠ ':') && decide (c ≠ rb)) = p :=
    takeWhile_append_stop _ p ':' t
      (fun c hc => by simp [(hp c hc).1, (hp c hc).2]) (by simp)
  rw [varBody]
  simp only [hrun]
  cases p with
  | nil => simp
  | cons c q =>
    have hdrop : ((c :: q) ++ ':' :: t).drop (c :: q).length = ':' :: t := by
      simp [List.drop_append_of_le_length]
    simp [hdrop, rb]

/-- Unfolding of the component scan over a non-empty text. -/
theorem componentExec_cons (c : Char) (rest : Str) :
    componentExec (c :: rest) =
      match componentMatchHere (c :: rest) with
      | some r => some r
      | none => componentExec rest := by
  rw [componentExec]

/-- C2 (amended): expanding a registered component merges the
component's data bag into the caller's with `Object.assign(\x7b\x7d, this.data,
component.data)`, so on conflicting keys the value used afterwards is the
component's, and only keys absent from the component's bag keep the
caller's value.  Stated for a well-formed marker-only template and a
component whose content introduces no further component marker. -/
theorem solveComponent_component_data_wins (name : Str) (comp : CompRec)
    (comps : Components) (d : Data) (fuel : Nat)
    (hn1 : name ≠ [])
    (hn2 : ∀ c ∈ name, plainPatChar c = true ∧ c ≠ ':' ∧ c ≠ rb)
    (hreg : jsGet comps name = some comp)
    (hclean : componentExec comp.content = none)
    (hdollar : ∀ c ∈ comp.content, c ≠ '$')
    (hfuel : 2 ≤ fuel) :
    solveComponent ("\x7b@component:".data ++ name ++ [rb]) comps d fuel
      = .ok (comp.content, jobAssign (jobAssign .nil d) comp.data,
             flattern (jobAssign (jobAssign .nil d) comp.data) []) ∧
    (∀ k v, (jobKeys comp.data).Nodup → jobGet comp.data k = some v →
       jobGet (jobAssign (jobAssign .nil d) comp.data) k = some v) ∧
    (∀ k, jobGet comp.data k = none →
       jobGet (jobAssign (jobAssign .nil d) comp.data) k
         = jobGet (jobAssign .nil d) k) := by
  refine ⟨?_, fun k v hnd h => jobGet_assign_of_some _ _ _ _ hnd h,
    fun k h => jobGet_assign_of_none _ _ _ h⟩
  obtain ⟨f, rfl⟩ : ∃ f, fuel = f + 2 := ⟨fuel - 2, by omega⟩
  have hmh : componentMatchHere ("\x7b@component:".data ++ name ++ [rb])
      = some ("\x7b@component:".data ++ name ++ [rb], name) := by
    rw [componentMatchHere]
    have hsplit : ("\x7b@component:".data ++ name ++ [rb] : Str)
        = "\x7b@component:".data ++ (name ++ rb :: []) := by simp
    rw [hsplit, chunkConsume_ci_self]
    dsimp only
    rw [varBody_exact name [] hn1 (fun c hc => ⟨(hn2 c hc).2.1, (hn2 c hc).2.2⟩)]
    simp
  have hconsform : ("\x7b@component:".data ++ name ++ [rb] : Str)
      = lb :: ("@component:".data ++ name ++ [rb]) := by
    simp [lb]
  have hexec : componentExec ("\x7b@component:".data ++ name ++ [rb])
      = some ("\x7b@component:".data ++ name ++ [rb], name) := by
    rw [hconsform, componentExec_cons, ← hconsform, hmh]
  have hplain : ∀ c ∈ ("\x7b@component:".data ++ name ++ [rb] : Str), plainPatChar c = true := by
    intro c hc
    rcases List.mem_append.mp hc with hc₁ | hc₁
    · rcases List.mem_append.mp hc₁ with hc₂ | hc₂
      · exact (by decide : ∀ x ∈ ("\x7b@component:".data : Str), plainPatChar x = true) c hc₂
      · exact (hn2 c hc₂).1
    · have hcrb : c = rb := by simpa using hc₁
      subst hcrb; decide
  have hcompile : compileChunk (escape ("\x7b@component:".data ++ name ++ [rb]))
      = some (litPats ("\x7b@component:".data ++ name ++ [rb])) := by
    rw [escape_is_identity]
    exact compileChunk_plain _ hplain
  have hreplace : regexReplaceFirst true (litPats ("\x7b@component:".data ++ name ++ [rb]))
      comp.content ("\x7b@component:".data ++ name ++ [rb]) = comp.content := by
    rw [hconsform, regexReplaceFirst, ← hconsform]
    have hself := chunkConsume_ci_self ("\x7b@component:".data ++ name ++ [rb]) []
    rw [List.append_nil] at hself
    rw [hself]
    dsimp only
    rw [applyDollar_id _ _ hdollar, List.append_nil]
  rw [solveComponent, solveComponentGo, hexec]
  dsimp only
  rw [hcompile]
  dsimp only
  rw [hreg]
  dsimp only
  rw [hreplace, solveComponentGo, hclean]

/-- Witness for the amended C2: caller `\x7bk: "caller"\x7d`, component data
`\x7bk: "comp"\x7d` — after the merge the value at `k` is the component's. -/
theorem solveComponent_component_data_wins_witness :
    solveComponent ("\x7b@component:".data ++ "c".data ++ [rb])
        [("c".data, ⟨"X".data, .cons "k".data (.prim (.str "comp".data)) .nil⟩)]
        (.cons "k".data (.prim (.str "caller".data)) .nil) 2
      = .ok ("X".data,
          jobAssign (jobAssign .nil (.cons "k".data (.prim (.str "caller".data)) .nil))
            (.cons "k".data (.prim (.str "comp".data)) .nil),
          flattern (jobAssign (jobAssign .nil (.cons "k".data (.prim (.str "caller".data)) .nil))
            (.cons "k".data (.prim (.str "comp".data)) .nil)) []) ∧
    jobGet (jobAssign (jobAssign .nil (.cons "k".data (.prim (.str "caller".data)) .nil))
        (.cons "k".data (.prim (.str "comp".data)) .nil)) "k".data
      = some (.prim (.str "comp".data)) := by
  have h := solveComponent_component_data_wins "c".data
    ⟨"X".data, .cons "k".data (.prim (.str "comp".data)) .nil⟩
    [("c".data, ⟨"X".data, .cons "k".data (.prim (.str "comp".data)) .nil⟩)]
    (.cons "k".data (.prim (.str "caller".data)) .nil) 2
    (by decide) (by decide) rfl rfl (by decide) (by decide)
  exact ⟨h.1, h.2.1 "k".data _ (by decide) rfl⟩

/-- Deduplication only keeps elements of the original list. -/
theorem firstOccursGo_subset (fuel : Nat) : ∀ (l : List Str) (m : Str),
    m ∈ firstOccursGo fuel l → m ∈ l := by
  induction fuel with
  | zero => intro l m h; simp [firstOccursGo] at h; exact h
  | succ f ih =>
    intro l m h
    cases l with
    | nil => simp [firstOccursGo] at h
    | cons x xs =>
      rw [firstOccursGo] at h
      rcases List.mem_cons.mp h with rfl | h₀
      · exact List.mem_cons_self _ _
      · exact List.mem_cons_of_mem _ (List.mem_of_mem_filter (ih _ m h₀))

/-- Every match of the variable pattern starts with the left brace. -/
theorem varMatchHere_shape (pfx : Option (List CharPat)) (s : Str) (pr : Str × Str)
    (h : varMatchHere pfx s = some pr) : ∃ mid, pr.1 = lb :: mid := by
  cases s with
  | nil => cases h
  | cons c s₁ =>
    rw [varMatchHere.eq_def] at h
    dsimp only at h
    by_cases hc : c = lb
    · rw [if_pos hc] at h
      cases pfx with
      | none =>
        dsimp only at h
        cases hb : varBody s₁ with
        | none => rw [hb] at h; cases h
        | some pr₀ =>
          rw [hb] at h
          simp only [Option.map_some', Option.some.injEq] at h
          exact ⟨pr₀.1 ++ [rb], by rw [← h]; simp⟩
      | some ps =>
        dsimp only at h
        cases hk : chunkConsume false ps s₁ with
        | none => rw [hk] at h; cases h
        | some pr₁ =>
          rw [hk] at h
          obtain ⟨ptext, s₂⟩ := pr₁
          dsimp only at h
          split at h
          · rename_i s₃
            cases hb : varBody s₃ with
            | none => rw [hb] at h; cases h
            | some pr₀ =>
              rw [hb] at h
              simp only [Option.map_some', Option.some.injEq] at h
              exact ⟨ptext ++ ':' :: pr₀.1 ++ [rb], by rw [← h]; simp⟩
          · cases h
    · rw [if_neg hc] at h; cases h

/-- Every element of a global variable scan starts with the left brace
(in particular it is non-empty). -/
theorem varScanGo_shape (pfx : Option (List CharPat)) (fuel : Nat) : ∀ (s m : Str),
    m ∈ varScanGo pfx fuel s → ∃ mid, m = lb :: mid := by
  induction fuel with
  | zero => intro s m h; simp [varScanGo] at h
  | succ f ih =>
    intro s m h
    cases s with
    | nil => simp [varScanGo] at h
    | cons c rest =>
      rw [varScanGo] at h
      cases hm : varMatchHere pfx (c :: rest) with
      | none => rw [hm] at h; exact ih rest m h
      | some pr =>
        rw [hm] at h
        rcases List.mem_cons.mp h with rfl | h₀
        · exact varMatchHere_shape pfx _ pr hm
        · exact ih pr.2 m h₀

/-- A literal chunk on a subject starting with the pattern. -/
theorem chunkConsume_lit_of_starts (pat s : Str) (h : List.isPrefixOf pat s = true) :
    chunkConsume false (litPats pat) s = some (pat, s.drop pat.length) := by
  obtain ⟨t, rfl⟩ := List.isPrefixOf_iff_prefix.mp h
  rw [chunkConsume_lit_self]
  simp

/-- With a non-empty literal pattern and a `$`-free replacement, the
regex global replace is the literal global replace. -/
theorem raGo_eq_lraGo (pat repl : Str) (hpat : pat ≠ []) (hrepl : ∀ c ∈ repl, c ≠ '$') :
    ∀ (fuel : Nat) (s : Str), raGo (litPats pat) repl fuel s = lraGo pat repl fuel s := by
  intro fuel
  induction fuel with
  | zero => intro s; rfl
  | succ f ih =>
    intro s
    cases s with
    | nil => rfl
    | cons c rest =>
      rw [raGo, lraGo]
      by_cases hp : List.isPrefixOf pat (c :: rest) = true
      · rw [chunkConsume_lit_of_starts pat _ hp]
        dsimp only
        rw [if_pos ⟨hpat, hp⟩, applyDollar_id _ _ hrepl, ih]
      · rw [chunkConsume_lit_none pat _ hp]
        dsimp only
        rw [if_neg (fun hand => hp hand.2), ih]

/-- Regex global replace by a plain marker equals the spec's literal
replace. -/
theorem regexReplaceAll_eq_literal (pat repl s : Str) (hpat : pat ≠ [])
    (hrepl : ∀ c ∈ repl, c ≠ '$') :
    regexReplaceAll (litPats pat) repl s = literalReplaceAll pat repl s :=
  raGo_eq_lraGo pat repl hpat hrepl s.length s

/-- The marker fold of `solveVariables` never throws on plain markers and
computes the spec-side literal fold. -/
theorem solveVars_fold_eq (data : Flatterned) (pfxStr : Str) :
    ∀ (ms : List Str) (cur : Str),
    (∀ m ∈ ms, ∀ c ∈ m, plainPatChar c = true) →
    (∀ m ∈ ms, ∀ c ∈ Prim.toStr (lookupVal data (markerKey pfxStr m)), c ≠ '$') →
    (∀ m ∈ ms, m ≠ []) →
    List.foldlM (fun cur varPath =>
        match compileChunk (escape varPath) with
        | none => Except.error Err.invalidRegex
        | some rpats =>
          Except.ok (regexReplaceAll rpats
            (Prim.toStr (lookupVal data (markerKey pfxStr varPath))) cur)) cur ms
      = Except.ok (List.foldl (fun cur m =>
          literalReplaceAll m (Prim.toStr (lookupVal data (markerKey pfxStr m))) cur) cur ms) := by
  intro ms
  induction ms with
  | nil => intro cur _ _ _; rfl
  | cons m ms ih =>
    intro cur h1 h2 h3
    rw [List.foldlM_cons, List.foldl_cons]
    rw [escape_is_identity, compileChunk_plain _ (h1 m (List.mem_cons_self m ms))]
    dsimp only
    rw [regexReplaceAll_eq_literal _ _ _ (h3 m (List.mem_cons_self m ms))
      (h2 m (List.mem_cons_self m ms))]
    have hbind : ∀ (x : Str) (f : Str → Except Err Str),
        (Except.ok x >>= f) = f x := fun x f => rfl
    rw [hbind]
    exact ih _ (fun x hx => h1 x (List.mem_cons_of_mem m hx))
      (fun x hx => h2 x (List.mem_cons_of_mem m hx))
      (fun x hx => h3 x (List.mem_cons_of_mem m hx))

/-- C3 (amended): one pass of variable substitution at a scope prefix
finds all markers matching the prefix, deduplicates them, and for each
unique marker replaces every literal occurrence of that exact marker text
— and no other text — with the stringified value at its dotted path in
the flattened bag (empty when absent), provided the prefix and the found
markers contain no regex-special character (`. [ ] \\ ( ) * + ? | ^ $`)
and the substituted values contain no `$`.  (Without that proviso the
identity `escape` lets a marker replace other text, see the
counterexample.) -/
theorem solveVariables_eq_spec (content : Str) (data : Flatterned) (pfxStr : Str)
    (hp : ∀ c ∈ pfxStr, plainPatChar c = true)
    (hm : ∀ m ∈ varScan (if pfxStr = [] then none else some (litPats pfxStr)) content,
       ∀ c ∈ m, plainPatChar c = true)
    (hv : ∀ m ∈ varScan (if pfxStr = [] then none else some (litPats pfxStr)) content,
       ∀ c ∈ Prim.toStr (lookupVal data (markerKey pfxStr m)), c ≠ '$') :
    solveVariables content data pfxStr = .ok (specSolveVariables content data pfxStr) := by
  by_cases hc : content = []
  · subst hc
    rw [solveVariables, specSolveVariables]
    simp [varScan, varScanGo, firstOccurs, firstOccursGo]
  · rw [solveVariables, if_neg hc, specSolveVariables]
    have hpfx : (if pfxStr = [] then some none
        else Option.map some (compileChunk (escape pfxStr)))
        = some (if pfxStr = [] then none else some (litPats pfxStr)) := by
      by_cases h0 : pfxStr = []
      · simp [h0]
      · rw [if_neg h0, if_neg h0, escape_is_identity, compileChunk_plain _ hp]
        rfl
    rw [hpfx]
    dsimp only
    have hshape : ∀ m ∈ varScan (if pfxStr = [] then none else some (litPats pfxStr)) content,
        m ≠ [] := by
      intro m hm₀
      obtain ⟨mid, rfl⟩ := varScanGo_shape _ _ content m hm₀
      exact List.cons_ne_nil lb mid
    exact solveVars_fold_eq data pfxStr _ content
      (fun m hm₀ => hm m (firstOccursGo_subset _ _ m hm₀))
      (fun m hm₀ => hv m (firstOccursGo_subset _ _ m hm₀))
      (fun m hm₀ => hshape m (firstOccursGo_subset _ _ m hm₀))

/-- Witness for the amended C3 at a concrete template with one resolved
and one missing marker. -/
theorem solveVariables_eq_spec_witness :
    (∀ c ∈ ([] : Str), plainPatChar c = true) ∧
    (∀ m ∈ varScan (if ([] : Str) = [] then none else some (litPats []))
        "\x7ba\x7d \x7bmiss\x7d".data, ∀ c ∈ m, plainPatChar c = true) ∧
    solveVariables "\x7ba\x7d \x7bmiss\x7d".data [("a".data, .str "X".data)] []
      = .ok (specSolveVariables "\x7ba\x7d \x7bmiss\x7d".data [("a".data, .str "X".data)] []) :=
  ⟨by decide, by decide,
    solveVariables_eq_spec "\x7ba\x7d \x7bmiss\x7d".data [("a".data, .str "X".data)] []
      (by decide) (by decide) (by decide)⟩

/-- Inserting a fresh key appends. -/
theorem jsInsert_fresh {β : Type} (m : List (Str × β)) (k : Str) (v : β)
    (h : k ∉ m.map Prod.fst) : jsInsert m k v = m ++ [(k, v)] := by
  induction m with
  | nil => rfl
  | cons kv t ih =>
    obtain ⟨k₀, v₀⟩ := kv
    simp only [List.map_cons, List.mem_cons] at h
    push_neg at h
    rw [jsInsert, if_neg (fun he => h.1 he.symm), ih h.2]
    rfl

/-- One step of the spread fold. -/
theorem objAssign_cons {β : Type} (a : List (Str × β)) (k : Str) (v : β) (t : List (Str × β)) :
    objAssign a ((k, v) :: t) = objAssign (jsInsert a k v) t := by
  rw [objAssign, objAssign, List.foldl_cons]

/-- Spreading a bag with fresh, distinct keys appends it. -/
theorem objAssign_append {β : Type} (b : List (Str × β)) : ∀ (a : List (Str × β)),
    (b.map Prod.fst).Nodup →
    (∀ k ∈ b.map Prod.fst, k ∉ a.map Prod.fst) →
    objAssign a b = a ++ b := by
  induction b with
  | nil => intro a _ _; simp [objAssign]
  | cons kv t ih =>
    intro a hnd hdisj
    obtain ⟨k, v⟩ := kv
    simp only [List.map_cons, List.nodup_cons] at hnd
    have hka : k ∉ a.map Prod.fst :=
      hdisj k (by rw [List.map_cons]; exact List.mem_cons_self k _)
    rw [objAssign_cons]
    have hstep : jsInsert a k v = a ++ [(k, v)] := jsInsert_fresh a k v hka
    rw [hstep]
    rw [ih (a ++ [(k, v)]) hnd.2 (by
      intro k₀ hk₀
      simp only [List.map_append, List.mem_append, List.map_cons, List.map_nil,
        List.mem_singleton, List.not_mem_nil, or_false]
      push_neg
      refine ⟨hdisj k₀ (by rw [List.map_cons]; exact List.mem_cons_of_mem _ hk₀),
        fun he => hnd.1 (he ▸ hk₀)⟩)]
    simp

/-- Unfolding equations for the mutual flattening and leaf functions. -/
theorem flatternGo_nil (pfx : Str) (acc : Flatterned) :
    flatternGo .nil pfx acc = acc := rfl

/-- Flattening step at a primitive field. -/
theorem flatternGo_prim (key : Str) (p : Prim) (rest : JObj) (pfx : Str) (acc : Flatterned) :
    flatternGo (.cons key (.prim p) rest) pfx acc
      = flatternGo rest pfx (jsInsert acc (if pfx ≠ [] then pfx ++ '.' :: key else key) p) := rfl

/-- Flattening step at an array field. -/
theorem flatternGo_arr (key : Str) (xs : JArr) (rest : JObj) (pfx : Str) (acc : Flatterned) :
    flatternGo (.cons key (.arr xs) rest) pfx acc
      = flatternGo rest pfx (objAssign acc
          (flatternArrayGo xs (if pfx ≠ [] then pfx ++ '.' :: key else key) 0 [])) := rfl

/-- Flattening step at an object field. -/
theorem flatternGo_obj (key : Str) (fs : JObj) (rest : JObj) (pfx : Str) (acc : Flatterned) :
    flatternGo (.cons key (.obj fs) rest) pfx acc
      = flatternGo rest pfx (objAssign acc
          (flatternGo fs (if pfx ≠ [] then pfx ++ '.' :: key else key) [])) := rfl

/-- Array flattening at the end. -/
theorem flatternArrayGo_nil (pfx : Str) (i : Nat) (acc : Flatterned) :
    flatternArrayGo .nil pfx i acc = acc := rfl

/-- Array flattening step at a primitive element. -/
theorem flatternArrayGo_prim (p : Prim) (rest : JArr) (pfx : Str) (i : Nat) (acc : Flatterned) :
    flatternArrayGo (.cons (.prim p) rest) pfx i acc
      = flatternArrayGo rest pfx (i + 1) (jsInsert acc
          (if pfx ≠ [] then pfx ++ '.' :: '[' :: natStr i ++ [']'] else '[' :: natStr i ++ [']']) p) := rfl

/-- Array flattening step at an array element. -/
theorem flatternArrayGo_arr (xs : JArr) (rest : JArr) (pfx : Str) (i : Nat) (acc : Flatterned) :
    flatternArrayGo (.cons (.arr xs) rest) pfx i acc
      = flatternArrayGo rest pfx (i + 1) (objAssign acc (flatternArrayGo xs
          (if pfx ≠ [] then pfx ++ '.' :: '[' :: natStr i ++ [']'] else '[' :: natStr i ++ [']']) 0 [])) := rfl

/-- Array flattening step at an object element. -/
theorem flatternArrayGo_obj (fs : JObj) (rest : JArr) (pfx : Str) (i : Nat) (acc : Flatterned) :
    flatternArrayGo (.cons (.obj fs) rest) pfx i acc
      = flatternArrayGo rest pfx (i + 1) (objAssign acc (flatternGo fs
          (if pfx ≠ [] then pfx ++ '.' :: '[' :: natStr i ++ [']'] else '[' :: natStr i ++ [']']) [])) := rfl

/-- Leaves of an empty object. -/
theorem leavesObj_nil (pfx : Str) : leavesObj .nil pfx = [] := rfl

/-- Leaves of a field list. -/
theorem leavesObj_cons (key : Str) (value : JVal) (rest : JObj) (pfx : Str) :
    leavesObj (.cons key value rest) pfx
      = leavesVal value (if pfx ≠ [] then pfx ++ '.' :: key else key) ++ leavesObj rest pfx := rfl

/-- Leaves of an empty array. -/
theorem leavesArr_nil (pfx : Str) (i : Nat) : leavesArr .nil pfx i = [] := rfl

/-- Leaves of an array element list. -/
theorem leavesArr_cons (item : JVal) (rest : JArr) (pfx : Str) (i : Nat) :
    leavesArr (.cons item rest) pfx i
      = leavesVal item (if pfx ≠ [] then pfx ++ '.' :: '[' :: natStr i ++ [']'] else '[' :: natStr i ++ [']'])
        ++ leavesArr rest pfx (i + 1) := rfl

/-- Leaves of a primitive. -/
theorem leavesVal_prim (p : Prim) (key : Str) : leavesVal (.prim p) key = [(key, p)] := rfl

/-- Leaves of an array value. -/
theorem leavesVal_arr (xs : JArr) (key : Str) : leavesVal (.arr xs) key = leavesArr xs key 0 := rfl

/-- Leaves of an object value. -/
theorem leavesVal_obj (fs : JObj) (key : Str) : leavesVal (.obj fs) key = leavesObj fs key := rfl

mutual

/-- The object flattening equals the spec-side leaf list when the leaf
paths are distinct and fresh for the accumulator. -/
theorem flatternGo_eq_leaves : ∀ (fs : JObj) (pfx : Str) (acc : Flatterned),
    ((leavesObj fs pfx).map Prod.fst).Nodup →
    (∀ k ∈ (leavesObj fs pfx).map Prod.fst, k ∉ acc.map Prod.fst) →
    flatternGo fs pfx acc = acc ++ leavesObj fs pfx
  | .nil, pfx, acc => by
    intro _ _
    simp [flatternGo_nil, leavesObj_nil]
  | .cons key value rest, pfx, acc => by
    intro hnd hdisj
    rw [leavesObj_cons] at hnd hdisj ⊢
    cases value with
    | prim p =>
      rw [leavesVal_prim] at hnd hdisj ⊢
      rw [flatternGo_prim]
      generalize hlkdef : (if pfx ≠ [] then pfx ++ '.' :: key else key) = lk at hnd hdisj ⊢
      simp only [List.map_append, List.nodup_append] at hnd
      obtain ⟨hnd₁, hnd₂, hnddisj⟩ := hnd
      have hfresh : lk ∉ acc.map Prod.fst :=
        hdisj lk (by rw [List.map_append, List.map_cons]; exact List.mem_cons_self lk _)
      rw [jsInsert_fresh acc lk p hfresh]
      have hrec := flatternGo_eq_leaves rest pfx (acc ++ [(lk, p)]) hnd₂ (fun k hk => by
        rw [List.map_append]
        intro hmem
        rcases List.mem_append.mp hmem with hmem₁ | hmem₁
        · exact hdisj k (by rw [List.map_append]; exact List.mem_append_right _ hk) hmem₁
        · simp only [List.map_cons, List.map_nil, List.mem_singleton] at hmem₁
          exact hnddisj (by rw [hmem₁, List.map_cons]; exact List.mem_cons_self lk _) hk)
      rw [hrec]
      rw [List.append_assoc]
    | arr xs =>
      rw [leavesVal_arr] at hnd hdisj ⊢
      rw [flatternGo_arr]
      generalize hlkdef : (if pfx ≠ [] then pfx ++ '.' :: key else key) = lk at hnd hdisj ⊢
      simp only [List.map_append, List.nodup_append] at hnd
      obtain ⟨hnd₁, hnd₂, hnddisj⟩ := hnd
      have hsub := flatternArrayGo_eq_leaves xs lk 0 [] hnd₁ (fun k hk => List.not_mem_nil k)
      rw [hsub, List.nil_append]
      have hasgn := objAssign_append (leavesArr xs lk 0) acc hnd₁
        (fun k hk => hdisj k (by rw [List.map_append]; exact List.mem_append_left _ hk))
      rw [hasgn]
      have hrec := flatternGo_eq_leaves rest pfx (acc ++ leavesArr xs lk 0) hnd₂ (fun k hk => by
        rw [List.map_append]
        intro hmem
        rcases List.mem_append.mp hmem with hmem₁ | hmem₁
        · exact hdisj k (by rw [List.map_append]; exact List.mem_append_right _ hk) hmem₁
        · exact hnddisj hmem₁ hk)
      rw [hrec]
      rw [List.append_assoc]
    | obj fs₁ =>
      rw [leavesVal_obj] at hnd hdisj ⊢
      rw [flatternGo_obj]
      generalize hlkdef : (if pfx ≠ [] then pfx ++ '.' :: key else key) = lk at hnd hdisj ⊢
      simp only [List.map_append, List.nodup_append] at hnd
      obtain ⟨hnd₁, hnd₂, hnddisj⟩ := hnd
      have hsub := flatternGo_eq_leaves fs₁ lk [] hnd₁ (fun k hk => List.not_mem_nil k)
      rw [hsub, List.nil_append]
      have hasgn := objAssign_append (leavesObj fs₁ lk) acc hnd₁
        (fun k hk => hdisj k (by rw [List.map_append]; exact List.mem_append_left _ hk))
      rw [hasgn]
      have hrec := flatternGo_eq_leaves rest pfx (acc ++ leavesObj fs₁ lk) hnd₂ (fun k hk => by
        rw [List.map_append]
        intro hmem
        rcases List.mem_append.mp hmem with hmem₁ | hmem₁
        · exact hdisj k (by rw [List.map_append]; exact List.mem_append_right _ hk) hmem₁
        · exact hnddisj hmem₁ hk)
      rw [hrec]
      rw [List.append_assoc]

/-- The array flattening equals the spec-side leaf list when the leaf
paths are distinct and fresh for the accumulator. -/
theorem flatternArrayGo_eq_leaves : ∀ (xs : JArr) (pfx : Str) (i : Nat) (acc : Flatterned),
    ((leavesArr xs pfx i).map Prod.fst).Nodup →
    (∀ k ∈ (leavesArr xs pfx i).map Prod.fst, k ∉ acc.map Prod.fst) →
    flatternArrayGo xs pfx i acc = acc ++ leavesArr xs pfx i
  | .nil, pfx, i, acc => by
    intro _ _
    simp [flatternArrayGo_nil, leavesArr_nil]
  | .cons item rest, pfx, i, acc => by
    intro hnd hdisj
    rw [leavesArr_cons] at hnd hdisj ⊢
    cases item with
    | prim p =>
      rw [leavesVal_prim] at hnd hdisj ⊢
      rw [flatternArrayGo_prim]
      generalize hlkdef : (if pfx ≠ [] then pfx ++ '.' :: '[' :: natStr i ++ [']'] else '[' :: natStr i ++ [']']) = lk at hnd hdisj ⊢
      simp only [List.map_append, List.nodup_append] at hnd
      obtain ⟨hnd₁, hnd₂, hnddisj⟩ := hnd
      have hfresh : lk ∉ acc.map Prod.fst :=
        hdisj lk (by rw [List.map_append, List.map_cons]; exact List.mem_cons_self lk _)
      rw [jsInsert_fresh acc lk p hfresh]
      have hrec := flatternArrayGo_eq_leaves rest pfx (i + 1) (acc ++ [(lk, p)]) hnd₂ (fun k hk => by
        rw [List.map_append]
        intro hmem
        rcases List.mem_append.mp hmem with hmem₁ | hmem₁
        · exact hdisj k (by rw [List.map_append]; exact List.mem_append_right _ hk) hmem₁
        · simp only [List.map_cons, List.map_nil, List.mem_singleton] at hmem₁
          exact hnddisj (by rw [hmem₁, List.map_cons]; exact List.mem_cons_self lk _) hk)
      rw [hrec]
      rw [List.append_assoc]
    | arr xs₁ =>
      rw [leavesVal_arr] at hnd hdisj ⊢
      rw [flatternArrayGo_arr]
      generalize hlkdef : (if pfx ≠ [] then pfx ++ '.' :: '[' :: natStr i ++ [']'] else '[' :: natStr i ++ [']']) = lk at hnd hdisj ⊢
      simp only [List.map_append, List.nodup_append] at hnd
      obtain ⟨hnd₁, hnd₂, hnddisj⟩ := hnd
      have hsub := flatternArrayGo_eq_leaves xs₁ lk 0 [] hnd₁ (fun k hk => List.not_mem_nil k)
      rw [hsub, List.nil_append]
      have hasgn := objAssign_append (leavesArr xs₁ lk 0) acc hnd₁
        (fun k hk => hdisj k (by rw [List.map_append]; exact List.mem_append_left _ hk))
      rw [hasgn]
      have hrec := flatternArrayGo_eq_leaves rest pfx (i + 1) (acc ++ leavesArr xs₁ lk 0) hnd₂ (fun k hk => by
        rw [List.map_append]
        intro hmem
        rcases List.mem_append.mp hmem with hmem₁ | hmem₁
        · exact hdisj k (by rw [List.map_append]; exact List.mem_append_right _ hk) hmem₁
        · exact hnddisj hmem₁ hk)
      rw [hrec]
      rw [List.append_assoc]
    | obj fs₁ =>
      rw [leavesVal_obj] at hnd hdisj ⊢
      rw [flatternArrayGo_obj]
      generalize hlkdef : (if pfx ≠ [] then pfx ++ '.' :: '[' :: natStr i ++ [']'] else '[' :: natStr i ++ [']']) = lk at hnd hdisj ⊢
      simp only [List.map_append, List.nodup_append] at hnd
      obtain ⟨hnd₁, hnd₂, hnddisj⟩ := hnd
      have hsub := flatternGo_eq_leaves fs₁ lk [] hnd₁ (fun k hk => List.not_mem_nil k)
      rw [hsub, List.nil_append]
      have hasgn := objAssign_append (leavesObj fs₁ lk) acc hnd₁
        (fun k hk => hdisj k (by rw [List.map_append]; exact List.mem_append_left _ hk))
      rw [hasgn]
      have hrec := flatternArrayGo_eq_leaves rest pfx (i + 1) (acc ++ leavesObj fs₁ lk) hnd₂ (fun k hk => by
        rw [List.map_append]
        intro hmem
        rcases List.mem_append.mp hmem with hmem₁ | hmem₁
        · exact hdisj k (by rw [List.map_append]; exact List.mem_append_right _ hk) hmem₁
        · exact hnddisj hmem₁ hk)
      rw [hrec]
      rw [List.append_assoc]

end

/-- C7 (amended): flattening is deterministic (a pure function of the
bag) and total, and — provided distinct leaves obtain distinct flattened
paths — the flattened mapping is exactly the leaf list: one entry per
leaf primitive, keyed by its dotted/bracketed path, in traversal order.
(On a path collision the later spread overwrites the earlier entry and a
leaf is lost, see the counterexample.) -/
theorem flattern_eq_leaves (d : JObj)
    (hnd : ((leavesObj d []).map Prod.fst).Nodup) :
    flattern d [] = leavesObj d [] := by
  rw [flattern, flatternGo_eq_leaves d [] [] hnd (fun k hk => List.not_mem_nil k),
    List.nil_append]

/-- Witness for the amended C7 on a nested bag with arrays and objects. -/
theorem flattern_eq_leaves_witness :
    ((leavesObj (JObj.ofList
        [("a".data, .obj (.cons "b".data (.prim (.int 1)) .nil)),
         ("xs".data, .arr (.ofList [.prim (.str "u".data),
            .obj (.cons "n".data (.prim (.bool true)) .nil)]))]) []).map Prod.fst).Nodup ∧
    flattern (JObj.ofList
        [("a".data, .obj (.cons "b".data (.prim (.int 1)) .nil)),
         ("xs".data, .arr (.ofList [.prim (.str "u".data),
            .obj (.cons "n".data (.prim (.bool true)) .nil)]))]) []
      = leavesObj (JObj.ofList
        [("a".data, .obj (.cons "b".data (.prim (.int 1)) .nil)),
         ("xs".data, .arr (.ofList [.prim (.str "u".data),
            .obj (.cons "n".data (.prim (.bool true)) .nil)]))]) [] :=
  ⟨by decide, flattern_eq_leaves _ (by decide)⟩

/-- `afterChar` distributes over append. -/
theorem afterChar_append (ch : Char) (a b : Str) :
    afterChar ch (a ++ b) = (afterChar ch a).map (· ++ b) ++ afterChar ch b := by
  induction a with
  | nil => simp [afterChar]
  | cons c t ih =>
    by_cases hc : c = ch
    · simp [afterChar, hc, ih]
    · simp [afterChar, hc, ih]

/-- A string without the character has no suffixes after it. -/
theorem afterChar_of_not_mem (ch : Char) (s : Str) (h : ch ∉ s) : afterChar ch s = [] := by
  induction s with
  | nil => rfl
  | cons c t ih =>
    have hc : ¬c = ch := fun he => h (he ▸ List.mem_cons_self c t)
    simp [afterChar, hc, ih (fun hm => h (List.mem_cons_of_mem c hm))]

/-- The suffix list of a string starting with the character. -/
theorem afterChar_cons_self (ch : Char) (s : Str) :
    afterChar ch (ch :: s) = s :: afterChar ch s := by
  simp [afterChar]

/-- `sideOk` text contains no opening brace. -/
theorem sideOk_no_lb (s : Str) (h : sideOk s = true) : ∀ c ∈ s, c ≠ lb := by
  intro c hc he
  have h2 := (List.all_eq_true.mp h) c hc
  rw [he] at h2
  simp [eqCI] at h2

/-- The variable pattern cannot match at a character other than the
opening brace. -/
theorem varMatchHere_not_lb (pfx : Option (List CharPat)) (c : Char) (s : Str)
    (h : c ≠ lb) : varMatchHere pfx (c :: s) = none := by
  simp [varMatchHere, h]

/-- The variable pattern matches nowhere when it matches after no opening
brace. -/
theorem hasVarMatch_false (pfx : Option (List CharPat)) (s : Str)
    (h : ∀ w ∈ afterChar lb s, varMatchHere pfx (lb :: w) = none) :
    hasVarMatch pfx s = false := by
  induction s with
  | nil => rfl
  | cons c t ih =>
    by_cases hc : c = lb
    · subst hc
      rw [hasVarMatch, h t (by rw [afterChar_cons_self]; exact List.mem_cons_self t _)]
      simp only [Option.isSome_none, Bool.false_or]
      exact ih (fun w hw => h w (by rw [afterChar_cons_self]; exact List.mem_cons_of_mem t hw))
    · rw [hasVarMatch, varMatchHere_not_lb pfx c t hc]
      simp only [Option.isSome_none, Bool.false_or]
      exact ih (fun w hw => h w (by simp [afterChar, hc]; exact hw))

/-- The variable scan finds nothing when the pattern matches after no
opening brace. -/
theorem varScanGo_nil (pfx : Option (List CharPat)) (fuel : Nat) : ∀ s : Str,
    (∀ w ∈ afterChar lb s, varMatchHere pfx (lb :: w) = none) →
    varScanGo pfx fuel s = [] := by
  induction fuel with
  | zero => intro s _; rfl
  | succ b ih =>
    intro s h
    cases s with
    | nil => rfl
    | cons c t =>
      by_cases hc : c = lb
      · subst hc
        rw [varScanGo, h t (by rw [afterChar_cons_self]; exact List.mem_cons_self t _)]
        exact ih t (fun w hw => h w (by rw [afterChar_cons_self]; exact List.mem_cons_of_mem t hw))
      · rw [varScanGo, varMatchHere_not_lb pfx c t hc]
        exact ih t (fun w hw => h w (by simp [afterChar, hc]; exact hw))

/-- A `solveVariables` pass returns the content unchanged when the
variable pattern matches after no opening brace. -/
theorem solveVariables_id (content : Str) (data : Flatterned)
    (h : ∀ w ∈ afterChar lb content, varMatchHere none (lb :: w) = none) :
    solveVariables content data [] = .ok content := by
  rw [solveVariables]
  by_cases hc : content = []
  · rw [if_pos hc]
  · rw [if_neg hc]
    have hscan : varScan none content = [] := varScanGo_nil none content.length content h
    split
    · rename_i heq
      simp at heq
    · rename_i pfx heq
      rw [if_pos rfl] at heq
      injection heq with heq2
      subst heq2
      rw [hscan]
      rfl

/-- The loop pattern cannot match at a character other than the opening
brace. -/
theorem loopMatchHere_not_lb (pfx : Option (List CharPat)) (c : Char) (s : Str)
    (h : c ≠ lb) : loopMatchHere pfx (c :: s) = none := by
  rw [loopMatchHere, if_neg]
  intro hpre
  rw [show ("\x7b@loop:".data) = lb :: "@loop:".data from rfl] at hpre
  rw [List.isPrefixOf] at hpre
  simp at hpre
  exact h hpre.1.symm

/-- The loop scan at a text whose head matches. -/
theorem loopExec_of_here (pfx : Option (List CharPat)) (c : Char) (s : Str)
    (m : LoopMatch) (h : loopMatchHere pfx (c :: s) = some m) :
    loopExec pfx (c :: s) = some m := by
  rw [loopExec, h]

/-- The loop scan skips brace-free text. -/
theorem loopExec_append_left (pfx : Option (List CharPat)) (A t : Str)
    (hA : ∀ c ∈ A, c ≠ lb) : loopExec pfx (A ++ t) = loopExec pfx t := by
  induction A with
  | nil => rfl
  | cons c q ih =>
    rw [List.cons_append, loopExec,
      loopMatchHere_not_lb pfx c (q ++ t) (hA c (List.mem_cons_self c q))]
    exact ih (fun d hd => hA d (List.mem_cons_of_mem c hd))

/-- The loop pattern has no match in brace-free text. -/
theorem loopExec_no_lb (pfx : Option (List CharPat)) (s : Str)
    (h : ∀ c ∈ s, c ≠ lb) : loopExec pfx s = none := by
  have := loopExec_append_left pfx s [] h
  rw [List.append_nil] at this
  rw [this]
  rfl

/-- The variable pattern has no match in brace-free text. -/
theorem hasVarMatch_no_lb (pfx : Option (List CharPat)) (s : Str)
    (h : ∀ c ∈ s, c ≠ lb) : hasVarMatch pfx s = false := by
  apply hasVarMatch_false
  rw [afterChar_of_not_mem lb s (fun hm => h lb hm rfl)]
  intro w hw
  exact absurd hw (List.not_mem_nil w)

/-- The component pattern cannot match at a character not
case-insensitively equal to the opening brace. -/
theorem componentMatchHere_not_ci (c : Char) (s : Str) (h : eqCI lb c = false) :
    componentMatchHere (c :: s) = none := by
  rw [componentMatchHere,
    show litPats ("\x7b@component:".data) = .lit lb :: litPats ("@component:".data) from rfl]
  rw [chunkConsume]
  simp [charMatches, h]

/-- The component scan finds nothing when no character passes the
case-insensitive brace test except true opening braces, and the pattern
matches at none of those. -/
theorem componentExec_none (s : Str)
    (h₁ : ∀ c ∈ s, c ≠ lb → eqCI lb c = false)
    (h₂ : ∀ w ∈ afterChar lb s, componentMatchHere (lb :: w) = none) :
    componentExec s = none := by
  induction s with
  | nil => rfl
  | cons c t ih =>
    by_cases hc : c = lb
    · subst hc
      rw [componentExec_cons, h₂ t (by rw [afterChar_cons_self]; exact List.mem_cons_self t _)]
      exact ih (fun d hd hne => h₁ d (List.mem_cons_of_mem lb hd) hne)
        (fun w hw => h₂ w (by rw [afterChar_cons_self]; exact List.mem_cons_of_mem t hw))
    · rw [componentExec_cons,
        componentMatchHere_not_ci c t (h₁ c (List.mem_cons_self c t) hc)]
      exact ih (fun d hd hne => h₁ d (List.mem_cons_of_mem c hd) hne)
        (fun w hw => h₂ w (by simp [afterChar, hc]; exact hw))

/-- The component pattern fails when the second subject character is not
case-insensitively `@`. -/
theorem componentMatchHere_second (c : Char) (t : Str) (h : eqCI '@' c = false) :
    componentMatchHere (lb :: c :: t) = none := by
  rw [componentMatchHere,
    show litPats ("\x7b@component:".data) =
      .lit lb :: .lit '@' :: litPats ("component:".data) from rfl]
  rw [chunkConsume, if_pos (by simp [charMatches]; decide)]
  rw [chunkConsume]
  simp [charMatches, h]

/-- The component pattern fails when the third subject character is not
case-insensitively `c`. -/
theorem componentMatchHere_third (c : Char) (t : Str) (h : eqCI 'c' c = false) :
    componentMatchHere (lb :: '@' :: c :: t) = none := by
  rw [componentMatchHere,
    show litPats ("\x7b@component:".data) =
      .lit lb :: .lit '@' :: .lit 'c' :: litPats ("omponent:".data) from rfl]
  rw [chunkConsume, if_pos (by simp [charMatches]; decide)]
  rw [chunkConsume, if_pos (by simp [charMatches]; decide)]
  rw [chunkConsume]
  simp [charMatches, h]

/-- `findSubstr` finds the pattern at the front. -/
theorem findSubstr_self (pat t : Str) : findSubstr pat (pat ++ t) = some 0 := by
  cases pat with
  | nil =>
    cases t with
    | nil => rfl
    | cons c q => simp [findSubstr, List.isPrefixOf]
  | cons p ps =>
    rw [List.cons_append, findSubstr,
      if_pos (List.isPrefixOf_iff_prefix.mpr ⟨t, by simp⟩)]

/-- `findSubstr` over a left part whose brace suffixes all fail to start
the pattern: the occurrence index shifts by the left part's length. -/
theorem findSubstr_skip (pt x z : Str)
    (h : ∀ w ∈ afterChar lb x, ¬List.isPrefixOf pt (w ++ z) = true) :
    findSubstr (lb :: pt) (x ++ z) = (findSubstr (lb :: pt) z).map (· + x.length) := by
  induction x with
  | nil =>
    cases hf : findSubstr (lb :: pt) z <;> simp [hf]
  | cons c t ih =>
    rw [List.cons_append, findSubstr]
    have hpre : ¬List.isPrefixOf (lb :: pt) (c :: (t ++ z)) = true := by
      intro hp
      rw [List.isPrefixOf] at hp
      simp only [Bool.and_eq_true, beq_iff_eq] at hp
      obtain ⟨hc, hp2⟩ := hp
      subst hc
      exact h t (by rw [afterChar_cons_self]; exact List.mem_cons_self t _) hp2
    rw [if_neg hpre]
    have hc2 : afterChar lb t ⊆ afterChar lb (c :: t) := by
      intro w hw
      by_cases hc : c = lb
      · subst hc; rw [afterChar_cons_self]; exact List.mem_cons_of_mem t hw
      · simpa [afterChar, hc] using hw
    rw [ih (fun w hw => h w (hc2 hw))]
    cases hf : findSubstr (lb :: pt) z with
    | none => rfl
    | some i => simp [List.length_cons]; omega

/-- `findSubstr` fails on brace-free text for a pattern starting with a
brace. -/
theorem findSubstr_no_lb (pt s : Str) (h : ∀ c ∈ s, c ≠ lb) :
    findSubstr (lb :: pt) s = none := by
  induction s with
  | nil => rfl
  | cons c t ih =>
    rw [findSubstr]
    have hpre : ¬List.isPrefixOf (lb :: pt) (c :: t) = true := by
      intro hp
      rw [List.isPrefixOf] at hp
      simp only [Bool.and_eq_true, beq_iff_eq] at hp
      exact h c (List.mem_cons_self c t) hp.1.symm
    rw [if_neg hpre, ih (fun d hd => h d (List.mem_cons_of_mem c hd))]
    rfl

/-- `String.replace` with a brace-headed pattern on `A ++ pat ++ C`:
replaces the explicit occurrence when `A` is brace-free and the
replacement has no `$`. -/
theorem strReplaceFirst_structured (A pat repl C' : Str) (t : Str)
    (hpat : pat = lb :: t) (hA : ∀ c ∈ A, c ≠ lb) (hrepl : ∀ c ∈ repl, c ≠ '$') :
    strReplaceFirst pat repl (A ++ pat ++ C') = A ++ repl ++ C' := by
  subst hpat
  rw [strReplaceFirst, List.append_assoc]
  rw [findSubstr_skip t A ((lb :: t) ++ C')
    (by rw [afterChar_of_not_mem lb A (fun hm => hA lb hm rfl)]
        intro w hw; exact absurd hw (List.not_mem_nil w))]
  rw [findSubstr_self (lb :: t) C']
  simp only [Option.map_some', Nat.zero_add]
  rw [← List.append_assoc]
  have htake : ((A ++ (lb :: t)) ++ C').take A.length = A := by
    rw [List.append_assoc, List.take_append_of_le_length (by simp)]
    exact List.take_length A
  have hdrop : ((A ++ (lb :: t)) ++ C').drop (A.length + (lb :: t).length) = C' := by
    rw [show A.length + (lb :: t).length = (A ++ (lb :: t)).length by simp]
    exact List.drop_left _ C'
  rw [htake, hdrop, applyDollar_id (lb :: t) repl hrepl]

/-- `String.replace` finds nothing in brace-free text for a brace-headed
pattern. -/
theorem strReplaceFirst_no_occ (pat repl s : Str) (t : Str)
    (hpat : pat = lb :: t) (hs : ∀ c ∈ s, c ≠ lb) :
    strReplaceFirst pat repl s = s := by
  subst hpat
  rw [strReplaceFirst, findSubstr_no_lb t s hs]

/-- `takeWhile` passes over text whose characters all satisfy the
predicate. -/
theorem takeWhile_append_pass (p : Char → Bool) (a b : Str)
    (ha : ∀ c ∈ a, p c = true) :
    (a ++ b).takeWhile p = a ++ b.takeWhile p := by
  induction a with
  | nil => rfl
  | cons c t ih =>
    simp [List.takeWhile_cons, ha c (List.mem_cons_self c t),
      ih (fun d hd => ha d (List.mem_cons_of_mem c hd))]

/-- Filtering a range by a predicate holding at exactly one point. -/
theorem filter_range_single (pred : Nat → Bool) (i : Nat) (hp : pred i = true) :
    ∀ n, i < n → (∀ j, j < n → pred j = true → j = i) →
    (List.range n).filter pred = [i] := by
  intro n
  induction n with
  | zero => intro hi _; omega
  | succ m ih =>
    intro hi huniq
    rw [List.range_succ, List.filter_append]
    by_cases him : i = m
    · subst him
      have h1 : (List.range i).filter pred = [] := by
        apply List.filter_eq_nil_iff.mpr
        intro a ha hpa
        have ham : a < i := List.mem_range.mp ha
        have := huniq a (Nat.lt_succ_of_lt ham) hpa
        omega
      rw [h1, List.nil_append]
      simp [hp]
    · have hm : pred m = false := by
        cases hpm : pred m with
        | false => rfl
        | true => exact absurd (huniq m (Nat.lt_succ_self m) hpm) (Ne.symm him)
      rw [ih (by omega) (fun j hj hpj => huniq j (Nat.lt_succ_of_lt hj) hpj)]
      simp [hm]

/-- The greedy-group candidates over a run `p ++ \x7d ++ T` with the closing
brace occurring only after `p`: exactly one candidate, of length `|p|`. -/
theorem loopCandidates_block (p T : Str) (hp : p ≠ []) (hrbp : rb ∉ p)
    (hrbT : rb ∉ T) : loopCandidates (p ++ rb :: T) = [p.length] := by
  rw [loopCandidates]
  have hget : (p ++ rb :: T).get? p.length = some rb := by
    rw [List.get?_append_right (Nat.le_refl _), Nat.sub_self]
    rfl
  have hp1 : 1 ≤ p.length := by
    cases p with
    | nil => exact absurd rfl hp
    | cons c q => simp
  rw [filter_range_single _ p.length
    (by simp only [Bool.and_eq_true, decide_eq_true_eq]; exact ⟨hp1, hget⟩) _
    (by rw [List.length_append, List.length_cons]; omega)
    (fun j hj hpj => by
      simp only [Bool.and_eq_true, decide_eq_true_eq] at hpj
      obtain ⟨hj1, hj2⟩ := hpj
      by_contra hne
      rcases Nat.lt_or_ge j p.length with hlt | hge
      · rw [List.get?_append hlt] at hj2
        exact hrbp (List.get?_mem hj2)
      · have hgt : p.length < j := by omega
        rw [List.get?_append_right hge] at hj2
        have h3 : j - p.length = (j - p.length - 1) + 1 := by omega
        rw [h3] at hj2
        exact hrbT (List.get?_mem hj2))]
  rfl

/-- Unfolding of one loop-pattern attempt at a text starting with the
literal `\x7b@loop:` head. -/
theorem loopMatchHere_start (Y : Str) :
    loopMatchHere none (lb :: ("@loop:".data ++ Y)) =
      loopTryCands none Y (Y.takeWhile (fun c => decide (c ≠ ':')))
        (loopCandidates (Y.takeWhile (fun c => decide (c ≠ ':')))) := by
  rw [loopMatchHere]
  rw [if_pos (by
    rw [show ("\x7b@loop:".data : Str) = lb :: "@loop:".data from rfl]
    exact List.isPrefixOf_iff_prefix.mpr ⟨Y, by simp⟩)]
  have hdrop : (lb :: ("@loop:".data ++ Y)).drop 7 = Y := by
    have h1 : (lb :: ("@loop:".data ++ Y)).drop 7 = (("@loop:".data : Str) ++ Y).drop 6 := rfl
    rw [h1, show (6 : Nat) = ("@loop:".data : Str).length from rfl, List.drop_left]
  dsimp only
  rw [hdrop]

/-- The loop pattern matches a well-formed loop block at its start,
capturing the path and the body exactly. -/
theorem loopMatchHere_block (p body C' : Str) (hp : p ≠ [])
    (hpc : ∀ c ∈ p, c ≠ ':' ∧ c ≠ rb)
    (hbT : rb ∉ (body ++ (lb :: ("@endloop:".data ++ p ++ rb :: C'))).takeWhile
      (fun c => decide (c ≠ ':')))
    (hfind : ∀ w ∈ afterChar lb body,
      ¬List.isPrefixOf ("@endloop:".data ++ p ++ [rb])
        (w ++ (lb :: ("@endloop:".data ++ p ++ rb :: C'))) = true) :
    loopMatchHere none (loopBlock p body ++ C') =
      some { original := loopBlock p body, loopPath := p, g2 := p, child := body } := by
  have hrbp : rb ∉ p := fun hm => (hpc rb hm).2 rfl
  have hs : loopBlock p body ++ C' =
      lb :: ("@loop:".data ++ (p ++ rb ::
        (body ++ (lb :: ("@endloop:".data ++ p ++ rb :: C'))))) := by
    simp [loopBlock]
  have hrun : (p ++ rb :: (body ++ (lb :: ("@endloop:".data ++ p ++ rb :: C')))).takeWhile
      (fun c => decide (c ≠ ':')) =
      p ++ rb :: ((body ++ (lb :: ("@endloop:".data ++ p ++ rb :: C'))).takeWhile
        (fun c => decide (c ≠ ':'))) := by
    rw [show p ++ rb :: (body ++ (lb :: ("@endloop:".data ++ p ++ rb :: C'))) =
      (p ++ [rb]) ++ (body ++ (lb :: ("@endloop:".data ++ p ++ rb :: C'))) by simp]
    rw [takeWhile_append_pass _ (p ++ [rb]) _
      (fun c hc => by
        rcases List.mem_append.mp hc with hcp | hcrb
        · simp [(hpc c hcp).1]
        · simp at hcrb
          simp [hcrb, rb])]
    simp
  have htake : (p ++ rb :: ((body ++ (lb :: ("@endloop:".data ++ p ++ rb :: C'))).takeWhile
      (fun c => decide (c ≠ ':')))).take p.length = p := List.take_left p _
  have hdropZ : (p ++ rb :: (body ++ (lb :: ("@endloop:".data ++ p ++ rb :: C')))).drop
      (p.length + 1) = body ++ (lb :: ("@endloop:".data ++ p ++ rb :: C')) := by
    rw [show p ++ rb :: (body ++ (lb :: ("@endloop:".data ++ p ++ rb :: C'))) =
      (p ++ [rb]) ++ (body ++ (lb :: ("@endloop:".data ++ p ++ rb :: C'))) by simp]
    rw [show p.length + 1 = (p ++ [rb]).length by simp, List.drop_left]
  have hfs : findSubstr (lb :: "@endloop:".data ++ p ++ [rb])
      (body ++ (lb :: ("@endloop:".data ++ p ++ rb :: C'))) = some body.length := by
    rw [show ((lb :: "@endloop:".data ++ p ++ [rb]) : Str) =
      lb :: ("@endloop:".data ++ p ++ [rb]) by simp]
    rw [findSubstr_skip ("@endloop:".data ++ p ++ [rb]) body _ hfind]
    rw [show (lb :: ("@endloop:".data ++ p ++ rb :: C') : Str) =
      (lb :: ("@endloop:".data ++ p ++ [rb])) ++ C' by simp]
    rw [findSubstr_self]
    simp
  have htakeZ : (body ++ (lb :: ("@endloop:".data ++ p ++ rb :: C'))).take body.length =
      body := List.take_left body _
  rw [hs, loopMatchHere_start, hrun,
    loopCandidates_block p _ hp hrbp hbT, loopTryCands]
  dsimp only
  rw [htake, hdropZ, hfs]
  dsimp only
  rw [htakeZ]
  simp [loopBlock]

/-- Unpacking of `goodPathChar`. -/
theorem goodPathChar_spec (c : Char) (h : goodPathChar c = true) :
    plainPatChar c = true ∧ c ≠ ':' ∧ c ≠ '@' ∧ c ≠ lb ∧ c ≠ rb ∧
    eqCI '@' c = false ∧ eqCI lb c = false := by
  simp only [goodPathChar, Bool.and_eq_true, Bool.not_eq_true', decide_eq_true_eq,
    List.mem_cons, List.not_mem_nil, or_false] at h
  obtain ⟨⟨⟨h1, h2⟩, h3⟩, h4⟩ := h
  push_neg at h2
  exact ⟨h1, h2.1, h2.2.1, h2.2.2.1, h2.2.2.2, h3, h4⟩

/-- Unpacking of `goodLitChar`. -/
theorem goodLitChar_spec (c : Char) (h : goodLitChar c = true) :
    c ≠ lb ∧ c ≠ rb ∧ c ≠ ':' ∧ c ≠ '@' ∧ c ≠ '$' ∧ eqCI lb c = false := by
  simp only [goodLitChar, Bool.and_eq_true, Bool.not_eq_true', decide_eq_true_eq,
    List.mem_cons, List.not_mem_nil, or_false] at h
  obtain ⟨h1, h2⟩ := h
  push_neg at h1
  exact ⟨h1.1, h1.2.1, h1.2.2.1, h1.2.2.2.1, h1.2.2.2.2, h2⟩

/-- `afterChar` skips a non-matching head character. -/
theorem afterChar_cons_ne (ch c : Char) (s : Str) (h : c ≠ ch) :
    afterChar ch (c :: s) = afterChar ch s := by
  simp [afterChar, h]

/-- Every suffix of a rendered loop body after an opening brace starts
with the loop path and a colon. -/
theorem renderBody_after (p : Str) (hpl : ∀ c ∈ p, goodPathChar c = true) :
    ∀ (segs : List Seg), (∀ sg ∈ segs, segOk sg = true) →
    ∀ w ∈ afterChar lb (renderBody p segs), ∃ t, w = p ++ ':' :: t := by
  have hpnolb : ∀ c ∈ p, c ≠ lb := fun c hc => (goodPathChar_spec c (hpl c hc)).2.2.2.1
  intro segs
  induction segs with
  | nil =>
    intro _ w hw
    simp [renderBody, afterChar] at hw
  | cons sg rest ih =>
    intro hsegs w hw
    have hseg := hsegs sg (List.mem_cons_self sg rest)
    have hrest := fun s hs => hsegs s (List.mem_cons_of_mem sg hs)
    cases sg with
    | lit s =>
      have hnos : lb ∉ s := fun hm => (goodLitChar_spec lb
        ((List.all_eq_true.mp hseg) lb hm)).1 rfl
      rw [renderBody, afterChar_append, afterChar_of_not_mem lb s hnos,
        List.map_nil, List.nil_append] at hw
      exact ih hrest w hw
    | var k =>
      simp only [segOk, Bool.and_eq_true, decide_eq_true_eq] at hseg
      have hknolb : lb ∉ k := fun hm => (goodPathChar_spec lb
        ((List.all_eq_true.mp hseg.2) lb hm)).2.2.2.1 rfl
      rw [renderBody,
        show markerStr p k ++ renderBody p rest =
          lb :: (p ++ ':' :: (k ++ rb :: renderBody p rest)) by simp [markerStr],
        afterChar_cons_self] at hw
      rcases List.mem_cons.mp hw with hw1 | hw2
      · exact ⟨_, hw1⟩
      · rw [afterChar_append, afterChar_of_not_mem lb p (fun hm => hpnolb lb hm rfl),
          List.map_nil, List.nil_append, afterChar_cons_ne lb ':' _ (by decide),
          afterChar_append, afterChar_of_not_mem lb k (fun hm => hknolb hm),
          List.map_nil, List.nil_append, afterChar_cons_ne lb rb _ (by decide)] at hw2
        exact ih hrest w hw2
    | idx =>
      rw [renderBody,
        show idxMarkerStr p ++ renderBody p rest =
          lb :: (p ++ ':' :: ('[' :: 'x' :: ']' :: rb :: renderBody p rest))
          by simp [idxMarkerStr],
        afterChar_cons_self] at hw
      rcases List.mem_cons.mp hw with hw1 | hw2
      · exact ⟨_, hw1⟩
      · rw [afterChar_append, afterChar_of_not_mem lb p (fun hm => hpnolb lb hm rfl),
          List.map_nil, List.nil_append, afterChar_cons_ne lb ':' _ (by decide),
          afterChar_cons_ne lb '[' _ (by decide), afterChar_cons_ne lb 'x' _ (by decide),
          afterChar_cons_ne lb ']' _ (by decide), afterChar_cons_ne lb rb _ (by decide)] at hw2
        exact ih hrest w hw2

/-- In `body ++ tail` with a rendered body and a tail reaching a colon
before any closing brace, the colon-bounded run contains no closing
brace. -/
theorem renderBody_takeWhile (p : Str) (hpl : ∀ c ∈ p, goodPathChar c = true)
    (a b : Str) (hane : ∀ c ∈ a, c ≠ ':') (harb : rb ∉ a) :
    ∀ (segs : List Seg), (∀ sg ∈ segs, segOk sg = true) →
    rb ∉ (renderBody p segs ++ (a ++ ':' :: b)).takeWhile (fun c => decide (c ≠ ':')) := by
  intro segs
  induction segs with
  | nil =>
    intro _
    rw [renderBody, List.nil_append,
      takeWhile_append_stop _ a ':' b (fun c hc => by simp [hane c hc]) (by simp)]
    exact harb
  | cons sg rest ih =>
    intro hsegs
    have hseg := hsegs sg (List.mem_cons_self sg rest)
    have hrest := fun s hs => hsegs s (List.mem_cons_of_mem sg hs)
    cases sg with
    | lit s =>
      rw [renderBody, List.append_assoc,
        takeWhile_append_pass _ s _ (fun c hc => by
          simp [(goodLitChar_spec c ((List.all_eq_true.mp hseg) c hc)).2.2.1])]
      intro hm
      rcases List.mem_append.mp hm with hm1 | hm2
      · exact (goodLitChar_spec rb ((List.all_eq_true.mp hseg) rb hm1)).2.1 rfl
      · exact ih hrest hm2
    | var k =>
      rw [renderBody,
        show markerStr p k ++ renderBody p rest ++ (a ++ ':' :: b) =
          (lb :: p) ++ ':' :: (k ++ rb :: (renderBody p rest ++ (a ++ ':' :: b)))
          by simp [markerStr],
        takeWhile_append_stop _ (lb :: p) ':' _
          (fun c hc => by
            rcases List.mem_cons.mp hc with h1 | h2
            · simp [h1]; decide
            · simp [(goodPathChar_spec c (hpl c h2)).2.1]) (by simp)]
      intro hm
      rcases List.mem_cons.mp hm with h1 | h2
      · exact absurd h1 (by decide)
      · exact (goodPathChar_spec rb (hpl rb h2)).2.2.2.2.1 rfl
    | idx =>
      rw [renderBody,
        show idxMarkerStr p ++ renderBody p rest ++ (a ++ ':' :: b) =
          (lb :: p) ++ ':' :: ('[' :: 'x' :: ']' :: rb ::
            (renderBody p rest ++ (a ++ ':' :: b)))
          by simp [idxMarkerStr],
        takeWhile_append_stop _ (lb :: p) ':' _
          (fun c hc => by
            rcases List.mem_cons.mp hc with h1 | h2
            · simp [h1]; decide
            · simp [(goodPathChar_spec c (hpl c h2)).2.1]) (by simp)]
      intro hm
      rcases List.mem_cons.mp hm with h1 | h2
      · exact absurd h1 (by decide)
      · exact (goodPathChar_spec rb (hpl rb h2)).2.2.2.2.1 rfl

/-- No suffix of a rendered body after an opening brace starts the
`@endloop` backreference needle. -/
theorem renderBody_no_needle (p : Str) (hp : p ≠ [])
    (hpl : ∀ c ∈ p, goodPathChar c = true) (segs : List Seg)
    (hsegs : ∀ sg ∈ segs, segOk sg = true) (z : Str) :
    ∀ w ∈ afterChar lb (renderBody p segs),
    ¬List.isPrefixOf ("@endloop:".data ++ p ++ [rb]) (w ++ z) = true := by
  intro w hw
  obtain ⟨t, rfl⟩ := renderBody_after p hpl segs hsegs w hw
  cases p with
  | nil => exact absurd rfl hp
  | cons p₀ p' =>
    intro hpre
    rw [show ("@endloop:".data ++ (p₀ :: p') ++ [rb] : Str) =
      '@' :: ("endloop:".data ++ (p₀ :: p') ++ [rb]) by simp,
      show ((p₀ :: p') ++ ':' :: t) ++ z = p₀ :: ((p' ++ ':' :: t) ++ z) by simp,
      List.isPrefixOf] at hpre
    simp only [Bool.and_eq_true, beq_iff_eq] at hpre
    exact (goodPathChar_spec p₀ (hpl p₀ (List.mem_cons_self p₀ p'))).2.2.1 hpre.1.symm

/-- Suffixes after an opening brace in a loop block with brace-free
surroundings: the `@loop` delimiter tail, a body-marker tail, or the
`@endloop` delimiter tail. -/
theorem block_afterChar (p body C' : Str)
    (hpl : ∀ c ∈ p, goodPathChar c = true)
    (hC : ∀ c ∈ C', c ≠ lb)
    (hba : ∀ w ∈ afterChar lb body, ∃ t, w = p ++ ':' :: t) :
    ∀ w ∈ afterChar lb (loopBlock p body ++ C'),
      (∃ t, w = "@loop".data ++ ':' :: t) ∨ (∃ t, w = p ++ ':' :: t) ∨
      (∃ t, w = "@endloop".data ++ ':' :: t) := by
  have hpnolb : ∀ c ∈ p, c ≠ lb := fun c hc => (goodPathChar_spec c (hpl c hc)).2.2.2.1
  intro w hw
  rw [show loopBlock p body ++ C' =
    lb :: ("@loop:".data ++ (p ++ rb ::
      (body ++ (lb :: ("@endloop:".data ++ p ++ rb :: C'))))) by simp [loopBlock],
    afterChar_cons_self] at hw
  rcases List.mem_cons.mp hw with h1 | h2
  · left
    refine ⟨p ++ rb :: (body ++ (lb :: ("@endloop:".data ++ p ++ rb :: C'))), ?_⟩
    rw [h1]
    rfl
  · rw [afterChar_append, afterChar_of_not_mem lb ("@loop:".data) (by decide),
      List.map_nil, List.nil_append,
      afterChar_append, afterChar_of_not_mem lb p (fun hm => hpnolb lb hm rfl),
      List.map_nil, List.nil_append,
      afterChar_cons_ne lb rb _ (by decide),
      afterChar_append, afterChar_cons_self] at h2
    have hVnil : afterChar lb ("@endloop:".data ++ p ++ rb :: C') = [] := by
      apply afterChar_of_not_mem
      intro hm
      rcases List.mem_append.mp hm with hm1 | hm2
      · rcases List.mem_append.mp hm1 with hm3 | hm4
        · exact absurd hm3 (by decide)
        · exact hpnolb lb hm4 rfl
      · rcases List.mem_cons.mp hm2 with hm5 | hm6
        · exact absurd hm5 (by decide)
        · exact hC lb hm6 rfl
    rw [hVnil] at h2
    rcases List.mem_append.mp h2 with h3 | h4
    · obtain ⟨w₀, hw₀, rfl⟩ := List.mem_map.mp h3
      obtain ⟨t, rfl⟩ := hba w₀ hw₀
      right; left
      exact ⟨t ++ (lb :: ("@endloop:".data ++ p ++ rb :: C')), by simp⟩
    · right; right
      rcases List.mem_cons.mp h4 with h5 | h6
      · refine ⟨p ++ rb :: C', ?_⟩
        rw [h5]
        rfl
      · exact absurd h6 (List.not_mem_nil w)

/-- The variable pattern fails on every loop-block brace suffix. -/
theorem varMatchHere_block_none (p : Str) (hpl : ∀ c ∈ p, goodPathChar c = true)
    (w : Str)
    (hw : (∃ t, w = "@loop".data ++ ':' :: t) ∨ (∃ t, w = p ++ ':' :: t) ∨
      (∃ t, w = "@endloop".data ++ ':' :: t)) :
    varMatchHere none (lb :: w) = none := by
  have hvb : varBody w = none := by
    rcases hw with ⟨t, rfl⟩ | ⟨t, rfl⟩ | ⟨t, rfl⟩
    · exact varBody_colon_stop ("@loop".data) t (by decide)
    · exact varBody_colon_stop p t (fun c hc =>
        ⟨(goodPathChar_spec c (hpl c hc)).2.1, (goodPathChar_spec c (hpl c hc)).2.2.2.2.1⟩)
    · exact varBody_colon_stop ("@endloop".data) t (by decide)
  rw [varMatchHere, if_pos rfl, hvb]
  rfl

/-- The component pattern fails on every loop-block brace suffix. -/
theorem componentMatchHere_block_none (p : Str) (hp : p ≠ [])
    (hpl : ∀ c ∈ p, goodPathChar c = true) (w : Str)
    (hw : (∃ t, w = "@loop".data ++ ':' :: t) ∨ (∃ t, w = p ++ ':' :: t) ∨
      (∃ t, w = "@endloop".data ++ ':' :: t)) :
    componentMatchHere (lb :: w) = none := by
  rcases hw with ⟨t, rfl⟩ | ⟨t, rfl⟩ | ⟨t, rfl⟩
  · rw [show (("@loop".data : Str) ++ ':' :: t) = '@' :: 'l' :: ("oop".data ++ ':' :: t)
      by simp]
    exact componentMatchHere_third 'l' _ (by decide)
  · cases p with
    | nil => exact absurd rfl hp
    | cons p₀ p' =>
      rw [show (((p₀ :: p') : Str) ++ ':' :: t) = p₀ :: (p' ++ ':' :: t) by simp]
      exact componentMatchHere_second p₀ _
        (goodPathChar_spec p₀ (hpl p₀ (List.mem_cons_self _ _))).2.2.2.2.2.1
  · rw [show (("@endloop".data : Str) ++ ':' :: t) = '@' :: 'e' :: ("ndloop".data ++ ':' :: t)
      by simp]
    exact componentMatchHere_third 'e' _ (by decide)

/-- Rendered-body characters other than opening braces are not
case-insensitively equal to the opening brace. -/
theorem renderBody_chars (p : Str) (hpl : ∀ c ∈ p, goodPathChar c = true)
    (segs : List Seg) (hsegs : ∀ sg ∈ segs, segOk sg = true) :
    ∀ c ∈ renderBody p segs, c ≠ lb → eqCI lb c = false := by
  induction segs with
  | nil => intro c hc; simp [renderBody] at hc
  | cons sg rest ih =>
    have hseg := hsegs sg (List.mem_cons_self sg rest)
    have hrest := fun s hs => hsegs s (List.mem_cons_of_mem sg hs)
    intro c hc hne
    cases sg with
    | lit s =>
      rw [renderBody] at hc
      rcases List.mem_append.mp hc with h1 | h2
      · exact (goodLitChar_spec c ((List.all_eq_true.mp hseg) c h1)).2.2.2.2.2
      · exact ih hrest c h2 hne
    | var k =>
      simp only [segOk, Bool.and_eq_true, decide_eq_true_eq] at hseg
      rw [renderBody] at hc
      rcases List.mem_append.mp hc with h1 | h2
      · rw [show markerStr p k = lb :: (p ++ ':' :: (k ++ [rb])) by simp [markerStr]] at h1
        rcases List.mem_cons.mp h1 with h3 | h3
        · exact absurd h3 hne
        rcases List.mem_append.mp h3 with h4 | h4
        · exact (goodPathChar_spec c (hpl c h4)).2.2.2.2.2.2
        rcases List.mem_cons.mp h4 with h5 | h5
        · rw [h5]; decide
        rcases List.mem_append.mp h5 with h6 | h6
        · exact (goodPathChar_spec c ((List.all_eq_true.mp hseg.2) c h6)).2.2.2.2.2.2
        rcases List.mem_cons.mp h6 with h7 | h7
        · rw [h7]; decide
        · exact absurd h7 (List.not_mem_nil c)
      · exact ih hrest c h2 hne
    | idx =>
      rw [renderBody] at hc
      rcases List.mem_append.mp hc with h1 | h2
      · rw [show idxMarkerStr p = lb :: (p ++ ':' :: ('[' :: 'x' :: ']' :: [rb]))
          by simp [idxMarkerStr]] at h1
        rcases List.mem_cons.mp h1 with h3 | h3
        · exact absurd h3 hne
        rcases List.mem_append.mp h3 with h4 | h4
        · exact (goodPathChar_spec c (hpl c h4)).2.2.2.2.2.2
        rcases List.mem_cons.mp h4 with h5 | h5
        · rw [h5]; decide
        rcases List.mem_cons.mp h5 with h6 | h6
        · rw [h6]; decide
        rcases List.mem_cons.mp h6 with h7 | h7
        · rw [h7]; decide
        rcases List.mem_cons.mp h7 with h8 | h8
        · rw [h8]; decide
        rcases List.mem_cons.mp h8 with h9 | h9
        · rw [h9]; decide
        · exact absurd h9 (List.not_mem_nil c)
      · exact ih hrest c h2 hne

/-- Loop-block characters other than opening braces are not
case-insensitively equal to the opening brace. -/
theorem loopBlock_chars (p body : Str) (hpl : ∀ c ∈ p, goodPathChar c = true)
    (hbody : ∀ c ∈ body, c ≠ lb → eqCI lb c = false) :
    ∀ c ∈ loopBlock p body, c ≠ lb → eqCI lb c = false := by
  intro c hc hne
  rw [show loopBlock p body = lb :: ("@loop:".data ++ (p ++ rb ::
    (body ++ (lb :: ("@endloop:".data ++ p ++ [rb]))))) by simp [loopBlock]] at hc
  have hccl : ∀ d ∈ ("@loop:".data : Str), eqCI lb d = false := by decide
  have hcce : ∀ d ∈ ("@endloop:".data : Str), eqCI lb d = false := by decide
  rcases List.mem_cons.mp hc with h1 | h1
  · exact absurd h1 hne
  rcases List.mem_append.mp h1 with h2 | h2
  · exact hccl c h2
  rcases List.mem_append.mp h2 with h3 | h3
  · exact (goodPathChar_spec c (hpl c h3)).2.2.2.2.2.2
  rcases List.mem_cons.mp h3 with h4 | h4
  · rw [h4]; decide
  rcases List.mem_append.mp h4 with h5 | h5
  · exact hbody c h5 hne
  rcases List.mem_cons.mp h5 with h6 | h6
  · exact absurd h6 hne
  rcases List.mem_append.mp h6 with h7 | h7
  · rcases List.mem_append.mp h7 with h8 | h8
    · exact hcce c h8
    · exact (goodPathChar_spec c (hpl c h8)).2.2.2.2.2.2
  · rcases List.mem_cons.mp h7 with h9 | h9
    · rw [h9]; decide
    · exact absurd h9 (List.not_mem_nil c)

/-- `litPats` distributes over append. -/
theorem litPats_append (a b : Str) : litPats (a ++ b) = litPats a ++ litPats b := by
  induction a with
  | nil => rfl
  | cons c t ih => simp [litPats, ih]

/-- Compilation of a pattern with a plain prefix splits off the prefix's
literal atoms. -/
theorem compileChunk_append_plain (a b : Str) (ha : ∀ c ∈ a, plainPatChar c) :
    compileChunk (a ++ b) = (compileChunk b).map (fun ps => litPats a ++ ps) := by
  induction a with
  | nil =>
    cases hb : compileChunk b <;> simp [litPats, hb]
  | cons c rest ih =>
    have hc := plainPatChar_spec c (ha c (List.mem_cons_self c rest))
    have ih₀ := ih (fun d hd => ha d (List.mem_cons_of_mem c hd))
    rw [List.cons_append, compileChunk.eq_def]
    split
    · rename_i heq; exact absurd heq (List.cons_ne_nil _ _)
    · rename_i heq
      rw [List.cons.injEq] at heq
      exact absurd heq.1 hc.1
    · rename_i c₀ rest₀ heq
      rw [List.cons.injEq] at heq
      exact absurd heq.1 hc.1
    · rename_i rest₀ heq
      rw [List.cons.injEq] at heq
      exact absurd heq.1 hc.2.1
    · rename_i rest₀ heq
      rw [List.cons.injEq] at heq
      exact absurd heq.1 hc.2.1
    · rename_i rest₀ heq
      rw [List.cons.injEq] at heq
      exact absurd heq.1 hc.2.2.2.1
    · rename_i c₀ rest₀ hn1 hn2 hn3 hn4 hn5 heq
      rw [List.cons.injEq] at heq
      obtain ⟨rfl, rfl⟩ := heq
      rw [if_neg (by
        simp only [List.mem_cons, List.not_mem_nil, or_false]
        push_neg
        exact ⟨hc.2.2.2.2.1, hc.2.2.2.2.2.1, hc.2.2.2.2.2.2.1, hc.2.2.2.2.2.2.2.1,
          hc.2.2.2.2.2.2.2.2.1, hc.2.2.2.2.2.2.2.2.2.1, hc.2.2.2.2.2.2.2.2.2.2.1,
          hc.2.2.2.2.2.2.2.2.2.2.2⟩), ih₀]
      cases compileChunk b <;> simp [litPats]

/-- A `solveVariables`-style lemma packaged for the loop-block content:
all the scanner facts for `A ++ (loopBlock p (renderBody p segs) ++ C')`.
-/
theorem block_content_forms (A C' p : Str) (segs : List Seg)
    (hA : ∀ c ∈ A, c ≠ lb) (hC : ∀ c ∈ C', c ≠ lb)
    (hpl : ∀ c ∈ p, goodPathChar c = true)
    (hsegs : ∀ sg ∈ segs, segOk sg = true) :
    ∀ w ∈ afterChar lb (A ++ (loopBlock p (renderBody p segs) ++ C')),
      (∃ t, w = "@loop".data ++ ':' :: t) ∨ (∃ t, w = p ++ ':' :: t) ∨
      (∃ t, w = "@endloop".data ++ ':' :: t) := by
  intro w hw
  rw [afterChar_append, afterChar_of_not_mem lb A (fun hm => hA lb hm rfl),
    List.map_nil, List.nil_append] at hw
  exact block_afterChar p (renderBody p segs) C' hpl hC
    (renderBody_after p hpl segs hsegs) w hw

/-- The per-item loop over an empty slice yields the empty expansion at
any fuel. -/
theorem solveLoopItems_nil (fl : Flatterned) (m : LoopMatch) (ipats : List CharPat)
    (i fuel : Nat) : solveLoopItems fl m ipats [] i fuel = .ok [] := by
  cases fuel <;> rfl

/-- The index-placeholder pattern `\x7bp:\[x\]\x7d` compiles to the literal
atoms of the placeholder text when the path is plain. -/
theorem compileChunk_idx (p : Str) (hpl : ∀ c ∈ p, plainPatChar c = true) :
    compileChunk (lb :: p ++ ':' :: "\\[x\\]".data ++ [rb]) =
      some (litPats (idxMarkerStr p)) := by
  have h1 : (lb :: p ++ ':' :: "\\[x\\]".data ++ [rb] : Str) =
      (lb :: p) ++ ((':' :: "\\[x\\]".data) ++ [rb]) := by simp
  rw [h1, compileChunk_append_plain (lb :: p) _
    (fun c hc => by
      rcases List.mem_cons.mp hc with h2 | h2
      · rw [h2]; decide
      · exact hpl c h2)]
  rw [show compileChunk ((':' :: "\\[x\\]".data) ++ [rb]) =
    some [.lit ':', .lit '[', .lit 'x', .lit ']', .lit rb] from rfl]
  rw [Option.map_some']
  rw [show idxMarkerStr p = (lb :: p) ++ (':' :: '[' :: 'x' :: ']' :: [rb]) from rfl,
    litPats_append]
  rfl

/-- `solveLoopMatch` on a block whose slice is empty removes the block:
the empty-slice branch replaces the matched text by the empty string, the
item loop contributes nothing, and the final replace finds no second
occurrence. -/
theorem solveLoopMatch_empty (A C' p body : Str) (fl : Flatterned) (f : Nat)
    (hAnl : ∀ c ∈ A, c ≠ lb) (hCnl : ∀ c ∈ C', c ≠ lb)
    (hplain : ∀ c ∈ p, plainPatChar c = true)
    (hempty : arrayLike fl p = []) :
    solveLoopMatch fl (A ++ (loopBlock p body ++ C'))
      ⟨loopBlock p body, p, p, body⟩ none (f + 1) = .ok (A ++ C') := by
  have hrep1 : strReplaceFirst (loopBlock p body) [] (A ++ (loopBlock p body ++ C')) =
      A ++ C' := by
    rw [← List.append_assoc,
      strReplaceFirst_structured A (loopBlock p body) [] C'
        ("@loop:".data ++ (p ++ rb :: (body ++ (lb :: ("@endloop:".data ++ p ++ [rb])))))
        (by simp [loopBlock]) hAnl (fun c hc => absurd hc (List.not_mem_nil c))]
    simp
  have hrep2 : strReplaceFirst (loopBlock p body) [] (A ++ C') = A ++ C' := by
    apply strReplaceFirst_no_occ _ _ _
      ("@loop:".data ++ (p ++ rb :: (body ++ (lb :: ("@endloop:".data ++ p ++ [rb])))))
      (by simp [loopBlock])
    intro c hc
    rcases List.mem_append.mp hc with h1 | h1
    · exact hAnl c h1
    · exact hCnl c h1
  rw [solveLoopMatch]
  dsimp only
  rw [hempty, escape_is_identity, compileChunk_idx p hplain]
  dsimp only
  rw [hrep1]
  rw [solveLoopItems_nil]
  dsimp only
  simp only [List.length_nil]
  rw [if_pos trivial, hrep2]

/-- C6 (amended): for a loop block whose path has no entries in the
flattened data bag, `format()` removes the entire block — body and both
delimiters — and returns the surrounding text, provided the template is
well-formed: the surrounding text contains no opening brace (up to the
case-insensitive comparison of the component scan), the path is non-empty
with plain non-delimiter characters, and the body is rendered from
literal segments, scoped-variable markers and index placeholders over the
same path.  (An ill-formed body can instead raise a `SyntaxError`, as the
counterexample shows.) -/
theorem format_removes_empty_loop (A C' p : Str) (segs : List Seg) (data : Data)
    (fuel : Nat)
    (hA : sideOk A = true) (hC : sideOk C' = true)
    (hp : p ≠ []) (hpl : ∀ c ∈ p, goodPathChar c = true)
    (hsegs : ∀ sg ∈ segs, segOk sg = true)
    (hempty : arrayLike (flattern data []) p = [])
    (hfuel : 3 ≤ fuel) :
    format (mkFormatter (A ++ (loopBlock p (renderBody p segs) ++ C')) data) none fuel =
      .ok (A ++ C',
        { content := A ++ (loopBlock p (renderBody p segs) ++ C'),
          data := data, flatterned := flattern data [],
          formatted := some (A ++ C'), components := [] }) := by
  have hAnl := sideOk_no_lb A hA
  have hCnl := sideOk_no_lb C' hC
  have hplain : ∀ c ∈ p, plainPatChar c = true :=
    fun c hc => (goodPathChar_spec c (hpl c hc)).1
  have hpc : ∀ c ∈ p, c ≠ ':' ∧ c ≠ rb := fun c hc =>
    ⟨(goodPathChar_spec c (hpl c hc)).2.1, (goodPathChar_spec c (hpl c hc)).2.2.2.2.1⟩
  have hforms := block_content_forms A C' p segs hAnl hCnl hpl hsegs
  have hvm : ∀ w ∈ afterChar lb (A ++ (loopBlock p (renderBody p segs) ++ C')),
      varMatchHere none (lb :: w) = none :=
    fun w hw => varMatchHere_block_none p hpl w (hforms w hw)
  have hvarid := solveVariables_id (A ++ (loopBlock p (renderBody p segs) ++ C'))
    (flattern data []) hvm
  have hhv := hasVarMatch_false none _ hvm
  have hcompx : componentExec (A ++ (loopBlock p (renderBody p segs) ++ C')) = none := by
    apply componentExec_none
    · intro c hc hne
      rcases List.mem_append.mp hc with h1 | h1
      · have h2 := (List.all_eq_true.mp hA) c h1
        simpa using h2
      · rcases List.mem_append.mp h1 with h2 | h2
        · exact loopBlock_chars p _ hpl (renderBody_chars p hpl segs hsegs) c h2 hne
        · have h3 := (List.all_eq_true.mp hC) c h2
          simpa using h3
    · exact fun w hw => componentMatchHere_block_none p hp hpl w (hforms w hw)
  have hbT : rb ∉ (renderBody p segs ++
      (lb :: ("@endloop:".data ++ p ++ rb :: C'))).takeWhile
      (fun c => decide (c ≠ ':')) :=
    renderBody_takeWhile p hpl (lb :: "@endloop".data) (p ++ rb :: C')
      (by decide) (by decide) segs hsegs
  have hfind := renderBody_no_needle p hp hpl segs hsegs
    (lb :: ("@endloop:".data ++ p ++ rb :: C'))
  have hm := loopMatchHere_block p (renderBody p segs) C' hp hpc hbT hfind
  have hnf : loopBlock p (renderBody p segs) ++ C' =
      lb :: ("@loop:".data ++ (p ++ rb :: (renderBody p segs ++
        (lb :: ("@endloop:".data ++ p ++ rb :: C'))))) := by
    simp [loopBlock]
  have hexec : loopExec none (A ++ (loopBlock p (renderBody p segs) ++ C')) =
      some { original := loopBlock p (renderBody p segs), loopPath := p, g2 := p,
             child := renderBody p segs } := by
    rw [loopExec_append_left none A _ hAnl, hnf]
    exact loopExec_of_here none lb _ _ (hnf ▸ hm)
  have hneed : isNeedFormat (A ++ (loopBlock p (renderBody p segs) ++ C')) = true := by
    rw [isNeedFormat, hexec, hhv]
    rfl
  have hACnl : ∀ c ∈ A ++ C', c ≠ lb := by
    intro c hc
    rcases List.mem_append.mp hc with h1 | h1
    · exact hAnl c h1
    · exact hCnl c h1
  have hnoneed : isNeedFormat (A ++ C') = false := by
    rw [isNeedFormat, hasVarMatch_no_lb none _ hACnl, loopExec_no_lb none _ hACnl]
    rfl
  obtain ⟨f, rfl⟩ : ∃ f, fuel = f + 3 := ⟨fuel - 3, by omega⟩
  have hsl : solveLoop (flattern data [])
      (A ++ (loopBlock p (renderBody p segs) ++ C')) [] none (f + 3) =
      .ok (A ++ C') := by
    have h1 : solveLoop (flattern data [])
        (A ++ (loopBlock p (renderBody p segs) ++ C')) [] none (f + 3) =
        solveLoopGo (flattern data []) none none
          (A ++ (loopBlock p (renderBody p segs) ++ C')) (f + 2) := by
      rw [solveLoop]
      rfl
    rw [h1, solveLoopGo, hexec]
    dsimp only
    rw [solveLoopMatch_empty A C' p (renderBody p segs) (flattern data []) f
      hAnl hCnl hplain hempty]
    dsimp only
    rw [solveLoopGo, loopExec_no_lb none _ hACnl]
  have hvv : formatVarLoopGo (flattern data []) (f + 3)
      (A ++ (loopBlock p (renderBody p segs) ++ C')) = .ok (A ++ C') := by
    rw [formatVarLoopGo, if_pos hneed, hvarid]
    dsimp only
    rw [hsl]
    dsimp only
    exact formatVarLoopGo_no_need _ _ _ hnoneed
  rw [format]
  dsimp only [mkFormatter]
  rw [formatCompGo_no_comp [] (f + 3) _ data (flattern data [])
    (by rw [isHasComponent, hcompx]; rfl)]
  dsimp only
  rw [hvv]

/-- C6 counterexample: a loop block over an empty collection whose body
contains the variable marker `\x7ba[\x7d` is not removed — `format()` raises a
`SyntaxError` instead, because the marker text is spliced unescaped into
the replacement regex and its `[` opens an unterminated character class. -/
theorem loop_empty_throwing_body_cex :
    format (mkFormatter ("\x7b@loop:items\x7d\x7ba[\x7d\x7b@endloop:items\x7d".data) .nil)
      none 3 = .error .invalidRegex := by
  rfl

/-- Witness for the amended C6 theorem at concrete inputs: the template
`Hi \x7b@loop:items\x7dx\x7bitems:n\x7d \x7b@endloop:items\x7d!` with an empty data bag
formats to `Hi !`. -/
theorem format_removes_empty_loop_witness :
    format (mkFormatter ("Hi ".data ++
        (loopBlock "items".data
          (renderBody "items".data [.lit "x".data, .var "n".data]) ++ "!".data)) .nil)
      none 3 =
      .ok ("Hi ".data ++ "!".data,
        { content := "Hi ".data ++
            (loopBlock "items".data
              (renderBody "items".data [.lit "x".data, .var "n".data]) ++ "!".data),
          data := .nil, flatterned := flattern .nil [],
          formatted := some ("Hi ".data ++ "!".data), components := [] }) :=
  format_removes_empty_loop "Hi ".data "!".data "items".data
    [.lit "x".data, .var "n".data] .nil 3
    (by decide) (by decide) (by decide) (by decide) (by decide) (by rfl) (by omega)

/-- `split` over text without the separator: one piece. -/
theorem splitGo_no_colon : ∀ (s : Str) (fuel : Nat) (acc : Str),
    (∀ c ∈ s, c ≠ ':') → s.length ≤ fuel →
    splitGo [':'] fuel s acc = [acc.reverse ++ s] := by
  intro s
  induction s with
  | nil =>
    intro fuel acc _ _
    cases fuel with
    | zero => rfl
    | succ g => simp [splitGo]
  | cons c rest ih =>
    intro fuel acc hs hf
    cases fuel with
    | zero => simp at hf
    | succ g =>
      rw [splitGo, if_neg (by
        intro hcond
        have h2 := hcond.2
        rw [List.isPrefixOf] at h2
        simp only [Bool.and_eq_true, beq_iff_eq] at h2
        exact hs c (List.mem_cons_self c rest) h2.1.symm)]
      rw [ih g (c :: acc) (fun d hd => hs d (List.mem_cons_of_mem c hd))
        (by simp at hf ⊢; omega)]
      simp

/-- `split` at a single separator occurrence: exactly two pieces. -/
theorem splitGo_to_colon : ∀ (a : Str) (fuel : Nat) (acc b : Str),
    (∀ c ∈ a, c ≠ ':') → (∀ c ∈ b, c ≠ ':') → a.length + b.length + 1 ≤ fuel →
    splitGo [':'] fuel (a ++ ':' :: b) acc = [acc.reverse ++ a, b] := by
  intro a
  induction a with
  | nil =>
    intro fuel acc b _ hb hf
    cases fuel with
    | zero => simp at hf
    | succ g =>
      rw [List.nil_append, splitGo, if_pos (by
        constructor
        · simp
        · rw [List.isPrefixOf]
          simp [List.isPrefixOf])]
      rw [show (':' :: b).drop ([':'] : Str).length = b from rfl]
      rw [splitGo_no_colon b g [] hb (by simp at hf; omega)]
      simp
  | cons c a' ih =>
    intro fuel acc b ha hb hf
    cases fuel with
    | zero => simp at hf
    | succ g =>
      rw [List.cons_append, splitGo, if_neg (by
        intro hcond
        have h2 := hcond.2
        rw [List.isPrefixOf] at h2
        simp only [Bool.and_eq_true, beq_iff_eq] at h2
        exact ha c (List.mem_cons_self c a') h2.1.symm)]
      rw [ih g (c :: acc) b (fun d hd => ha d (List.mem_cons_of_mem c hd)) hb
        (by simp at hf ⊢; omega)]
      simp

/-- The lookup key extracted from a well-formed scoped marker is exactly
the marker's key. -/
theorem markerKey_marker (p k : Str) (hp : p ≠ [])
    (hpc : ∀ c ∈ p, c ≠ ':')
    (hkc : ∀ c ∈ k, c ≠ ':' ∧ c ≠ lb ∧ c ≠ rb) :
    markerKey p (markerStr p k) = k := by
  rw [markerKey, if_pos hp]
  have hsplit : splitOnStr [':'] (markerStr p k) = [lb :: p, k ++ [rb]] := by
    rw [show markerStr p k = (lb :: p) ++ ':' :: (k ++ [rb]) by simp [markerStr],
      splitOnStr]
    rw [splitGo_to_colon (lb :: p) _ [] (k ++ [rb])
      (fun c hc => by
        rcases List.mem_cons.mp hc with h1 | h1
        · rw [h1]; decide
        · exact hpc c h1)
      (fun c hc => by
        rcases List.mem_append.mp hc with h1 | h1
        · exact (hkc c h1).1
        · simp at h1; rw [h1]; decide)
      (by simp; omega)]
    simp
  rw [hsplit]
  rw [show ([lb :: p, k ++ [rb]] : List Str).getLastD [] = k ++ [rb] from rfl]
  rw [stripBraces, List.filter_append,
    List.filter_eq_self.mpr (fun c hc => by simp [(hkc c hc).2.1, (hkc c hc).2.2])]
  simp [rb]

/-- `isPrefixOf` cancels a shared prefix. -/
theorem isPrefixOf_same_append (a x y : Str) :
    List.isPrefixOf (a ++ x) (a ++ y) = List.isPrefixOf x y := by
  induction a with
  | nil => rfl
  | cons c t ih => simp [List.isPrefixOf, ih]

/-- Two distinct brace-free keys: one marker tail never starts the
other's text. -/
theorem isPrefixOf_key_ne : ∀ (k k' u : Str), k ≠ k' → rb ∉ k → rb ∉ k' →
    List.isPrefixOf (k ++ [rb]) (k' ++ rb :: u) = false := by
  intro k
  induction k with
  | nil =>
    intro k' u hne _ hrk'
    cases k' with
    | nil => exact absurd rfl hne
    | cons c t =>
      have hc : ¬rb = c := fun h => hrk' (h ▸ List.mem_cons_self c t)
      rw [List.nil_append, List.cons_append, List.isPrefixOf]
      simp [hc]
  | cons c t ih =>
    intro k' u hne hrk hrk'
    have hcrb : ¬c = rb := fun h => hrk (h ▸ List.mem_cons_self c t)
    cases k' with
    | nil =>
      rw [List.cons_append, List.nil_append, List.isPrefixOf]
      simp [hcrb]
    | cons c' t' =>
      rw [List.cons_append, List.cons_append, List.isPrefixOf]
      by_cases hcc : c = c'
      · subst hcc
        simp only [beq_self_eq_true, Bool.true_and]
        exact ih t' u (fun h => hne (by rw [h]))
          (fun h => hrk (List.mem_cons_of_mem c h))
          (fun h => hrk' (List.mem_cons_of_mem c h))
      · simp [hcc]

/-- `lraGo` is fuel-irrelevant once the fuel covers the text length. -/
theorem lraGo_fuel (pat r : Str) : ∀ (fuel fuel' : Nat) (s : Str),
    s.length ≤ fuel → s.length ≤ fuel' →
    lraGo pat r fuel s = lraGo pat r fuel' s := by
  intro fuel
  induction fuel with
  | zero =>
    intro fuel' s h _
    have hs : s = [] := by
      cases s with
      | nil => rfl
      | cons c t => simp at h
    subst hs
    cases fuel' <;> rfl
  | succ g ih =>
    intro fuel' s h h'
    cases s with
    | nil => cases fuel' <;> rfl
    | cons c rest =>
      cases fuel' with
      | zero => simp at h'
      | succ g' =>
        rw [lraGo, lraGo]
        by_cases hcond : pat ≠ [] ∧ List.isPrefixOf pat (c :: rest) = true
        · rw [if_pos hcond, if_pos hcond]
          have hp1 : 1 ≤ pat.length := by
            cases hp : pat with
            | nil => exact absurd hp hcond.1
            | cons d q => simp
          congr 1
          apply ih
          · rw [List.length_drop]
            simp at h ⊢
            omega
          · rw [List.length_drop]
            simp at h' ⊢
            omega
        · rw [if_neg hcond, if_neg hcond]
          congr 1
          apply ih
          · simp at h; omega
          · simp at h'; omega

/-- Literal replace skips a left part whose brace suffixes never start
the pattern. -/
theorem literalReplaceAll_skip (pt r z : Str) : ∀ (x : Str),
    (∀ w ∈ afterChar lb x, ¬List.isPrefixOf pt (w ++ z) = true) →
    literalReplaceAll (lb :: pt) r (x ++ z) = x ++ literalReplaceAll (lb :: pt) r z := by
  intro x
  induction x with
  | nil => intro _; simp
  | cons c t ih =>
    intro h
    rw [List.cons_append, literalReplaceAll,
      show (c :: (t ++ z) : Str).length = (t ++ z).length + 1 from rfl, lraGo]
    have hpre : ¬(lb :: pt ≠ [] ∧ List.isPrefixOf (lb :: pt) (c :: (t ++ z)) = true) := by
      intro hcond
      have h2 := hcond.2
      rw [List.isPrefixOf] at h2
      simp only [Bool.and_eq_true, beq_iff_eq] at h2
      obtain ⟨hc, hp2⟩ := h2
      subst hc
      exact h t (by rw [afterChar_cons_self]; exact List.mem_cons_self t _) hp2
    rw [if_neg hpre]
    have hc2 : afterChar lb t ⊆ afterChar lb (c :: t) := by
      intro w hw
      by_cases hc : c = lb
      · subst hc; rw [afterChar_cons_self]; exact List.mem_cons_of_mem t hw
      · simpa [afterChar, hc] using hw
    rw [show lraGo (lb :: pt) r (t ++ z).length (t ++ z) =
      literalReplaceAll (lb :: pt) r (t ++ z) from rfl,
      ih (fun w hw => h w (hc2 hw))]
    simp

/-- Literal replace at a leftmost occurrence. -/
theorem literalReplaceAll_at (pat r z : Str) (hne : pat ≠ []) :
    literalReplaceAll pat r (pat ++ z) = r ++ literalReplaceAll pat r z := by
  cases pat with
  | nil => exact absurd rfl hne
  | cons c t =>
    rw [literalReplaceAll, List.cons_append,
      show (c :: (t ++ z) : Str).length = (t ++ z).length + 1 from rfl, lraGo]
    rw [if_pos ⟨hne, by
      rw [show (c :: (t ++ z) : Str) = (c :: t) ++ z from by simp]
      exact List.isPrefixOf_iff_prefix.mpr ⟨z, rfl⟩⟩]
    have hdrop : (c :: (t ++ z)).drop (c :: t).length = z := by
      rw [show ((c :: t : Str)).length = t.length + 1 from rfl,
        show (c :: (t ++ z)).drop (t.length + 1) = (t ++ z).drop t.length from rfl,
        List.drop_left]
    rw [hdrop]
    rw [lraGo_fuel (c :: t) r (t ++ z).length z.length z (by simp) (Nat.le_refl _)]
    rfl

/-- Non-global literal-pattern replace skips a left part whose brace
suffixes never start the pattern. -/
theorem regexReplaceFirst_skip (pt r z : Str) : ∀ (x : Str),
    (∀ w ∈ afterChar lb x, ¬List.isPrefixOf pt (w ++ z) = true) →
    regexReplaceFirst false (litPats (lb :: pt)) r (x ++ z) =
      x ++ regexReplaceFirst false (litPats (lb :: pt)) r z := by
  intro x
  induction x with
  | nil => intro _; simp
  | cons c t ih =>
    intro h
    rw [List.cons_append, regexReplaceFirst]
    have hpre : ¬List.isPrefixOf (lb :: pt) (c :: (t ++ z)) = true := by
      intro h2
      rw [List.isPrefixOf] at h2
      simp only [Bool.and_eq_true, beq_iff_eq] at h2
      obtain ⟨hc, hp2⟩ := h2
      subst hc
      exact h t (by rw [afterChar_cons_self]; exact List.mem_cons_self t _) hp2
    rw [chunkConsume_lit_none _ _ hpre]
    have hc2 : afterChar lb t ⊆ afterChar lb (c :: t) := by
      intro w hw
      by_cases hc : c = lb
      · subst hc; rw [afterChar_cons_self]; exact List.mem_cons_of_mem t hw
      · simpa [afterChar, hc] using hw
    dsimp only
    rw [ih (fun w hw => h w (hc2 hw))]
    simp

/-- Non-global literal-pattern replace at a leftmost occurrence. -/
theorem regexReplaceFirst_at (pat r z : Str) (hne : pat ≠ []) :
    regexReplaceFirst false (litPats pat) r (pat ++ z) = applyDollar pat r ++ z := by
  cases pat with
  | nil => exact absurd rfl hne
  | cons c t =>
    rw [List.cons_append, regexReplaceFirst]
    have hcc := chunkConsume_lit_self (c :: t) z
    rw [List.cons_append] at hcc
    rw [hcc]

/-- The brace suffixes of a single marker. -/
theorem afterChar_marker (p k : Str) (hpnolb : lb ∉ p) (hknolb : lb ∉ k) :
    afterChar lb (markerStr p k) = [p ++ ':' :: (k ++ [rb])] := by
  rw [show markerStr p k = lb :: (p ++ ':' :: (k ++ [rb])) by simp [markerStr],
    afterChar_cons_self]
  rw [afterChar_of_not_mem lb _ (by
    intro hm
    rcases List.mem_append.mp hm with h1 | h1
    · exact hpnolb h1
    rcases List.mem_cons.mp h1 with h2 | h2
    · exact absurd h2 (by decide)
    rcases List.mem_append.mp h2 with h3 | h3
    · exact hknolb h3
    · simp at h3; exact absurd h3 (by decide))]

/-- Every character of a decimal numeral is a digit character. -/
theorem natStrGo_chars : ∀ (fuel n : Nat), ∀ c ∈ natStrGo fuel n,
    ∃ d, d < 10 ∧ c = digitChar d := by
  intro fuel
  induction fuel with
  | zero => intro n c hc; simp [natStrGo] at hc
  | succ g ih =>
    intro n c hc
    rw [natStrGo] at hc
    by_cases hn : n < 10
    · rw [if_pos hn] at hc
      simp at hc
      exact ⟨n, hn, hc⟩
    · rw [if_neg hn] at hc
      rcases List.mem_append.mp hc with h1 | h1
      · exact ih (n / 10) c h1
      · simp at h1
        exact ⟨n % 10, Nat.mod_lt _ (by omega), h1⟩

/-- The ten digit characters avoid every delimiter the loop theorems care
about. -/
theorem digitChar_facts : ∀ d < 10, digitChar d ≠ lb ∧ digitChar d ≠ '$' ∧
    digitChar d ≠ ':' ∧ digitChar d ≠ rb ∧ eqCI lb (digitChar d) = false := by
  decide

/-- A decimal numeral contains no brace and no dollar. -/
theorem natStr_chars (n : Nat) : ∀ c ∈ natStr n, c ≠ lb ∧ c ≠ '$' := by
  intro c hc
  obtain ⟨d, hd, rfl⟩ := natStrGo_chars (n + 1) n c hc
  exact ⟨(digitChar_facts d hd).1, (digitChar_facts d hd).2.1⟩

/-- The non-global index-placeholder replace on a rendered body
substitutes exactly the first placeholder segment. -/
theorem regexReplaceFirst_render (p : Str) (hpnolb : lb ∉ p)
    (i : Nat) : ∀ (segs : List Seg),
    (∀ s, Seg.lit s ∈ segs → ∀ c ∈ s, c ≠ lb) →
    (∀ k, Seg.var k ∈ segs → k ≠ [] ∧ (∀ c ∈ k, c ≠ lb) ∧ (∀ c ∈ k, c ≠ '[')) →
    regexReplaceFirst false (litPats (idxMarkerStr p)) (natStr i) (renderBody p segs) =
      renderBody p (substIdx i segs) := by
  intro segs
  rw [show idxMarkerStr p = lb :: (p ++ ':' :: '[' :: 'x' :: ']' :: [rb])
    by simp [idxMarkerStr]]
  induction segs with
  | nil => intro _ _; rfl
  | cons sg rest ih =>
    intro hlit hvar
    have hlit' := fun s hs => hlit s (List.mem_cons_of_mem sg hs)
    have hvar' := fun k hk => hvar k (List.mem_cons_of_mem sg hk)
    cases sg with
    | lit s =>
      rw [renderBody,
        regexReplaceFirst_skip _ _ _ s (by
          rw [afterChar_of_not_mem lb s
            (fun hm => hlit s (List.mem_cons_self _ _) lb hm rfl)]
          intro w hw
          exact absurd hw (List.not_mem_nil w)),
        ih hlit' hvar']
      rfl
    | var k =>
      obtain ⟨hkne, hknolb, hknobr⟩ := hvar k (List.mem_cons_self _ _)
      rw [renderBody,
        regexReplaceFirst_skip _ _ _ (markerStr p k) (by
          rw [afterChar_marker p k hpnolb (fun hm => hknolb lb hm rfl)]
          intro w hw
          rcases List.mem_cons.mp hw with h1 | h1
          · subst h1
            intro hpre
            rw [show (p ++ ':' :: (k ++ [rb])) ++ renderBody p rest =
              p ++ (':' :: ((k ++ [rb]) ++ renderBody p rest)) by simp,
              show (p ++ ':' :: '[' :: 'x' :: ']' :: [rb] : Str) =
                p ++ (':' :: ('[' :: 'x' :: ']' :: [rb])) from rfl,
              isPrefixOf_same_append, List.isPrefixOf] at hpre
            simp only [Bool.and_eq_true, beq_iff_eq] at hpre
            cases hk : k with
            | nil => exact hkne hk
            | cons k₀ k' =>
              rw [hk, show ((k₀ :: k') ++ [rb]) ++ renderBody p rest =
                k₀ :: ((k' ++ [rb]) ++ renderBody p rest) by simp,
                List.isPrefixOf] at hpre
              simp only [Bool.and_eq_true, beq_iff_eq] at hpre
              exact hknobr k₀ (hk ▸ List.mem_cons_self k₀ k') hpre.2.1.symm
          · exact absurd h1 (List.not_mem_nil w)),
        ih hlit' hvar']
      rfl
    | idx =>
      rw [renderBody,
        show idxMarkerStr p ++ renderBody p rest =
          (lb :: (p ++ ':' :: '[' :: 'x' :: ']' :: [rb])) ++ renderBody p rest
          by simp [idxMarkerStr],
        regexReplaceFirst_at _ _ _ (by simp),
        applyDollar_id _ _ (fun c hc => (natStr_chars i c hc).2)]
      rfl

/-- Global literal replace of one scoped marker on a rendered body:
exactly the segments with that key are substituted. -/
theorem literalReplaceAll_render (p k val : Str) (hpnolb : lb ∉ p)
    (hkne : k ≠ []) (hknorb : rb ∉ k) :
    ∀ (segs : List Seg),
    (∀ s, Seg.lit s ∈ segs → ∀ c ∈ s, c ≠ lb) →
    (∀ k', Seg.var k' ∈ segs → k' ≠ [] ∧ lb ∉ k' ∧ rb ∉ k') →
    Seg.idx ∉ segs →
    literalReplaceAll (lb :: (p ++ ':' :: (k ++ [rb]))) val (renderBody p segs) =
      renderBody p (substVar k val segs) := by
  intro segs
  induction segs with
  | nil => intro _ _ _; rfl
  | cons sg rest ih =>
    intro hlit hvar hnoidx
    have hlit' := fun s hs => hlit s (List.mem_cons_of_mem sg hs)
    have hvar' := fun k' hk => hvar k' (List.mem_cons_of_mem sg hk)
    have hnoidx' : Seg.idx ∉ rest := fun hm => hnoidx (List.mem_cons_of_mem sg hm)
    cases sg with
    | lit s =>
      rw [renderBody,
        literalReplaceAll_skip _ _ _ s (by
          rw [afterChar_of_not_mem lb s
            (fun hm => hlit s (List.mem_cons_self _ _) lb hm rfl)]
          intro w hw
          exact absurd hw (List.not_mem_nil w)),
        ih hlit' hvar' hnoidx']
      rfl
    | var k' =>
      obtain ⟨hk'ne, hk'nolb, hk'norb⟩ := hvar k' (List.mem_cons_self _ _)
      by_cases hkk : k' = k
      · subst hkk
        rw [renderBody,
          show markerStr p k' ++ renderBody p rest =
            (lb :: (p ++ ':' :: (k' ++ [rb]))) ++ renderBody p rest
            by simp [markerStr],
          literalReplaceAll_at _ _ _ (by simp),
          ih hlit' hvar' hnoidx']
        rw [show substVar k' val (Seg.var k' :: rest) =
          Seg.lit val :: substVar k' val rest by simp [substVar]]
        rfl
      · rw [renderBody,
          literalReplaceAll_skip _ _ _ (markerStr p k') (by
            rw [afterChar_marker p k' hpnolb hk'nolb]
            intro w hw
            rcases List.mem_cons.mp hw with h1 | h1
            · subst h1
              intro hpre
              rw [show (p ++ ':' :: (k' ++ [rb])) ++ renderBody p rest =
                p ++ (':' :: (k' ++ rb :: renderBody p rest)) by simp,
                show (p ++ ':' :: (k ++ [rb]) : Str) =
                  p ++ (':' :: (k ++ [rb])) from rfl,
                isPrefixOf_same_append, List.isPrefixOf] at hpre
              simp only [Bool.and_eq_true, beq_iff_eq] at hpre
              rw [isPrefixOf_key_ne k k' _ (fun h => hkk (h.symm)) hknorb hk'norb] at hpre
              exact Bool.false_ne_true hpre.2
            · exact absurd h1 (List.not_mem_nil w)),
          ih hlit' hvar' hnoidx']
        rw [show substVar k val (Seg.var k' :: rest) =
          Seg.var k' :: substVar k val rest by simp [substVar, hkk]]
        rfl
    | idx => exact absurd (List.mem_cons_self _ _) hnoidx

/-- The scoped scan skips brace-free literal text. -/
theorem varScanGo_skip_lit (pfxp : Option (List CharPat)) : ∀ (s t : Str) (fuel : Nat),
    (∀ c ∈ s, c ≠ lb) → s.length ≤ fuel →
    varScanGo pfxp fuel (s ++ t) = varScanGo pfxp (fuel - s.length) t := by
  intro s
  induction s with
  | nil => intro t fuel _ _; simp
  | cons c s' ih =>
    intro t fuel hs hf
    cases fuel with
    | zero => simp at hf
    | succ g =>
      rw [List.cons_append, varScanGo,
        varMatchHere_not_lb _ _ _ (hs c (List.mem_cons_self c s')),
        ih t g (fun d hd => hs d (List.mem_cons_of_mem c hd)) (by simp at hf; omega)]
      rw [show (g + 1) - (c :: s' : Str).length = g - s'.length from by
        simp [Nat.succ_sub_succ]]

/-- The scoped variable pattern matches a scoped marker at its start. -/
theorem varMatchHere_marker (p k rest : Str) (hkne : k ≠ [])
    (hkc : ∀ c ∈ k, c ≠ ':' ∧ c ≠ rb) :
    varMatchHere (some (litPats p)) (lb :: (p ++ ':' :: (k ++ rb :: rest))) =
      some (markerStr p k, rest) := by
  rw [varMatchHere, if_pos rfl]
  rw [chunkConsume_lit_self p (':' :: (k ++ rb :: rest))]
  show Option.map (fun pr => (lb :: p ++ ':' :: pr.1 ++ [rb], pr.2))
    (varBody (k ++ rb :: rest)) = some (markerStr p k, rest)
  rw [varBody_exact k rest hkne hkc]
  rfl

/-- The scoped scan on a rendered body finds exactly its markers. -/
theorem varScanGo_render (p : Str) :
    ∀ (segs : List Seg) (fuel : Nat),
    (renderBody p segs).length ≤ fuel →
    (∀ s, Seg.lit s ∈ segs → ∀ c ∈ s, c ≠ lb) →
    (∀ k, Seg.var k ∈ segs → k ≠ [] ∧ ∀ c ∈ k, c ≠ ':' ∧ c ≠ rb) →
    Seg.idx ∉ segs →
    varScanGo (some (litPats p)) fuel (renderBody p segs) = segMarkers p segs := by
  intro segs
  induction segs with
  | nil =>
    intro fuel _ _ _ _
    cases fuel <;> rfl
  | cons sg rest ih =>
    intro fuel hf hlit hvar hnoidx
    have hlit' := fun s hs => hlit s (List.mem_cons_of_mem sg hs)
    have hvar' := fun k hk => hvar k (List.mem_cons_of_mem sg hk)
    have hnoidx' : Seg.idx ∉ rest := fun hm => hnoidx (List.mem_cons_of_mem sg hm)
    cases sg with
    | lit s =>
      rw [renderBody] at hf ⊢
      rw [varScanGo_skip_lit _ s _ fuel
        (hlit s (List.mem_cons_self _ _)) (by simp at hf; omega)]
      rw [ih (fuel - s.length) (by simp at hf; omega) hlit' hvar' hnoidx']
      rfl
    | var k =>
      obtain ⟨hkne, hkc⟩ := hvar k (List.mem_cons_self _ _)
      rw [renderBody] at hf ⊢
      cases fuel with
      | zero => simp [markerStr] at hf
      | succ g =>
        rw [show markerStr p k ++ renderBody p rest =
          lb :: (p ++ ':' :: (k ++ rb :: renderBody p rest)) by simp [markerStr]]
        rw [varScanGo, varMatchHere_marker p k _ hkne hkc]
        dsimp only
        rw [ih g (by simp [markerStr] at hf ⊢; omega) hlit' hvar' hnoidx']
        rfl
    | idx => exact absurd (List.mem_cons_self _ _) hnoidx

/-- Deduplication commutes with an injective map. -/
theorem firstOccursGo_map_inj (f : Str → Str) (hinj : ∀ a b, f a = f b → a = b) :
    ∀ (fuel : Nat) (l : List Str),
    firstOccursGo fuel (l.map f) = (firstOccursGo fuel l).map f := by
  intro fuel
  induction fuel with
  | zero => intro l; rfl
  | succ g ih =>
    intro l
    cases l with
    | nil => rfl
    | cons x xs =>
      rw [List.map_cons, firstOccursGo, firstOccursGo, List.map_cons]
      congr 1
      have hfil : (xs.map f).filter (fun y => decide (y ≠ f x)) =
          (xs.filter (fun y => decide (y ≠ x))).map f := by
        rw [List.filter_map]
        congr 1
        apply List.filter_congr
        intro a _
        by_cases hax : a = x
        · subst hax; simp
        · have hfx : ¬f a = f x := fun h => hax (hinj a x h)
          simp [hax, hfx]
      rw [hfil, ih]

/-- Deduplication of the whole list commutes with an injective map. -/
theorem firstOccurs_map_inj (f : Str → Str) (hinj : ∀ a b, f a = f b → a = b)
    (l : List Str) : firstOccurs (l.map f) = (firstOccurs l).map f := by
  rw [firstOccurs, firstOccurs, List.length_map, firstOccursGo_map_inj f hinj]

/-- `markerStr` is injective in the key. -/
theorem markerStr_inj (p a b : Str) (h : markerStr p a = markerStr p b) : a = b := by
  simp [markerStr] at h
  exact h

/-- The markers of a rendered body are the marker texts of its keys. -/
theorem segMarkers_eq_map (p : Str) : ∀ segs,
    segMarkers p segs = (segKeys segs).map (markerStr p) := by
  intro segs
  induction segs with
  | nil => rfl
  | cons sg rest ih => cases sg <;> simp [segMarkers, segKeys, ih]

/-- Deduplication keeps every element. -/
theorem firstOccursGo_mem : ∀ (fuel : Nat) (l : List Str), l.length ≤ fuel →
    ∀ x ∈ l, x ∈ firstOccursGo fuel l := by
  intro fuel
  induction fuel with
  | zero =>
    intro l hl x hx
    cases l with
    | nil => exact absurd hx (List.not_mem_nil x)
    | cons y ys => simp at hl
  | succ g ih =>
    intro l hl x hx
    cases l with
    | nil => exact absurd hx (List.not_mem_nil x)
    | cons y ys =>
      rw [firstOccursGo]
      rcases List.mem_cons.mp hx with h1 | h1
      · subst h1; exact List.mem_cons_self x _
      · by_cases hxy : x = y
        · subst hxy; exact List.mem_cons_self x _
        · apply List.mem_cons_of_mem
          apply ih
          · calc (ys.filter (fun z => decide (z ≠ y))).length ≤ ys.length :=
              List.length_filter_le _ ys
            _ ≤ g := by simp at hl; omega
          · exact List.mem_filter.mpr ⟨h1, by simp [hxy]⟩

/-- Equation lemmas for the segment substitutions (stated separately
because the matches have overlapping patterns). -/
theorem substVar_litc (k v s : Str) (rest : List Seg) :
    substVar k v (.lit s :: rest) = .lit s :: substVar k v rest := rfl

theorem substVar_varc (k v k₀ : Str) (rest : List Seg) :
    substVar k v (.var k₀ :: rest) =
      (if k₀ = k then .lit v else .var k₀) :: substVar k v rest := rfl

theorem substVar_idxc (k v : Str) (rest : List Seg) :
    substVar k v (.idx :: rest) = .idx :: substVar k v rest := rfl

theorem substVars_litc (r : Flatterned) (s : Str) (rest : List Seg) :
    substVars r (.lit s :: rest) = .lit s :: substVars r rest := rfl

theorem substVars_varc (r : Flatterned) (k : Str) (rest : List Seg) :
    substVars r (.var k :: rest) =
      .lit (Prim.toStr (lookupVal r k)) :: substVars r rest := rfl

theorem substVars_idxc (r : Flatterned) (rest : List Seg) :
    substVars r (.idx :: rest) = .idx :: substVars r rest := rfl

theorem substIdx_litc (i : Nat) (s : Str) (rest : List Seg) :
    substIdx i (.lit s :: rest) = .lit s :: substIdx i rest := rfl

theorem substIdx_varc (i : Nat) (k : Str) (rest : List Seg) :
    substIdx i (.var k :: rest) = .var k :: substIdx i rest := rfl

theorem substIdx_idxc (i : Nat) (rest : List Seg) :
    substIdx i (.idx :: rest) = .lit (natStr i) :: rest := rfl

/-- A body with no scoped-variable segments is unchanged by a full
substitution pass. -/
theorem substVars_id_of_novar (r : Flatterned) : ∀ (segs : List Seg),
    (∀ k, Seg.var k ∉ segs) → substVars r segs = segs := by
  intro segs
  induction segs with
  | nil => intro _; rfl
  | cons sg rest ih =>
    intro h
    have h' : ∀ k, Seg.var k ∉ rest := fun k hm => h k (List.mem_cons_of_mem sg hm)
    cases sg with
    | lit s => rw [substVars_litc, ih h']
    | var k => exact absurd (List.mem_cons_self _ _) (h k)
    | idx => rw [substVars_idxc, ih h']

/-- Substituting one key first does not change the result of the full
pass. -/
theorem substVars_substVar (r : Flatterned) (k : Str) : ∀ (segs : List Seg),
    substVars r (substVar k (Prim.toStr (lookupVal r k)) segs) = substVars r segs := by
  intro segs
  induction segs with
  | nil => rfl
  | cons sg rest ih =>
    cases sg with
    | lit s => rw [substVar_litc, substVars_litc, ih, substVars_litc]
    | var k' =>
      by_cases hkk : k' = k
      · subst hkk
        rw [substVar_varc, if_pos rfl, substVars_litc, ih, substVars_varc]
      · rw [substVar_varc, if_neg hkk, substVars_varc, ih, substVars_varc]
    | idx => rw [substVar_idxc, substVars_idxc, ih, substVars_idxc]

/-- The scoped-variable segments surviving one key's substitution. -/
theorem substVar_var_mem (k v : Str) : ∀ (segs : List Seg) (k' : Str),
    Seg.var k' ∈ substVar k v segs → k' ≠ k ∧ Seg.var k' ∈ segs := by
  intro segs
  induction segs with
  | nil => intro k' h; exact absurd h (List.not_mem_nil _)
  | cons sg rest ih =>
    intro k' h
    cases sg with
    | lit s =>
      rw [substVar_litc] at h
      rcases List.mem_cons.mp h with h1 | h1
      · exact absurd h1 (by simp)
      · obtain ⟨h2, h3⟩ := ih k' h1
        exact ⟨h2, List.mem_cons_of_mem _ h3⟩
    | var k₀ =>
      rw [substVar_varc] at h
      rcases List.mem_cons.mp h with h1 | h1
      · by_cases hkk : k₀ = k
        · rw [if_pos hkk] at h1
          exact absurd h1 (by simp)
        · rw [if_neg hkk] at h1
          simp at h1
          subst h1
          exact ⟨hkk, List.mem_cons_self _ _⟩
      · obtain ⟨h2, h3⟩ := ih k' h1
        exact ⟨h2, List.mem_cons_of_mem _ h3⟩
    | idx =>
      rw [substVar_idxc] at h
      rcases List.mem_cons.mp h with h1 | h1
      · exact absurd h1 (by simp)
      · obtain ⟨h2, h3⟩ := ih k' h1
        exact ⟨h2, List.mem_cons_of_mem _ h3⟩

/-- One key's substitution introduces no index placeholder. -/
theorem substVar_idx_mem (k v : Str) : ∀ (segs : List Seg),
    Seg.idx ∉ segs → Seg.idx ∉ substVar k v segs := by
  intro segs
  induction segs with
  | nil => intro _ h; exact absurd h (List.not_mem_nil _)
  | cons sg rest ih =>
    intro hn h
    have hn' : Seg.idx ∉ rest := fun hm => hn (List.mem_cons_of_mem sg hm)
    cases sg with
    | lit s =>
      rw [substVar_litc] at h
      rcases List.mem_cons.mp h with h1 | h1
      · exact absurd h1 (by simp)
      · exact ih hn' h1
    | var k₀ =>
      rw [substVar_varc] at h
      rcases List.mem_cons.mp h with h1 | h1
      · by_cases hkk : k₀ = k
        · rw [if_pos hkk] at h1; exact absurd h1 (by simp)
        · rw [if_neg hkk] at h1; exact absurd h1 (by simp)
      · exact ih hn' h1
    | idx => exact absurd (List.mem_cons_self _ _) hn

/-- The literal segments after one key's substitution: the substituted
value or an original literal. -/
theorem substVar_lit_mem (k v : Str) : ∀ (segs : List Seg) (s : Str),
    Seg.lit s ∈ substVar k v segs → s = v ∨ Seg.lit s ∈ segs := by
  intro segs
  induction segs with
  | nil => intro s h; exact absurd h (List.not_mem_nil _)
  | cons sg rest ih =>
    intro s h
    cases sg with
    | lit s₀ =>
      rw [substVar_litc] at h
      rcases List.mem_cons.mp h with h1 | h1
      · simp at h1; subst h1; right; exact List.mem_cons_self _ _
      · rcases ih s h1 with h2 | h2
        · exact Or.inl h2
        · exact Or.inr (List.mem_cons_of_mem _ h2)
    | var k₀ =>
      rw [substVar_varc] at h
      rcases List.mem_cons.mp h with h1 | h1
      · by_cases hkk : k₀ = k
        · rw [if_pos hkk] at h1
          simp at h1
          exact Or.inl h1
        · rw [if_neg hkk] at h1
          exact absurd h1 (by simp)
      · rcases ih s h1 with h2 | h2
        · exact Or.inl h2
        · exact Or.inr (List.mem_cons_of_mem _ h2)
    | idx =>
      rw [substVar_idxc] at h
      rcases List.mem_cons.mp h with h1 | h1
      · exact absurd h1 (by simp)
      · rcases ih s h1 with h2 | h2
        · exact Or.inl h2
        · exact Or.inr (List.mem_cons_of_mem _ h2)

/-- Looked-up values of a record with `valOk` values contain no brace and
no dollar. -/
theorem lookupVal_chars (r : Flatterned) (hrv : ∀ kv ∈ r, valOk kv.2 = true)
    (k : Str) : ∀ c ∈ Prim.toStr (lookupVal r k), c ≠ lb ∧ c ≠ '$' := by
  intro c hc
  cases hg : jsGet r k with
  | none =>
    rw [lookupVal, hg] at hc
    exact absurd hc (List.not_mem_nil c)
  | some v =>
    have hg' := hg
    rw [jsGet] at hg'
    obtain ⟨kv, hfind, hkv2⟩ := Option.map_eq_some'.mp hg'
    have hok := hrv kv (List.mem_of_find?_eq_some hfind)
    rw [hkv2] at hok
    rw [lookupVal, hg] at hc
    cases v with
    | null => exact absurd hc (List.not_mem_nil c)
    | str s =>
      have h2 := List.all_eq_true.mp hok c hc
      simp at h2
      exact h2
    | int n =>
      have h2 := List.all_eq_true.mp hok c hc
      simp at h2
      exact h2
    | bool b =>
      have h2 := List.all_eq_true.mp hok c hc
      simp at h2
      exact h2

/-- A marker over plain path and key characters is itself plain. -/
theorem markerStr_plain (p k : Str) (hpl : ∀ c ∈ p, plainPatChar c = true)
    (hkl : ∀ c ∈ k, plainPatChar c = true) :
    ∀ c ∈ markerStr p k, plainPatChar c = true := by
  intro c hc
  rw [show markerStr p k = lb :: (p ++ ':' :: (k ++ [rb])) by simp [markerStr]] at hc
  rcases List.mem_cons.mp hc with h1 | h1
  · rw [h1]; decide
  rcases List.mem_append.mp h1 with h2 | h2
  · exact hpl c h2
  rcases List.mem_cons.mp h2 with h3 | h3
  · rw [h3]; decide
  rcases List.mem_append.mp h3 with h4 | h4
  · exact hkl c h4
  · simp at h4; rw [h4]; decide

/-- The marker-by-marker fold of `solveVariables` on a rendered body:
substituting each distinct key in turn yields the fully substituted
body. -/
theorem foldM_subst (p : Str) (r : Flatterned)
    (hpne : p ≠ []) (hpl : ∀ c ∈ p, goodPathChar c = true)
    (hval : ∀ k, ∀ c ∈ Prim.toStr (lookupVal r k), c ≠ lb ∧ c ≠ '$') :
    ∀ (ks : List Str) (segs : List Seg),
    (∀ k ∈ ks, k ≠ [] ∧ ∀ c ∈ k, goodPathChar c = true) →
    (∀ s, Seg.lit s ∈ segs → ∀ c ∈ s, c ≠ lb) →
    (∀ k', Seg.var k' ∈ segs → k' ∈ ks) →
    Seg.idx ∉ segs →
    List.foldlM
      (fun cur varPath =>
        match compileChunk (escape varPath) with
        | none => Except.error Err.invalidRegex
        | some rpats =>
          Except.ok (regexReplaceAll rpats
            (Prim.toStr (lookupVal r (markerKey p varPath))) cur))
      (renderBody p segs) (ks.map (markerStr p)) =
      .ok (renderBody p (substVars r segs)) := by
  intro ks
  induction ks with
  | nil =>
    intro segs _ _ hvar _
    rw [List.map_nil, List.foldlM_nil,
      substVars_id_of_novar r segs
        (fun k hm => absurd (hvar k hm) (List.not_mem_nil k))]
    rfl
  | cons k ks' ih =>
    intro segs hks hlit hvar hnoidx
    obtain ⟨hkne, hkgood⟩ := hks k (List.mem_cons_self k ks')
    have hkplain : ∀ c ∈ k, plainPatChar c = true :=
      fun c hc => (goodPathChar_spec c (hkgood c hc)).1
    have hpplain : ∀ c ∈ p, plainPatChar c = true :=
      fun c hc => (goodPathChar_spec c (hpl c hc)).1
    have hpnolb : lb ∉ p :=
      fun hm => (goodPathChar_spec lb (hpl lb hm)).2.2.2.1 rfl
    rw [List.map_cons, List.foldlM_cons]
    rw [escape_is_identity, compileChunk_plain (markerStr p k)
      (markerStr_plain p k hpplain hkplain)]
    dsimp only
    rw [markerKey_marker p k hpne
      (fun c hc => (goodPathChar_spec c (hpl c hc)).2.1)
      (fun c hc => ⟨(goodPathChar_spec c (hkgood c hc)).2.1,
        (goodPathChar_spec c (hkgood c hc)).2.2.2.1,
        (goodPathChar_spec c (hkgood c hc)).2.2.2.2.1⟩)]
    rw [regexReplaceAll_eq_literal (markerStr p k) _ _ (by simp [markerStr])
      (fun c hc => (hval k c hc).2)]
    rw [show markerStr p k = lb :: (p ++ ':' :: (k ++ [rb])) by simp [markerStr]]
    rw [literalReplaceAll_render p k _ hpnolb hkne
      (fun hm => (goodPathChar_spec rb (hkgood rb hm)).2.2.2.2.1 rfl)
      segs hlit
      (fun k' hk' => by
        obtain ⟨hk'ne, hk'good⟩ := hks k' (hvar k' hk')
        exact ⟨hk'ne,
          fun hm => (goodPathChar_spec lb (hk'good lb hm)).2.2.2.1 rfl,
          fun hm => (goodPathChar_spec rb (hk'good rb hm)).2.2.2.2.1 rfl⟩)
      hnoidx]
    rw [show (Except.ok (renderBody p
        (substVar k (Prim.toStr (lookupVal r k)) segs)) >>=
        fun b => List.foldlM (fun cur varPath =>
          match compileChunk (escape varPath) with
          | none => Except.error Err.invalidRegex
          | some rpats =>
            Except.ok (regexReplaceAll rpats
              (Prim.toStr (lookupVal r (markerKey p varPath))) cur)) b
          (ks'.map (markerStr p))) =
      List.foldlM (fun cur varPath =>
          match compileChunk (escape varPath) with
          | none => Except.error Err.invalidRegex
          | some rpats =>
            Except.ok (regexReplaceAll rpats
              (Prim.toStr (lookupVal r (markerKey p varPath))) cur))
        (renderBody p (substVar k (Prim.toStr (lookupVal r k)) segs))
        (ks'.map (markerStr p)) from rfl]
    rw [ih (substVar k (Prim.toStr (lookupVal r k)) segs)
      (fun k₀ hk₀ => hks k₀ (List.mem_cons_of_mem k hk₀))
      (fun s hs c hc => by
        rcases substVar_lit_mem k _ segs s hs with h1 | h1
        · subst h1; exact (hval k c hc).1
        · exact hlit s h1 c hc)
      (fun k' hk' => by
        obtain ⟨hkk, hmem⟩ := substVar_var_mem k _ segs k' hk'
        rcases List.mem_cons.mp (hvar k' hmem) with h1 | h1
        · exact absurd h1 hkk
        · exact h1)
      (substVar_idx_mem k _ segs hnoidx)]
    rw [substVars_substVar]

/-- A body containing a scoped marker renders to non-empty text. -/
theorem renderBody_ne_nil_of_var (p k : Str) : ∀ (segs : List Seg),
    Seg.var k ∈ segs → renderBody p segs ≠ [] := by
  intro segs
  induction segs with
  | nil => intro h; exact absurd h (List.not_mem_nil _)
  | cons sg rest ih =>
    intro hm
    cases sg with
    | lit s =>
      rcases List.mem_cons.mp hm with h1 | h1
      · exact absurd h1 (by simp)
      · rw [renderBody]
        intro h
        obtain ⟨_, hr⟩ := List.append_eq_nil.mp h
        exact ih h1 hr
    | var k₀ =>
      rw [renderBody, show markerStr p k₀ ++ renderBody p rest =
        lb :: (p ++ ':' :: (k₀ ++ [rb]) ++ renderBody p rest) by simp [markerStr]]
      exact List.cons_ne_nil _ _
    | idx =>
      rw [renderBody, show idxMarkerStr p ++ renderBody p rest =
        lb :: (p ++ ':' :: '[' :: 'x' :: ']' :: [rb] ++ renderBody p rest)
        by simp [idxMarkerStr]]
      exact List.cons_ne_nil _ _

/-- The keys of the variable segments are exactly the keys occurring in
the body. -/
theorem segKeys_mem : ∀ (segs : List Seg) (k : Str),
    k ∈ segKeys segs ↔ Seg.var k ∈ segs := by
  intro segs
  induction segs with
  | nil => intro k; simp [segKeys]
  | cons sg rest ih =>
    intro k
    cases sg with
    | lit s => simp [segKeys, ih]
    | var k₀ => simp [segKeys, ih]
    | idx => simp [segKeys, ih]

/-- A scoped `solveVariables` pass on a rendered (index-free) body
substitutes every scoped marker by its record value. -/
theorem solveVariables_render (p : Str) (r : Flatterned)
    (hpne : p ≠ []) (hpl : ∀ c ∈ p, goodPathChar c = true)
    (hval : ∀ k, ∀ c ∈ Prim.toStr (lookupVal r k), c ≠ lb ∧ c ≠ '$')
    (segs : List Seg)
    (hlit : ∀ s, Seg.lit s ∈ segs → ∀ c ∈ s, c ≠ lb)
    (hvar : ∀ k, Seg.var k ∈ segs → k ≠ [] ∧ ∀ c ∈ k, goodPathChar c = true)
    (hnoidx : Seg.idx ∉ segs) :
    solveVariables (renderBody p segs) r p = .ok (renderBody p (substVars r segs)) := by
  have hpplain : ∀ c ∈ p, plainPatChar c = true :=
    fun c hc => (goodPathChar_spec c (hpl c hc)).1
  rw [solveVariables]
  by_cases hcz : renderBody p segs = []
  · rw [if_pos hcz, substVars_id_of_novar r segs
      (fun k hm => renderBody_ne_nil_of_var p k segs hm hcz), hcz]
  · rw [if_neg hcz, if_neg hpne, escape_is_identity, compileChunk_plain p hpplain]
    simp only [Option.map_some']
    rw [varScan, varScanGo_render p segs _ (Nat.le_refl _) hlit
      (fun k hk => ⟨(hvar k hk).1,
        fun c hc => ⟨(goodPathChar_spec c ((hvar k hk).2 c hc)).2.1,
          (goodPathChar_spec c ((hvar k hk).2 c hc)).2.2.2.2.1⟩⟩)
      hnoidx]
    rw [segMarkers_eq_map, firstOccurs_map_inj (markerStr p) (markerStr_inj p)]
    rw [foldM_subst p r hpne hpl hval (firstOccurs (segKeys segs)) segs
      (fun k hk => hvar k ((segKeys_mem segs k).mp
        (firstOccursGo_subset (segKeys segs).length (segKeys segs) k hk)))
      hlit
      (fun k' hk' => firstOccursGo_mem (segKeys segs).length (segKeys segs)
        (Nat.le_refl _) k' ((segKeys_mem segs k').mpr hk'))
      hnoidx]

/-- Expansion of a non-empty segment list, one segment at a time. -/
theorem expandItem_cons (sg : Seg) (rest : List Seg) (i : Nat) (r : Flatterned) :
    expandItem (sg :: rest) i r = expandSeg r i sg ++ expandItem rest i r := by
  simp [expandItem]

/-- An index-free substituted body renders to the concatenated
expansions. -/
theorem render_noidx_expand (p : Str) (r : Flatterned) (i : Nat) : ∀ (segs : List Seg),
    Seg.idx ∉ segs →
    renderBody p (substVars r segs) = expandItem segs i r := by
  intro segs
  induction segs with
  | nil => intro _; rfl
  | cons sg rest ih =>
    intro hn
    have hn' : Seg.idx ∉ rest := fun hm => hn (List.mem_cons_of_mem sg hm)
    cases sg with
    | lit s =>
      rw [substVars_litc, renderBody, ih hn', expandItem_cons]
      rfl
    | var k =>
      rw [substVars_varc, renderBody, ih hn', expandItem_cons]
      rfl
    | idx => exact absurd (List.mem_cons_self _ _) hn

/-- `idxCount` equations. -/
theorem idxCount_litc (s : Str) (rest : List Seg) :
    idxCount (.lit s :: rest) = idxCount rest := by
  simp [idxCount, List.countP_cons]

theorem idxCount_varc (k : Str) (rest : List Seg) :
    idxCount (.var k :: rest) = idxCount rest := by
  simp [idxCount, List.countP_cons]

theorem idxCount_idxc (rest : List Seg) :
    idxCount (.idx :: rest) = idxCount rest + 1 := by
  simp [idxCount, List.countP_cons]

/-- A zero `idxCount` means no placeholder segment. -/
theorem idxCount_zero (segs : List Seg) (h : idxCount segs = 0) : Seg.idx ∉ segs := by
  intro hm
  rw [idxCount, List.countP_eq_zero] at h
  exact absurd (by simp) (h Seg.idx hm)

/-- The index-substituted, variable-substituted body renders to the
spec-side expansion of the item. -/
theorem render_subst_expand (p : Str) (r : Flatterned) (i : Nat) : ∀ (segs : List Seg),
    idxCount segs ≤ 1 →
    renderBody p (substVars r (substIdx i segs)) = expandItem segs i r := by
  intro segs
  induction segs with
  | nil => intro _; rfl
  | cons sg rest ih =>
    intro hcount
    cases sg with
    | lit s =>
      rw [idxCount_litc] at hcount
      rw [substIdx_litc, substVars_litc, renderBody, ih hcount, expandItem_cons]
      rfl
    | var k =>
      rw [idxCount_varc] at hcount
      rw [substIdx_varc, substVars_varc, renderBody, ih hcount, expandItem_cons]
      rfl
    | idx =>
      rw [idxCount_idxc] at hcount
      have hzero : idxCount rest = 0 := by omega
      rw [substIdx_idxc, substVars_litc, renderBody,
        render_noidx_expand p r i rest (idxCount_zero rest hzero), expandItem_cons]
      rfl

/-- `solveLoop` on brace-free content is the identity (no match, loop
exits at once). -/
theorem solveLoop_no_lb (fl : Flatterned) (s pfxStr : Str) (idx : Option Nat)
    (fuel : Nat) (hs : ∀ c ∈ s, c ≠ lb)
    (hpfx : pfxStr = [] ∨ ∀ c ∈ pfxStr, plainPatChar c = true)
    (hf : 2 ≤ fuel) :
    solveLoop fl s pfxStr idx fuel = .ok s := by
  obtain ⟨g, rfl⟩ : ∃ g, fuel = g + 2 := ⟨fuel - 2, by omega⟩
  by_cases hz : pfxStr = []
  · subst hz
    have h2 : solveLoop fl s [] idx (g + 2) = solveLoopGo fl none idx s (g + 1) := by
      rw [solveLoop]
      rfl
    rw [h2, solveLoopGo, loopExec_no_lb _ _ hs]
  · rcases hpfx with h1 | h1
    · exact absurd h1 hz
    · rw [solveLoop, if_neg hz, compileChunk_plain pfxStr h1]
      simp only [Option.map_some']
      rw [solveLoopGo, loopExec_no_lb _ _ hs]

/-- Unpacking of `recordOk`. -/
theorem recordOk_spec (r : Flatterned) (h : recordOk r = true) :
    ∀ kv ∈ r, kv.1 ≠ [] ∧ (∀ c ∈ kv.1, goodPathChar c = true) ∧ valOk kv.2 = true := by
  intro kv hkv
  rw [recordOk, Bool.and_eq_true] at h
  have h2 := List.all_eq_true.mp h.2 kv hkv
  simp only [Bool.and_eq_true, decide_eq_true_eq] at h2
  exact ⟨h2.1.1, fun c hc => List.all_eq_true.mp h2.1.2 c hc, h2.2⟩

/-- Spec-side expansions of a well-formed body contain no brace and no
dollar. -/
theorem expandItem_chars (r : Flatterned) (i : Nat)
    (hval : ∀ k, ∀ c ∈ Prim.toStr (lookupVal r k), c ≠ lb ∧ c ≠ '$') :
    ∀ (segs : List Seg), (∀ sg ∈ segs, segOk sg = true) →
    ∀ c ∈ expandItem segs i r, c ≠ lb ∧ c ≠ '$' := by
  intro segs
  induction segs with
  | nil => intro _ c hc; simp [expandItem] at hc
  | cons sg rest ih =>
    intro hsegs c hc
    have hseg := hsegs sg (List.mem_cons_self sg rest)
    have hrest := fun s hs => hsegs s (List.mem_cons_of_mem sg hs)
    rw [expandItem_cons] at hc
    rcases List.mem_append.mp hc with h1 | h1
    · cases sg with
      | lit s =>
        have h2 := goodLitChar_spec c ((List.all_eq_true.mp hseg) c h1)
        exact ⟨h2.1, h2.2.2.2.2.1⟩
      | var k => exact hval k c h1
      | idx => exact natStr_chars i c h1
    · exact ih hrest c h1

/-- Variable segments survive the index substitution unchanged. -/
theorem substIdx_var_mem (i : Nat) : ∀ (segs : List Seg) (k : Str),
    Seg.var k ∈ substIdx i segs → Seg.var k ∈ segs := by
  intro segs
  induction segs with
  | nil => intro k h; exact absurd h (List.not_mem_nil _)
  | cons sg rest ih =>
    intro k h
    cases sg with
    | lit s =>
      rw [substIdx_litc] at h
      rcases List.mem_cons.mp h with h1 | h1
      · exact absurd h1 (by simp)
      · exact List.mem_cons_of_mem _ (ih k h1)
    | var k₀ =>
      rw [substIdx_varc] at h
      rcases List.mem_cons.mp h with h1 | h1
      · simp at h1; subst h1; exact List.mem_cons_self _ _
      · exact List.mem_cons_of_mem _ (ih k h1)
    | idx =>
      rw [substIdx_idxc] at h
      rcases List.mem_cons.mp h with h1 | h1
      · exact absurd h1 (by simp)
      · exact List.mem_cons_of_mem _ h1

/-- Literal segments after the index substitution: the decimal index or
an original literal. -/
theorem substIdx_lit_mem (i : Nat) : ∀ (segs : List Seg) (s : Str),
    Seg.lit s ∈ substIdx i segs → s = natStr i ∨ Seg.lit s ∈ segs := by
  intro segs
  induction segs with
  | nil => intro s h; exact absurd h (List.not_mem_nil _)
  | cons sg rest ih =>
    intro s h
    cases sg with
    | lit s₀ =>
      rw [substIdx_litc] at h
      rcases List.mem_cons.mp h with h1 | h1
      · simp at h1; subst h1; right; exact List.mem_cons_self _ _
      · rcases ih s h1 with h2 | h2
        · exact Or.inl h2
        · exact Or.inr (List.mem_cons_of_mem _ h2)
    | var k₀ =>
      rw [substIdx_varc] at h
      rcases List.mem_cons.mp h with h1 | h1
      · exact absurd h1 (by simp)
      · rcases ih s h1 with h2 | h2
        · exact Or.inl h2
        · exact Or.inr (List.mem_cons_of_mem _ h2)
    | idx =>
      rw [substIdx_idxc] at h
      rcases List.mem_cons.mp h with h1 | h1
      · simp at h1; exact Or.inl h1
      · exact Or.inr (List.mem_cons_of_mem _ h1)

/-- With at most one placeholder, none survives the index substitution. -/
theorem substIdx_noidx (i : Nat) : ∀ (segs : List Seg),
    idxCount segs ≤ 1 → Seg.idx ∉ substIdx i segs := by
  intro segs
  induction segs with
  | nil => intro _ h; exact absurd h (List.not_mem_nil _)
  | cons sg rest ih =>
    intro hc h
    cases sg with
    | lit s =>
      rw [idxCount_litc] at hc
      rw [substIdx_litc] at h
      rcases List.mem_cons.mp h with h1 | h1
      · exact absurd h1 (by simp)
      · exact ih hc h1
    | var k =>
      rw [idxCount_varc] at hc
      rw [substIdx_varc] at h
      rcases List.mem_cons.mp h with h1 | h1
      · exact absurd h1 (by simp)
      · exact ih hc h1
    | idx =>
      rw [idxCount_idxc] at hc
      rw [substIdx_idxc] at h
      rcases List.mem_cons.mp h with h1 | h1
      · exact absurd h1 (by simp)
      · have hzero : idxCount rest = 0 := by omega
        exact idxCount_zero rest hzero h1

/-- The per-item loop of `solveLoopMatch` on a well-formed block and
well-formed records produces exactly the spec-side expansions. -/
theorem solveLoopItems_render (p : Str) (fl : Flatterned) (segs : List Seg)
    (m : LoopMatch) (hmc : m.child = renderBody p segs) (hmp : m.loopPath = p)
    (hpne : p ≠ []) (hpl : ∀ c ∈ p, goodPathChar c = true)
    (hsegs : ∀ sg ∈ segs, segOk sg = true)
    (hidx : idxCount segs ≤ 1) :
    ∀ (records : List Flatterned) (i fuel : Nat),
    (∀ r ∈ records, recordOk r = true) →
    records.length + 2 ≤ fuel →
    solveLoopItems fl m (litPats (idxMarkerStr p)) records i fuel =
      .ok (specExpandFrom segs i records) := by
  have hpnolb : lb ∉ p :=
    fun hm => (goodPathChar_spec lb (hpl lb hm)).2.2.2.1 rfl
  have hpplain : ∀ c ∈ p, plainPatChar c = true :=
    fun c hc => (goodPathChar_spec c (hpl c hc)).1
  have hlit : ∀ s, Seg.lit s ∈ segs → ∀ c ∈ s, c ≠ lb := by
    intro s hs c hc
    have h2 := hsegs (Seg.lit s) hs
    exact (goodLitChar_spec c ((List.all_eq_true.mp h2) c hc)).1
  have hvark : ∀ k, Seg.var k ∈ segs → k ≠ [] ∧ ∀ c ∈ k, goodPathChar c = true := by
    intro k hk
    have h2 := hsegs (Seg.var k) hk
    simp only [segOk, Bool.and_eq_true, decide_eq_true_eq] at h2
    exact ⟨h2.1, fun c hc => List.all_eq_true.mp h2.2 c hc⟩
  intro records
  induction records with
  | nil =>
    intro i fuel _ _
    rw [solveLoopItems_nil]
    rfl
  | cons r rest ih =>
    intro i fuel hrec hf
    obtain ⟨g, rfl⟩ : ∃ g, fuel = g + 1 := ⟨fuel - 1, by omega⟩
    have hval : ∀ k, ∀ c ∈ Prim.toStr (lookupVal r k), c ≠ lb ∧ c ≠ '$' :=
      fun k => lookupVal_chars r (fun kv hkv =>
        (recordOk_spec r (hrec r (List.mem_cons_self r rest)) kv hkv).2.2) k
    rw [solveLoopItems]
    rw [hmc, hmp]
    rw [regexReplaceFirst_render p hpnolb i segs hlit
      (fun k hk => ⟨(hvark k hk).1,
        fun c hc => (goodPathChar_spec c ((hvark k hk).2 c hc)).2.2.2.1,
        fun c hc => fun he =>
          by have h3 := (goodPathChar_spec c ((hvark k hk).2 c hc)).1
             rw [he] at h3
             exact absurd h3 (by decide)⟩)]
    rw [solveVariables_render p r hpne hpl hval (substIdx i segs)
      (fun s hs c hc => by
        rcases substIdx_lit_mem i segs s hs with h1 | h1
        · subst h1; exact (natStr_chars i c hc).1
        · exact hlit s h1 c hc)
      (fun k hk => hvark k (substIdx_var_mem i segs k hk))
      (substIdx_noidx i segs hidx)]
    dsimp only
    rw [render_subst_expand p r i segs hidx]
    rw [solveLoop_no_lb fl _ [] none g
      (fun c hc => (expandItem_chars r i hval segs hsegs c hc).1)
      (Or.inl rfl) (by simp at hf; omega)]
    dsimp only
    rw [solveLoop_no_lb fl _ p (some i) g
      (fun c hc => (expandItem_chars r i hval segs hsegs c hc).1)
      (Or.inr hpplain) (by simp at hf; omega)]
    dsimp only
    rw [ih (i + 1) g (fun r' hr' => hrec r' (List.mem_cons_of_mem r hr'))
      (by simp at hf ⊢; omega)]
    rfl

/-- `specExpand` via the indexed recursion. -/
theorem specExpandFrom_enum (segs : List Seg) : ∀ (records : List Flatterned) (i : Nat),
    ((List.enumFrom i records).map (fun pr => expandItem segs pr.1 pr.2)).flatten =
      specExpandFrom segs i records := by
  intro records
  induction records with
  | nil => intro i; rfl
  | cons r rest ih =>
    intro i
    rw [List.enumFrom_cons, List.map_cons, List.flatten_cons, ih (i + 1)]
    rfl

/-- `specExpand` is `specExpandFrom` at index `0`. -/
theorem specExpand_eq_from (segs : List Seg) (records : List Flatterned) :
    specExpand segs records = specExpandFrom segs 0 records := by
  rw [specExpand, show records.enum = List.enumFrom 0 records from rfl,
    specExpandFrom_enum]

/-- The concatenated expansions contain no brace and no dollar. -/
theorem specExpandFrom_chars (segs : List Seg)
    (hsegs : ∀ sg ∈ segs, segOk sg = true) :
    ∀ (records : List Flatterned) (i : Nat),
    (∀ r ∈ records, recordOk r = true) →
    ∀ c ∈ specExpandFrom segs i records, c ≠ lb ∧ c ≠ '$' := by
  intro records
  induction records with
  | nil => intro i _ c hc; simp [specExpandFrom] at hc
  | cons r rest ih =>
    intro i hrec c hc
    rw [specExpandFrom] at hc
    rcases List.mem_append.mp hc with h1 | h1
    · exact expandItem_chars r i
        (fun k => lookupVal_chars r (fun kv hkv =>
          (recordOk_spec r (hrec r (List.mem_cons_self r rest)) kv hkv).2.2) k)
        segs hsegs c h1
    · exact ih (i + 1) (fun r' hr' => hrec r' (List.mem_cons_of_mem r hr')) c h1

/-- `solveLoopMatch` on a well-formed block with a well-formed slice
replaces the block by the concatenated expansions. -/
theorem solveLoopMatch_records (A C' p : Str) (segs : List Seg) (fl : Flatterned)
    (f : Nat)
    (hAnl : ∀ c ∈ A, c ≠ lb) (hCnl : ∀ c ∈ C', c ≠ lb)
    (hpne : p ≠ []) (hpl : ∀ c ∈ p, goodPathChar c = true)
    (hsegs : ∀ sg ∈ segs, segOk sg = true)
    (hidx : idxCount segs ≤ 1)
    (records : List Flatterned)
    (hrecords : arrayLike fl p = records)
    (hrecok : ∀ r ∈ records, recordOk r = true)
    (hf : records.length + 2 ≤ f) :
    solveLoopMatch fl (A ++ (loopBlock p (renderBody p segs) ++ C'))
      ⟨loopBlock p (renderBody p segs), p, p, renderBody p segs⟩ none (f + 1) =
      .ok (A ++ (specExpand segs records ++ C')) := by
  have hpplain : ∀ c ∈ p, plainPatChar c = true :=
    fun c hc => (goodPathChar_spec c (hpl c hc)).1
  by_cases hrn : records = []
  · subst hrn
    rw [show specExpand segs [] = ([] : Str) from rfl, List.nil_append]
    exact solveLoopMatch_empty A C' p (renderBody p segs) fl f hAnl hCnl
      hpplain hrecords
  · rw [solveLoopMatch]
    dsimp only
    rw [hrecords, if_neg (by
      intro h
      exact hrn (List.length_eq_zero.mp h))]
    rw [escape_is_identity, compileChunk_idx p hpplain]
    dsimp only
    rw [solveLoopItems_render p fl segs _ rfl rfl hpne hpl hsegs hidx records 0 f
      hrecok hf]
    dsimp only
    rw [← List.append_assoc,
      strReplaceFirst_structured A (loopBlock p (renderBody p segs)) _ C'
        ("@loop:".data ++ (p ++ rb :: (renderBody p segs ++
          (lb :: ("@endloop:".data ++ p ++ [rb])))))
        (by simp [loopBlock]) hAnl
        (fun c hc => (specExpandFrom_chars segs hsegs records 0 hrecok c hc).2)]
    rw [specExpand_eq_from, List.append_assoc]

/-- C4 (amended): for a well-formed loop block whose path resolves to `N`
well-formed records in the flattened data bag, `format()` replaces the
block by exactly the `N` concatenated expansions of the body in order,
the `i`-th with its index placeholder resolved to `i` and its scoped
variables resolved from the `i`-th record.  Well-formedness requires: the
surrounding text has no opening brace (up to the component scan's
case-insensitive comparison), the path and the record keys are non-empty
and free of marker delimiters and regex specials, the body is rendered
from literal segments, scoped markers and at most one index placeholder
over the same path, and the record values introduce no brace and no
dollar.  (Outside these conditions the wildcard and escaping bugs shown
in the counterexample make the expansion garbled or throwing.) -/
theorem format_expands_loop (A C' p : Str) (segs : List Seg) (data : Data)
    (records : List Flatterned) (fuel : Nat)
    (hA : sideOk A = true) (hC : sideOk C' = true)
    (hp : p ≠ []) (hpl : ∀ c ∈ p, goodPathChar c = true)
    (hsegs : ∀ sg ∈ segs, segOk sg = true)
    (hidx : idxCount segs ≤ 1)
    (hrecords : arrayLike (flattern data []) p = records)
    (hrecok : ∀ r ∈ records, recordOk r = true)
    (hfuel : records.length + 5 ≤ fuel) :
    format (mkFormatter (A ++ (loopBlock p (renderBody p segs) ++ C')) data) none fuel =
      .ok (A ++ (specExpand segs records ++ C'),
        { content := A ++ (loopBlock p (renderBody p segs) ++ C'),
          data := data, flatterned := flattern data [],
          formatted := some (A ++ (specExpand segs records ++ C')),
          components := [] }) := by
  have hAnl := sideOk_no_lb A hA
  have hCnl := sideOk_no_lb C' hC
  have hpc : ∀ c ∈ p, c ≠ ':' ∧ c ≠ rb := fun c hc =>
    ⟨(goodPathChar_spec c (hpl c hc)).2.1, (goodPathChar_spec c (hpl c hc)).2.2.2.2.1⟩
  have hforms := block_content_forms A C' p segs hAnl hCnl hpl hsegs
  have hvm : ∀ w ∈ afterChar lb (A ++ (loopBlock p (renderBody p segs) ++ C')),
      varMatchHere none (lb :: w) = none :=
    fun w hw => varMatchHere_block_none p hpl w (hforms w hw)
  have hvarid := solveVariables_id (A ++ (loopBlock p (renderBody p segs) ++ C'))
    (flattern data []) hvm
  have hhv := hasVarMatch_false none _ hvm
  have hcompx : componentExec (A ++ (loopBlock p (renderBody p segs) ++ C')) = none := by
    apply componentExec_none
    · intro c hc hne
      rcases List.mem_append.mp hc with h1 | h1
      · have h2 := (List.all_eq_true.mp hA) c h1
        simpa using h2
      · rcases List.mem_append.mp h1 with h2 | h2
        · exact loopBlock_chars p _ hpl (renderBody_chars p hpl segs hsegs) c h2 hne
        · have h3 := (List.all_eq_true.mp hC) c h2
          simpa using h3
    · exact fun w hw => componentMatchHere_block_none p hp hpl w (hforms w hw)
  have hbT : rb ∉ (renderBody p segs ++
      (lb :: ("@endloop:".data ++ p ++ rb :: C'))).takeWhile
      (fun c => decide (c ≠ ':')) :=
    renderBody_takeWhile p hpl (lb :: "@endloop".data) (p ++ rb :: C')
      (by decide) (by decide) segs hsegs
  have hfind := renderBody_no_needle p hp hpl segs hsegs
    (lb :: ("@endloop:".data ++ p ++ rb :: C'))
  have hm := loopMatchHere_block p (renderBody p segs) C' hp hpc hbT hfind
  have hnf : loopBlock p (renderBody p segs) ++ C' =
      lb :: ("@loop:".data ++ (p ++ rb :: (renderBody p segs ++
        (lb :: ("@endloop:".data ++ p ++ rb :: C'))))) := by
    simp [loopBlock]
  have hexec : loopExec none (A ++ (loopBlock p (renderBody p segs) ++ C')) =
      some { original := loopBlock p (renderBody p segs), loopPath := p, g2 := p,
             child := renderBody p segs } := by
    rw [loopExec_append_left none A _ hAnl, hnf]
    exact loopExec_of_here none lb _ _ (hnf ▸ hm)
  have hneed : isNeedFormat (A ++ (loopBlock p (renderBody p segs) ++ C')) = true := by
    rw [isNeedFormat, hexec, hhv]
    rfl
  have hspecnl : ∀ c ∈ specExpand segs records, c ≠ lb := by
    rw [specExpand_eq_from]
    intro c hc
    exact (specExpandFrom_chars segs hsegs records 0 hrecok c hc).1
  have hRnl : ∀ c ∈ A ++ (specExpand segs records ++ C'), c ≠ lb := by
    intro c hc
    rcases List.mem_append.mp hc with h1 | h1
    · exact hAnl c h1
    rcases List.mem_append.mp h1 with h2 | h2
    · exact hspecnl c h2
    · exact hCnl c h2
  have hnoneed : isNeedFormat (A ++ (specExpand segs records ++ C')) = false := by
    rw [isNeedFormat, hasVarMatch_no_lb none _ hRnl, loopExec_no_lb none _ hRnl]
    rfl
  obtain ⟨f, hf2, rfl⟩ : ∃ f, records.length + 2 ≤ f ∧ fuel = f + 3 :=
    ⟨fuel - 3, by omega, by omega⟩
  have hsl : solveLoop (flattern data [])
      (A ++ (loopBlock p (renderBody p segs) ++ C')) [] none (f + 3) =
      .ok (A ++ (specExpand segs records ++ C')) := by
    have h1 : solveLoop (flattern data [])
        (A ++ (loopBlock p (renderBody p segs) ++ C')) [] none (f + 3) =
        solveLoopGo (flattern data []) none none
          (A ++ (loopBlock p (renderBody p segs) ++ C')) (f + 2) := by
      rw [solveLoop]
      rfl
    rw [h1, solveLoopGo, hexec]
    dsimp only
    rw [solveLoopMatch_records A C' p segs (flattern data []) f hAnl hCnl hp hpl
      hsegs hidx records hrecords hrecok hf2]
    dsimp only
    rw [solveLoopGo, loopExec_no_lb none _ hRnl]
  have hvv : formatVarLoopGo (flattern data []) (f + 3)
      (A ++ (loopBlock p (renderBody p segs) ++ C')) =
      .ok (A ++ (specExpand segs records ++ C')) := by
    rw [formatVarLoopGo, if_pos hneed, hvarid]
    dsimp only
    rw [hsl]
    dsimp only
    exact formatVarLoopGo_no_need _ _ _ hnoneed
  rw [format]
  dsimp only [mkFormatter]
  rw [formatCompGo_no_comp [] (f + 3) _ data (flattern data [])
    (by rw [isHasComponent, hcompx]; rfl)]
  dsimp only
  rw [hvv]

/-- Witness for the amended C4 theorem at the spec's own example: the
template `\x7b@loop:items\x7d\x7bitems:n\x7d \x7b@endloop:items\x7d` over
`\x7bitems: [\x7bn: 1\x7d, \x7bn: 2\x7d]\x7d` formats to `1 2 `. -/
theorem format_expands_loop_witness :
    format (mkFormatter ([] ++ (loopBlock "items".data
        (renderBody "items".data [.var "n".data, .lit " ".data]) ++ []))
      (JObj.ofList [("items".data, .arr (JArr.ofList
        [.obj (JObj.ofList [("n".data, .prim (.int 1))]),
         .obj (JObj.ofList [("n".data, .prim (.int 2))])]))])) none 7 =
      .ok ([] ++ (specExpand [.var "n".data, .lit " ".data]
          [[("n".data, Prim.int 1)], [("n".data, Prim.int 2)]] ++ []),
        { content := [] ++ (loopBlock "items".data
            (renderBody "items".data [.var "n".data, .lit " ".data]) ++ []),
          data := JObj.ofList [("items".data, .arr (JArr.ofList
            [.obj (JObj.ofList [("n".data, .prim (.int 1))]),
             .obj (JObj.ofList [("n".data, .prim (.int 2))])]))],
          flatterned := flattern (JObj.ofList [("items".data, .arr (JArr.ofList
            [.obj (JObj.ofList [("n".data, .prim (.int 1))]),
             .obj (JObj.ofList [("n".data, .prim (.int 2))])]))]) [],
          formatted := some ([] ++ (specExpand [.var "n".data, .lit " ".data]
            [[("n".data, Prim.int 1)], [("n".data, Prim.int 2)]] ++ [])),
          components := [] }) :=
  format_expands_loop [] [] "items".data [.var "n".data, .lit " ".data]
    (JObj.ofList [("items".data, .arr (JArr.ofList
      [.obj (JObj.ofList [("n".data, .prim (.int 1))]),
       .obj (JObj.ofList [("n".data, .prim (.int 2))])]))])
    [[("n".data, Prim.int 1)], [("n".data, Prim.int 2)]] 7
    (by decide) (by decide) (by decide) (by decide) (by decide) (by decide)
    (by rfl) (by decide) (by decide)

end Mailer
